import Mathlib

/-!
Verification of `scripts/update_catalog.py`.

Strings of the Python source are modelled as `List Char` (Python `str`
indexes by code point, exactly as a list of characters does).  Python's
`-1`-returning `str.find` is modelled with `Option Nat`.  Fallible Python
functions (those that `raise`) return `Option`.
-/

set_option maxHeartbeats 1000000
set_option synthInstance.maxHeartbeats 400000
set_option maxRecDepth 4000

abbrev Str := List Char

/-- `matchAt s pat i` holds when `pat` occurs in `s` starting at index `i`
(the test `s[i:i+len(pat)] == pat`). -/
def matchAt (s pat : Str) (i : Nat) : Bool :=
  pat.isPrefixOf (s.drop i)

/-- First index `j` (from the start of `s`) at which `pat` occurs; `none` if
`pat` does not occur.  Used only with non-empty patterns, where it agrees
with Python `s.find(pat)`. -/
def sfindFrom (pat : Str) : Str → Option Nat
  | [] => none
  | c :: rest =>
    if pat.isPrefixOf (c :: rest) then some 0
    else (sfindFrom pat rest).map (· + 1)

/-- Python `s.find(pat, i)` (for non-empty `pat`): first occurrence index
`≥ i`, as an `Option`. -/
def sfind (s pat : Str) (i : Nat) : Option Nat :=
  (sfindFrom pat (s.drop i)).map (· + i)

theorem matchAt_cons_succ (c : Char) (rest pat : Str) (j : Nat) :
    matchAt (c :: rest) pat (j + 1) = matchAt rest pat j := rfl

theorem matchAt_cons_zero (c : Char) (rest pat : Str) :
    matchAt (c :: rest) pat 0 = pat.isPrefixOf (c :: rest) := rfl

theorem matchAt_length_le {s pat : Str} {i : Nat} (hne : pat ≠ [])
    (h : matchAt s pat i = true) : i + pat.length ≤ s.length := by
  unfold matchAt at h
  have hp : pat <+: s.drop i := (List.isPrefixOf_iff_prefix).1 h
  have h1 := hp.length_le
  rw [List.length_drop] at h1
  have h2 : 1 ≤ pat.length := List.length_pos.2 hne
  omega

theorem sfindFrom_match {pat s : Str} {j : Nat} (h : sfindFrom pat s = some j) :
    matchAt s pat j = true := by
  induction s generalizing j with
  | nil => simp [sfindFrom] at h
  | cons c rest ih =>
    unfold sfindFrom at h
    cases hp : pat.isPrefixOf (c :: rest) with
    | true =>
      rw [hp] at h
      simp at h
      subst h
      exact hp
    | false =>
      rw [hp] at h
      simp at h
      obtain ⟨k, hk, rfl⟩ := h
      rw [matchAt_cons_succ]
      exact ih hk

theorem sfindFrom_min {pat s : Str} {j : Nat} (h : sfindFrom pat s = some j)
    {k : Nat} (hk : k < j) : matchAt s pat k = false := by
  induction s generalizing j k with
  | nil => simp [sfindFrom] at h
  | cons c rest ih =>
    unfold sfindFrom at h
    cases hp : pat.isPrefixOf (c :: rest) with
    | true => rw [hp] at h; simp at h; omega
    | false =>
      rw [hp] at h
      simp at h
      obtain ⟨m, hm, rfl⟩ := h
      cases k with
      | zero => exact hp
      | succ k' =>
        rw [matchAt_cons_succ]
        exact ih hm (by omega)

theorem sfindFrom_none {pat s : Str} (hne : pat ≠ []) (h : sfindFrom pat s = none)
    (j : Nat) : matchAt s pat j = false := by
  induction s generalizing j with
  | nil =>
    cases pat with
    | nil => exact absurd rfl hne
    | cons p ps => simp [matchAt, List.isPrefixOf]
  | cons c rest ih =>
    unfold sfindFrom at h
    cases hp : pat.isPrefixOf (c :: rest) with
    | true => rw [hp] at h; simp at h
    | false =>
      rw [hp] at h
      simp at h
      cases j with
      | zero => exact hp
      | succ j' =>
        rw [matchAt_cons_succ]
        exact ih h j'

theorem sfindFrom_of_match {pat s : Str} {j : Nat} (hne : pat ≠ [])
    (hj : matchAt s pat j = true)
    (hmin : ∀ k, k < j → matchAt s pat k = false) : sfindFrom pat s = some j := by
  induction s generalizing j with
  | nil =>
    cases pat with
    | nil => exact absurd rfl hne
    | cons p ps => simp [matchAt, List.isPrefixOf] at hj
  | cons c rest ih =>
    unfold sfindFrom
    cases j with
    | zero =>
      rw [matchAt_cons_zero] at hj
      rw [hj]
      simp
    | succ j' =>
      have h0 := hmin 0 (by omega)
      rw [matchAt_cons_zero] at h0
      rw [h0]
      have hrec : sfindFrom pat rest = some j' := by
        refine ih ?_ ?_
        · rw [← matchAt_cons_succ c]; exact hj
        · intro k hk
          rw [← matchAt_cons_succ c]
          exact hmin (k + 1) (by omega)
      simp [hrec]

/-- Characterisation of `sfind`: success. -/
theorem sfind_some {s pat : Str} {i j : Nat} (h : sfind s pat i = some j) :
    i ≤ j ∧ matchAt s pat j = true ∧ ∀ k, i ≤ k → k < j → matchAt s pat k = false := by
  unfold sfind at h
  cases hf : sfindFrom pat (s.drop i) with
  | none => rw [hf] at h; simp at h
  | some m =>
    rw [hf] at h
    simp at h
    subst h
    have hm := sfindFrom_match hf
    refine ⟨by omega, ?_, ?_⟩
    · unfold matchAt at hm ⊢
      rw [List.drop_drop] at hm
      rwa [Nat.add_comm i m] at hm
    · intro k hik hkj
      have hmin := sfindFrom_min hf (k := k - i) (by omega)
      unfold matchAt at hmin ⊢
      rw [List.drop_drop] at hmin
      rw [Nat.add_sub_cancel' hik] at hmin
      exact hmin

theorem sfind_none {s pat : Str} {i : Nat} (hne : pat ≠ []) (h : sfind s pat i = none) :
    ∀ j, i ≤ j → matchAt s pat j = false := by
  intro j hij
  unfold sfind at h
  cases hf : sfindFrom pat (s.drop i) with
  | some m => rw [hf] at h; simp at h
  | none =>
    have hn := sfindFrom_none hne hf (j - i)
    unfold matchAt at hn ⊢
    rw [List.drop_drop] at hn
    rw [Nat.add_sub_cancel' hij] at hn
    exact hn

theorem sfind_of_match {s pat : Str} {i j : Nat} (hne : pat ≠ []) (hij : i ≤ j)
    (hj : matchAt s pat j = true)
    (hmin : ∀ k, i ≤ k → k < j → matchAt s pat k = false) :
    sfind s pat i = some j := by
  unfold sfind
  have hfrom : sfindFrom pat (s.drop i) = some (j - i) := by
    apply sfindFrom_of_match hne
    · unfold matchAt
      rw [List.drop_drop, Nat.add_sub_cancel' hij]
      exact hj
    · intro k hk
      have := hmin (i + k) (by omega) (by omega)
      unfold matchAt at this ⊢
      rw [List.drop_drop]
      exact this
  rw [hfrom]
  simp
  omega

theorem isPrefixOf_take {pat l : Str} {n : Nat} (hn : pat.length ≤ n) :
    pat.isPrefixOf (l.take n) = pat.isPrefixOf l := by
  induction pat generalizing l n with
  | nil => simp [List.isPrefixOf]
  | cons p ps ih =>
    cases l with
    | nil => simp
    | cons c cs =>
      cases n with
      | zero => simp at hn
      | succ m =>
        simp only [List.take_succ_cons, List.isPrefixOf]
        rw [ih (by simpa using hn)]

theorem matchAt_take_eq {s pat : Str} {j m : Nat} (h : j + pat.length ≤ m) :
    matchAt (s.take m) pat j = matchAt s pat j := by
  unfold matchAt
  rw [List.drop_take]
  exact isPrefixOf_take (by omega)

theorem matchAt_congr_take {s t pat : Str} {j m : Nat} (hst : s.take m = t.take m)
    (h : j + pat.length ≤ m) : matchAt s pat j = matchAt t pat j := by
  rw [← matchAt_take_eq (s := s) h, ← matchAt_take_eq (s := t) h, hst]

theorem matchAt_append_left {A B pat : Str} {j : Nat} (h : j + pat.length ≤ A.length) :
    matchAt (A ++ B) pat j = matchAt A pat j := by
  have htake : (A ++ B).take A.length = A := by
    rw [List.take_left]
  calc matchAt (A ++ B) pat j = matchAt ((A ++ B).take A.length) pat j :=
        (matchAt_take_eq h).symm
    _ = matchAt A pat j := by rw [htake]

theorem matchAt_append_right (A B pat : Str) (j : Nat) :
    matchAt (A ++ B) pat (A.length + j) = matchAt B pat j := by
  unfold matchAt
  rw [← List.drop_drop, List.drop_left]

theorem matchAt_append_right_ge {A B pat : Str} {j : Nat} (h : A.length ≤ j) :
    matchAt (A ++ B) pat j = matchAt B pat (j - A.length) := by
  have : j = A.length + (j - A.length) := by omega
  rw [this, matchAt_append_right]
  congr 1
  omega

/-- If an occurrence of `pat` crosses the boundary `A.length` of `A ++ B`,
then a non-final character of `pat` coincides with the last character of `A`. -/
theorem matchAt_cross_imp {A B pat : Str} {j : Nat} (h1 : j < A.length)
    (h2 : A.length < j + pat.length) (h : matchAt (A ++ B) pat j = true) :
    ∃ k, k + 1 < pat.length ∧ pat[k]? = A[A.length - 1]? := by
  refine ⟨A.length - 1 - j, by omega, ?_⟩
  unfold matchAt at h
  have hp : pat <+: (A ++ B).drop j := (List.isPrefixOf_iff_prefix).1 h
  obtain ⟨rest, hrest⟩ := hp
  have hidx : pat[A.length - 1 - j]? = (A ++ B)[A.length - 1]? := by
    have h3 : (A ++ B)[A.length - 1]? = ((A ++ B).drop j)[A.length - 1 - j]? := by
      rw [List.getElem?_drop]
      congr 1
      omega
    rw [h3, ← hrest, List.getElem?_append_left (by omega)]
  rw [hidx, List.getElem?_append_left (by omega)]

/-- No occurrence of `pat` crosses position `m` of `s`. -/
def noCross (s : Str) (m : Nat) (pat : Str) : Prop :=
  ∀ j, j < m → m < j + pat.length → matchAt s pat j = false

theorem sfind_append_eq_left {A B pat : Str} {i j : Nat} (hne : pat ≠ [])
    (h : sfind A pat i = some j) : sfind (A ++ B) pat i = some j := by
  obtain ⟨hij, hmatch, hmin⟩ := sfind_some h
  have hlen := matchAt_length_le hne hmatch
  apply sfind_of_match hne hij
  · rw [matchAt_append_left (by omega)]
    exact hmatch
  · intro k hik hkj
    rw [matchAt_append_left (by omega)]
    exact hmin k hik hkj

theorem sfind_append_ge {A B pat : Str} {m : Nat} (hm : A.length ≤ m) :
    sfind (A ++ B) pat m = (sfind B pat (m - A.length)).map (· + A.length) := by
  unfold sfind
  have : (A ++ B).drop m = B.drop (m - A.length) := by
    rw [List.drop_append_eq_append_drop]
    have : A.drop m = [] := List.drop_eq_nil_of_le (by omega)
    rw [this, List.nil_append]
  rw [this]
  cases sfindFrom pat (B.drop (m - A.length)) with
  | none => simp
  | some v => simp; omega

theorem sfind_append_of_left_none {A B pat : Str} {i : Nat} (hne : pat ≠ [])
    (hi : i ≤ A.length) (hnc : noCross (A ++ B) A.length pat)
    (h : sfind A pat i = none) :
    sfind (A ++ B) pat i = (sfind B pat 0).map (· + A.length) := by
  have hnoA : ∀ k, i ≤ k → matchAt A pat k = false := sfind_none hne h
  cases hB : sfind B pat 0 with
  | none =>
    have hnoB := sfind_none hne hB
    cases hs : sfind (A ++ B) pat i with
    | none => simp
    | some j =>
      obtain ⟨hij, hmatch, _⟩ := sfind_some hs
      exfalso
      rcases Nat.lt_or_ge j A.length with hj | hj
      · rcases le_or_lt (j + pat.length) A.length with hj2 | hj2
        · rw [matchAt_append_left hj2] at hmatch
          rw [hnoA j hij] at hmatch
          exact Bool.false_ne_true hmatch
        · rw [hnc j hj hj2] at hmatch
          exact Bool.false_ne_true hmatch
      · rw [matchAt_append_right_ge hj] at hmatch
        rw [hnoB (j - A.length) (by omega)] at hmatch
        exact Bool.false_ne_true hmatch
  | some v =>
    obtain ⟨_, hmatch, hmin⟩ := sfind_some hB
    show sfind (A ++ B) pat i = some (v + A.length)
    apply sfind_of_match hne (by omega)
    · rw [Nat.add_comm v A.length, matchAt_append_right]
      exact hmatch
    · intro k hik hkj
      rcases Nat.lt_or_ge k A.length with hk | hk
      · rcases le_or_lt (k + pat.length) A.length with hk2 | hk2
        · rw [matchAt_append_left hk2]
          exact hnoA k hik
        · exact hnc k hk hk2
      · rw [matchAt_append_right_ge hk]
        exact hmin (k - A.length) (by omega) (by omega)

section Sorting

variable {α : Type _} (le : α → α → Bool)

/-- Insert `a` into `l` before the first element `b` with `le a b` (stable
insertion sort step, modelling Python's stable `sort`/`sorted`). -/
def insSorted (a : α) : List α → List α
  | [] => [a]
  | b :: bs => if le a b then a :: b :: bs else b :: insSorted a bs

/-- Stable insertion sort, modelling Python `sorted(l, key=...)` where
`le x y` decides `key x ≤ key y`. -/
def isort : List α → List α
  | [] => []
  | a :: as => insSorted le a (isort as)

theorem insSorted_perm (a : α) (l : List α) : List.Perm (insSorted le a l) (a :: l) := by
  induction l with
  | nil => simp [insSorted]
  | cons b bs ih =>
    unfold insSorted
    by_cases h : le a b = true
    · simp [h]
    · simp only [h, if_false]
      exact (ih.cons b).trans (List.Perm.swap a b bs)

theorem isort_perm (l : List α) : List.Perm (isort le l) l := by
  induction l with
  | nil => simp [isort]
  | cons a as ih =>
    exact (insSorted_perm le a (isort le as)).trans (ih.cons a)

theorem mem_insSorted {a x : α} {l : List α} (h : x ∈ insSorted le a l) :
    x = a ∨ x ∈ l := by
  have := (insSorted_perm le a l).mem_iff.1 h
  simpa using this

theorem insSorted_pairwise (htot : ∀ x y, le x y = true ∨ le y x = true)
    (htrans : ∀ x y z, le x y = true → le y z = true → le x z = true)
    {a : α} {l : List α} (h : l.Pairwise (fun x y => le x y = true)) :
    (insSorted le a l).Pairwise (fun x y => le x y = true) := by
  induction l with
  | nil => simp [insSorted]
  | cons b bs ih =>
    rcases List.pairwise_cons.1 h with ⟨hb, hbs⟩
    unfold insSorted
    by_cases hab : le a b = true
    · simp only [hab, if_true]
      refine List.pairwise_cons.2 ⟨?_, h⟩
      intro y hy
      rcases List.mem_cons.1 hy with rfl | hy
      · exact hab
      · exact htrans a b y hab (hb y hy)
    · simp only [hab, if_false]
      refine List.pairwise_cons.2 ⟨?_, ih hbs⟩
      intro y hy
      rcases mem_insSorted le hy with heq | hy
      · rw [heq]
        rcases htot a b with h1 | h1
        · exact absurd h1 hab
        · exact h1
      · exact hb y hy

theorem isort_pairwise (htot : ∀ x y, le x y = true ∨ le y x = true)
    (htrans : ∀ x y z, le x y = true → le y z = true → le x z = true)
    (l : List α) : (isort le l).Pairwise (fun x y => le x y = true) := by
  induction l with
  | nil => simp [isort]
  | cons a as ih => exact insSorted_pairwise le htot htrans ih

end Sorting

/-- Lexicographic comparison of strings by code point: Python `s <= t`. -/
def lexLe : Str → Str → Bool
  | [], _ => true
  | _ :: _, [] => false
  | a :: as, b :: bs => if a = b then lexLe as bs else decide (a < b)

theorem lexLe_total (s t : Str) : lexLe s t = true ∨ lexLe t s = true := by
  induction s generalizing t with
  | nil => left; rfl
  | cons a as ih =>
    cases t with
    | nil => right; rfl
    | cons b bs =>
      by_cases hab : a = b
      · subst hab
        simp only [lexLe, if_pos rfl]
        exact ih bs
      · rcases lt_or_gt_of_ne hab with h | h
        · left; simp [lexLe, hab, h]
        · right
          have hba : b ≠ a := fun hh => hab hh.symm
          simp [lexLe, hba, h]

theorem lexLe_trans (s t u : Str) (h1 : lexLe s t = true) (h2 : lexLe t u = true) :
    lexLe s u = true := by
  induction s generalizing t u with
  | nil => rfl
  | cons a as ih =>
    cases t with
    | nil => simp [lexLe] at h1
    | cons b bs =>
      cases u with
      | nil => simp [lexLe] at h2
      | cons c cs =>
        by_cases hab : a = b
        · subst hab
          simp only [lexLe, if_pos rfl] at h1
          by_cases hac : a = c
          · subst hac
            simp only [lexLe, if_pos rfl] at h2 ⊢
            exact ih bs cs h1 h2
          · simp only [lexLe, if_neg hac] at h2 ⊢
            exact h2
        · simp only [lexLe, if_neg hab] at h1
          have hlt1 : a < b := by simpa using h1
          by_cases hbc : b = c
          · subst hbc
            simp only [lexLe, if_neg hab]
            simpa using hlt1
          · simp only [lexLe, if_neg hbc] at h2
            have hlt2 : b < c := by simpa using h2
            have hlt : a < c := lt_trans hlt1 hlt2
            have hac : a ≠ c := ne_of_lt hlt
            simp only [lexLe, if_neg hac]
            simpa using hlt

/-- Python whitespace for `str.strip()` (ASCII subset). -/
def pySpace (c : Char) : Bool :=
  c = ' ' || c = '\t' || c = '\n' || c = '\x0d' || c = '\x0b' || c = '\x0c'

/-- Python `s.strip()`. -/
def pyStrip (s : Str) : Str :=
  ((s.dropWhile pySpace).reverse.dropWhile pySpace).reverse

/-- Python `int(digits_string)` for a non-empty string of ASCII digits. -/
def natOfDigits (ds : Str) : Nat :=
  ds.foldl (fun acc c => 10 * acc + (c.toNat - 48)) 0

/-- Decimal digits of `n`, most significant first (fuel-based; `n + 1` fuel
always suffices since the argument shrinks by a factor 10 per step). -/
def natDigitsAux : Nat → Nat → Str
  | 0, _ => []
  | fuel + 1, n =>
    if n = 0 then [] else natDigitsAux fuel (n / 10) ++ [Char.ofNat (48 + n % 10)]

/-- `str(n)` for a natural number. -/
def natDigits (n : Nat) : Str :=
  if n = 0 then ['0'] else natDigitsAux (n + 1) n

/-- Helper for Python's thousands formatting: processes the reversed digit
list, inserting `,` before every third digit (counting from the right). -/
def commaRev : Nat → Str → Str
  | _, [] => []
  | i, c :: rest =>
    if i ≠ 0 ∧ i % 3 = 0 then ',' :: c :: commaRev (i + 1) rest
    else c :: commaRev (i + 1) rest

/-- Python `f"{n:,}"`. -/
def formatComma (n : Nat) : Str :=
  (commaRev 0 (natDigits n).reverse).reverse

/-- `sanitize_price` (update_catalog.py:128): replace fullwidth yen with
`¥`, find the first run `\d[\d,]*`, strip commas, reformat as `¥{n:,}`. -/
def sanitize_price (p? : Option Str) : Option Str :=
  match p? with
  | none => none
  | some s =>
    if s.isEmpty then none
    else
      let v := s.map (fun c => if c = '￥' then '¥' else c)
      match v.dropWhile (fun c => !c.isDigit) with
      | [] => none
      | c :: rest =>
        let run := c :: rest.takeWhile (fun ch => ch.isDigit || ch = ',')
        let digits := run.filter (·.isDigit)
        some ('¥' :: formatComma (natOfDigits digits))

/-- `price_to_int` (update_catalog.py:143): keep the digits, parse, else 0. -/
def price_to_int (s : Str) : Int :=
  let ds := s.filter (·.isDigit)
  if ds.isEmpty then 0 else (natOfDigits ds : Int)

/-- A cached enrichment entry (one value of the `product_cache.json` map).
`fetched_at` abstracts the timestamp string together with
`datetime.strptime(.., "%Y-%m-%dT%H:%M:%S")`: `none` is a missing/empty
timestamp, `some none` a timestamp string that fails to parse in that fixed
format, `some (some t)` a timestamp denoting absolute time `t` in seconds.
Option-valued fields model missing JSON keys / `None` values. -/
structure CacheEntry where
  url : Option Str := none
  title : Option Str := none
  price : Option Str := none
  image : Option Str := none
  fetched_at : Option (Option Int) := none
  status_code : Option Nat := none
deriving DecidableEq

/-- Python truthiness of an optional string (`None` and `""` are falsy). -/
def optTruthy (o : Option Str) : Bool :=
  match o with
  | none => false
  | some s => !s.isEmpty

def CACHE_MAX_AGE_HOURS : Int := 72

/-- `is_entry_stale` (update_catalog.py:196): stale when the fetch timestamp
is missing, unparsable, or `datetime.utcnow() - fetched_time >=
timedelta(hours=72)`.  `now` abstracts `datetime.utcnow()` in seconds. -/
def is_entry_stale (now : Int) (e : CacheEntry) : Bool :=
  match e.fetched_at with
  | none => true
  | some none => true
  | some (some t) => decide (now - t ≥ CACHE_MAX_AGE_HOURS * 3600)

/-- The cached page data `fetch_amazon_product` extracts with BeautifulSoup:
the HTTP status, the texts of the `span.a-offscreen` elements in document
order, the `#landingImage` element's `data-old-hires` and `src` attributes
(when that element exists), the `og:image` meta `content` attribute (when
that element exists), and the `#productTitle` text. -/
structure AmazonPage where
  status_code : Nat
  offscreen_texts : List Str
  landing : Option (Option Str × Option Str)
  og_content : Option (Option Str)
  title : Option Str
deriving DecidableEq

/-- Price scan of `fetch_amazon_product`: first offscreen text whose
sanitised price is truthy. -/
def firstOffscreenPrice : List Str → Option Str
  | [] => none
  | s :: rest =>
    match sanitize_price (some s) with
    | some p => some p
    | none => firstOffscreenPrice rest

/-- Image resolution of `fetch_amazon_product` (update_catalog.py:171):
`data-old-hires` or `src` of `#landingImage`, else the `og:image` content,
else failure. -/
def resolveImage (page : AmazonPage) : Option Str :=
  let img1 : Option Str :=
    match page.landing with
    | none => none
    | some (hires, src) => if optTruthy hires then hires else src
  let img2 : Option Str :=
    if optTruthy img1 then img1
    else
      match page.og_content with
      | none => img1
      | some c => c
  if optTruthy img2 then img2 else none

/-- `fetch_amazon_product` (update_catalog.py:148). `page?` abstracts the
network request: `none` is a transport error (`requests.RequestException`),
`some page` a response. `now` abstracts `time.strftime(...)`. -/
def fetch_amazon_product (now : Int) (asin : Str) (page? : Option AmazonPage) :
    Option CacheEntry :=
  match page? with
  | none => none
  | some page =>
    if page.status_code ≠ 200 then none
    else
      match resolveImage page with
      | none => none
      | some img =>
        some { url := some ("https://www.amazon.co.jp/dp/".toList ++ asin)
               title := page.title
               price := firstOffscreenPrice page.offscreen_texts
               image := some img
               fetched_at := some (some now)
               status_code := some page.status_code }

/-- The persisted product cache: a JSON object, i.e. an association list
keyed by ASIN in insertion order (Python `dict`). -/
abbrev Cache := List (Str × CacheEntry)

def cacheLookup : Cache → Str → Option CacheEntry
  | [], _ => none
  | (k, v) :: rest, a => if k = a then some v else cacheLookup rest a

/-- Python `dict` assignment `cache[k] = v`: overwrite in place when the key
exists, else append. -/
def dictInsert (c : Cache) (k : Str) (v : CacheEntry) : Cache :=
  if (cacheLookup c k).isSome then
    c.map (fun kv => if kv.1 = k then (k, v) else kv)
  else c ++ [(k, v)]

/-- The cache-hit test of `update_product_cache` (update_catalog.py:224):
`entry and entry.get("price") and entry.get("image") and not
is_entry_stale(entry)`. -/
def skipEntry (now : Int) (e? : Option CacheEntry) : Bool :=
  match e? with
  | none => false
  | some e => optTruthy e.price && optTruthy e.image && !is_entry_stale now e

/-- Abstraction of the run environment of one `update_product_cache` call:
the current wall-clock time and the network (mapping an ASIN to the result
of `fetch_amazon_product`, `none` being a failed fetch). -/
structure FetchEnv where
  now : Int
  fetch : Str → Option CacheEntry

/-- `{asin.strip() for asin in force_refresh or [] if asin}`. -/
def force_set (force_refresh : Option (List Str)) : List Str :=
  ((force_refresh.getD []).filter (fun a => !a.isEmpty)).map pyStrip

/-- The fetch loop of `update_product_cache` (update_catalog.py:219).
Returns the final cache, the list of ASINs for which a network fetch was
performed (in order), and the `updated` flag. -/
def update_loop (env : FetchEnv) (force : List Str) :
    List Str → Cache → Cache × List Str × Bool
  | [], cache => (cache, [], false)
  | a :: rest, cache =>
    let a' := pyStrip a
    if a' = [] then update_loop env force rest cache
    else if a' ∉ force ∧ skipEntry env.now (cacheLookup cache a') = true then
      update_loop env force rest cache
    else
      match env.fetch a' with
      | some e =>
        let r := update_loop env force rest (dictInsert cache a' e)
        (r.1, a' :: r.2.1, true)
      | none =>
        let r := update_loop env force rest cache
        (r.1, a' :: r.2.1, r.2.2)

def entryKeyLe (x y : Str × CacheEntry) : Bool := lexLe x.1 y.1

/-- Result of one `update_product_cache` call: the returned mapping, the
ASINs fetched over the network, and the file write (`none` when the cache
file is not rewritten). -/
structure UpdateResult where
  cache : Cache
  fetched : List Str
  wrote : Option Cache
deriving DecidableEq

/-- `update_product_cache` (update_catalog.py:207): run the loop; when any
fetch succeeded, rewrite the cache file in full, sorted by identifier, and
return the sorted mapping; otherwise return the loaded cache unchanged with
no write. -/
def update_product_cache (env : FetchEnv) (cache₀ : Cache) (asins : List Str)
    (force_refresh : Option (List Str)) : UpdateResult :=
  let r := update_loop env (force_set force_refresh) asins cache₀
  if r.2.2 then
    { cache := isort entryKeyLe r.1
      fetched := r.2.1
      wrote := some (isort entryKeyLe r.1) }
  else
    { cache := r.1, fetched := r.2.1, wrote := none }

theorem cacheLookup_eq_none_iff {l : Cache} {a : Str} :
    cacheLookup l a = none ↔ a ∉ l.map Prod.fst := by
  induction l with
  | nil => simp [cacheLookup]
  | cons kv rest ih =>
    obtain ⟨k, w⟩ := kv
    by_cases h : k = a
    · subst h
      simp [cacheLookup]
    · simp only [cacheLookup, if_neg h, List.map_cons, List.mem_cons]
      rw [ih]
      constructor
      · intro hna hmem
        rcases hmem with hmem | hmem
        · exact h hmem.symm
        · exact hna hmem
      · intro hna hmem
        exact hna (Or.inr hmem)

theorem cacheLookup_eq_some_iff {l : Cache} (hnd : (l.map Prod.fst).Nodup)
    {a : Str} {v : CacheEntry} : cacheLookup l a = some v ↔ (a, v) ∈ l := by
  induction l with
  | nil => simp [cacheLookup]
  | cons kv rest ih =>
    obtain ⟨k, w⟩ := kv
    simp only [List.map_cons, List.nodup_cons] at hnd
    obtain ⟨hk, hrest⟩ := hnd
    by_cases h : k = a
    · subst h
      constructor
      · intro hv
        simp only [cacheLookup, if_pos rfl] at hv
        have hwv : w = v := Option.some.inj hv
        subst hwv
        exact List.mem_cons.2 (Or.inl rfl)
      · intro hv
        rcases List.mem_cons.1 hv with heq | hmem
        · have hvw : v = w := (Prod.ext_iff.1 heq).2
          subst hvw
          simp [cacheLookup]
        · exact absurd (List.mem_map.2 ⟨(k, v), hmem, rfl⟩) hk
    · constructor
      · intro hv
        simp only [cacheLookup, if_neg h] at hv
        exact List.mem_cons.2 (Or.inr ((ih hrest).1 hv))
      · intro hv
        simp only [cacheLookup, if_neg h]
        rcases List.mem_cons.1 hv with heq | hmem
        · exact absurd ((Prod.ext_iff.1 heq).1).symm h
        · exact (ih hrest).2 hmem

theorem cacheLookup_perm {l l' : Cache} (hp : List.Perm l l')
    (hnd : (l.map Prod.fst).Nodup) (a : Str) :
    cacheLookup l a = cacheLookup l' a := by
  have hnd' : (l'.map Prod.fst).Nodup := ((hp.map Prod.fst).nodup_iff).1 hnd
  cases hl : cacheLookup l a with
  | some v =>
    have hm : (a, v) ∈ l := (cacheLookup_eq_some_iff hnd).1 hl
    have hm' : (a, v) ∈ l' := hp.mem_iff.1 hm
    exact ((cacheLookup_eq_some_iff hnd').2 hm').symm
  | none =>
    have hm : a ∉ l.map Prod.fst := cacheLookup_eq_none_iff.1 hl
    have hm' : a ∉ l'.map Prod.fst := fun hx => hm ((hp.map Prod.fst).mem_iff.2 hx)
    exact (cacheLookup_eq_none_iff.2 hm').symm

theorem cacheLookup_append (c d : Cache) (a : Str) :
    cacheLookup (c ++ d) a =
      match cacheLookup c a with
      | some w => some w
      | none => cacheLookup d a := by
  induction c with
  | nil => simp [cacheLookup]
  | cons kv rest ih =>
    obtain ⟨k, w⟩ := kv
    by_cases h : k = a
    · subst h
      simp [cacheLookup]
    · simp only [List.cons_append, cacheLookup, if_neg h]
      exact ih

theorem lookup_map_update {c : Cache} {k : Str} {v : CacheEntry} {a : Str}
    (h : k ≠ a) :
    cacheLookup (c.map (fun kv => if kv.1 = k then (k, v) else kv)) a =
      cacheLookup c a := by
  induction c with
  | nil => simp [cacheLookup]
  | cons kv rest ih =>
    obtain ⟨k₁, w⟩ := kv
    by_cases h1 : k₁ = k
    · subst h1
      simp only [List.map_cons, if_pos rfl]
      simp only [cacheLookup, if_neg h]
      exact ih
    · simp only [List.map_cons, if_neg h1]
      by_cases h2 : k₁ = a
      · subst h2
        simp [cacheLookup]
      · simp only [cacheLookup, if_neg h2]
        exact ih

theorem dictInsert_lookup_ne {c : Cache} {k : Str} {v : CacheEntry} {a : Str}
    (h : k ≠ a) : cacheLookup (dictInsert c k v) a = cacheLookup c a := by
  by_cases hp : (cacheLookup c k).isSome = true
  · rw [dictInsert, if_pos hp]
    exact lookup_map_update h
  · rw [dictInsert, if_neg hp]
    rw [cacheLookup_append]
    cases hc : cacheLookup c a with
    | some w => rfl
    | none => simp [cacheLookup, fun hh : k = a => h hh]

theorem dictInsert_keys_nodup {c : Cache} {k : Str} {v : CacheEntry}
    (h : (c.map Prod.fst).Nodup) : ((dictInsert c k v).map Prod.fst).Nodup := by
  by_cases hp : (cacheLookup c k).isSome = true
  · rw [dictInsert, if_pos hp]
    have hmap : (c.map (fun kv => if kv.1 = k then (k, v) else kv)).map Prod.fst =
        c.map Prod.fst := by
      rw [List.map_map]
      apply List.map_congr_left
      intro kv _
      by_cases hk : kv.1 = k
      · simp [hk]
      · simp [hk]
    rw [hmap]
    exact h
  · rw [dictInsert, if_neg hp]
    have hk : k ∉ c.map Prod.fst := by
      rw [← cacheLookup_eq_none_iff]
      cases hc : cacheLookup c k with
      | none => rfl
      | some w => rw [hc] at hp; simp at hp
    simp only [List.map_append, List.map_cons, List.map_nil]
    rw [List.nodup_append]
    refine ⟨h, List.nodup_singleton k, ?_⟩
    intro x hx hy
    simp at hy
    subst hy
    exact hk hx

theorem update_loop_log_mem (env : FetchEnv) (force : List Str)
    (asins : List Str) (cache : Cache) {x : Str}
    (hx : x ∈ (update_loop env force asins cache).2.1) :
    x ∈ asins.map pyStrip := by
  induction asins generalizing cache with
  | nil => simp [update_loop] at hx
  | cons a rest ih =>
    simp only [update_loop] at hx
    by_cases h1 : pyStrip a = []
    · rw [if_pos h1] at hx
      exact List.mem_cons.2 (Or.inr (ih cache hx))
    · rw [if_neg h1] at hx
      by_cases h2 : pyStrip a ∉ force ∧
          skipEntry env.now (cacheLookup cache (pyStrip a)) = true
      · rw [if_pos h2] at hx
        exact List.mem_cons.2 (Or.inr (ih cache hx))
      · rw [if_neg h2] at hx
        cases hf : env.fetch (pyStrip a) with
        | some e =>
          rw [hf] at hx
          simp only [List.mem_cons] at hx
          simp only [List.map_cons, List.mem_cons]
          rcases hx with hx | hx
          · exact Or.inl hx
          · exact Or.inr (ih _ hx)
        | none =>
          rw [hf] at hx
          simp only [List.mem_cons] at hx
          simp only [List.map_cons, List.mem_cons]
          rcases hx with hx | hx
          · exact Or.inl hx
          · exact Or.inr (ih _ hx)

theorem update_loop_count (env : FetchEnv) (force : List Str)
    (asins : List Str) (cache : Cache) (a : Str)
    (htrim : ∀ x ∈ asins, pyStrip x = x ∧ x ≠ [])
    (hnd : asins.Nodup) (ha : a ∈ asins) :
    ((update_loop env force asins cache).2.1.count a) =
      if a ∉ force ∧ skipEntry env.now (cacheLookup cache a) = true then 0
      else 1 := by
  induction asins generalizing cache with
  | nil => simp at ha
  | cons b rest ih =>
    obtain ⟨hbt, hbne⟩ := htrim b (List.mem_cons.2 (Or.inl rfl))
    have hrest_trim : ∀ x ∈ rest, pyStrip x = x ∧ x ≠ [] :=
      fun x hx => htrim x (List.mem_cons.2 (Or.inr hx))
    rcases List.nodup_cons.1 hnd with ⟨hbmem, hndr⟩
    simp only [update_loop, hbt, if_neg hbne]
    by_cases hab : a = b
    · subst hab
      have hnot : a ∉ rest.map pyStrip := by
        intro hx
        rcases List.mem_map.1 hx with ⟨y, hy, hyx⟩
        obtain ⟨hyt, _⟩ := hrest_trim y hy
        rw [hyt] at hyx
        subst hyx
        exact hbmem hy
      have hcount0 : ∀ c, ((update_loop env force rest c).2.1.count a) = 0 := by
        intro c
        rw [List.count_eq_zero]
        intro hmem
        exact hnot (update_loop_log_mem env force rest c hmem)
      by_cases h2 : a ∉ force ∧ skipEntry env.now (cacheLookup cache a) = true
      · rw [if_pos h2, if_pos h2]
        exact hcount0 cache
      · rw [if_neg h2, if_neg h2]
        cases hf : env.fetch a with
        | some e => simp [List.count_cons, hcount0]
        | none => simp [List.count_cons, hcount0]
    · have hmem : a ∈ rest := by
        rcases List.mem_cons.1 ha with h | h
        · exact absurd h hab
        · exact h
      by_cases h2 : b ∉ force ∧ skipEntry env.now (cacheLookup cache b) = true
      · rw [if_pos h2]
        exact ih cache hrest_trim hndr hmem
      · rw [if_neg h2]
        cases hf : env.fetch b with
        | some e =>
          have hlook : cacheLookup (dictInsert cache b e) a = cacheLookup cache a :=
            dictInsert_lookup_ne (fun hh => hab hh.symm)
          have := ih (dictInsert cache b e) hrest_trim hndr hmem
          rw [hlook] at this
          simpa [List.count_cons, fun h : a = b => hab h] using this
        | none =>
          have := ih cache hrest_trim hndr hmem
          simpa [List.count_cons, fun h : a = b => hab h] using this

theorem update_loop_all_skip (env : FetchEnv) (force : List Str)
    (asins : List Str) (cache : Cache)
    (h : ∀ b ∈ asins, pyStrip b ≠ [] →
      pyStrip b ∉ force ∧ skipEntry env.now (cacheLookup cache (pyStrip b)) = true) :
    update_loop env force asins cache = (cache, [], false) := by
  induction asins with
  | nil => rfl
  | cons b rest ih =>
    have hrest : ∀ x ∈ rest, pyStrip x ≠ [] →
        pyStrip x ∉ force ∧ skipEntry env.now (cacheLookup cache (pyStrip x)) = true :=
      fun x hx => h x (List.mem_cons.2 (Or.inr hx))
    simp only [update_loop]
    by_cases h1 : pyStrip b = []
    · rw [if_pos h1]
      exact ih hrest
    · rw [if_neg h1, if_pos (h b (List.mem_cons.2 (Or.inl rfl)) h1)]
      exact ih hrest

theorem update_loop_not_upd_cache (env : FetchEnv) (force : List Str)
    (asins : List Str) (cache : Cache)
    (h : (update_loop env force asins cache).2.2 = false) :
    (update_loop env force asins cache).1 = cache := by
  induction asins generalizing cache with
  | nil => rfl
  | cons b rest ih =>
    simp only [update_loop] at h ⊢
    by_cases h1 : pyStrip b = []
    · rw [if_pos h1] at h ⊢
      exact ih cache h
    · rw [if_neg h1] at h ⊢
      by_cases h2 : pyStrip b ∉ force ∧
          skipEntry env.now (cacheLookup cache (pyStrip b)) = true
      · rw [if_pos h2] at h ⊢
        exact ih cache h
      · rw [if_neg h2] at h ⊢
        cases hf : env.fetch (pyStrip b) with
        | some e => rw [hf] at h; simp at h
        | none =>
          rw [hf] at h
          exact ih cache h

theorem update_loop_upd_iff (env : FetchEnv) (force : List Str)
    (asins : List Str) (cache : Cache)
    (htrim : ∀ x ∈ asins, pyStrip x = x ∧ x ≠ []) :
    (update_loop env force asins cache).2.2 = true ↔
      ∃ b ∈ asins, ¬(b ∉ force ∧ skipEntry env.now (cacheLookup cache b) = true) ∧
        (env.fetch b).isSome = true := by
  induction asins generalizing cache with
  | nil => simp [update_loop]
  | cons b rest ih =>
    obtain ⟨hbt, hbne⟩ := htrim b (List.mem_cons.2 (Or.inl rfl))
    have hrest_trim : ∀ x ∈ rest, pyStrip x = x ∧ x ≠ [] :=
      fun x hx => htrim x (List.mem_cons.2 (Or.inr hx))
    simp only [update_loop, hbt, if_neg hbne]
    by_cases h2 : b ∉ force ∧ skipEntry env.now (cacheLookup cache b) = true
    · rw [if_pos h2]
      rw [ih cache hrest_trim]
      constructor
      · rintro ⟨x, hx, hcond, hfetch⟩
        exact ⟨x, List.mem_cons.2 (Or.inr hx), hcond, hfetch⟩
      · rintro ⟨x, hx, hcond, hfetch⟩
        rcases List.mem_cons.1 hx with rfl | hx
        · exact absurd h2 hcond
        · exact ⟨x, hx, hcond, hfetch⟩
    · rw [if_neg h2]
      cases hf : env.fetch b with
      | some e =>
        simp only [true_iff]
        exact ⟨b, List.mem_cons.2 (Or.inl rfl), h2, by rw [hf]; rfl⟩
      | none =>
        rw [ih cache hrest_trim]
        constructor
        · rintro ⟨x, hx, hcond, hfetch⟩
          exact ⟨x, List.mem_cons.2 (Or.inr hx), hcond, hfetch⟩
        · rintro ⟨x, hx, hcond, hfetch⟩
          rcases List.mem_cons.1 hx with rfl | hx
          · rw [hf] at hfetch; simp at hfetch
          · exact ⟨x, hx, hcond, hfetch⟩

theorem update_loop_lookup_fail (env : FetchEnv) (force : List Str)
    (asins : List Str) (cache : Cache) (a : Str)
    (hfail : env.fetch a = none) :
    cacheLookup (update_loop env force asins cache).1 a = cacheLookup cache a := by
  induction asins generalizing cache with
  | nil => rfl
  | cons b rest ih =>
    simp only [update_loop]
    by_cases h1 : pyStrip b = []
    · rw [if_pos h1]; exact ih cache
    · rw [if_neg h1]
      by_cases h2 : pyStrip b ∉ force ∧
          skipEntry env.now (cacheLookup cache (pyStrip b)) = true
      · rw [if_pos h2]; exact ih cache
      · rw [if_neg h2]
        cases hf : env.fetch (pyStrip b) with
        | some e =>
          have hne : pyStrip b ≠ a := by
            intro heq
            rw [heq, hfail] at hf
            exact Option.noConfusion hf
          have := ih (dictInsert cache (pyStrip b) e)
          rw [dictInsert_lookup_ne hne] at this
          exact this
        | none => exact ih cache

theorem update_loop_keys_nodup (env : FetchEnv) (force : List Str)
    (asins : List Str) (cache : Cache)
    (h : (cache.map Prod.fst).Nodup) :
    (((update_loop env force asins cache).1).map Prod.fst).Nodup := by
  induction asins generalizing cache with
  | nil => exact h
  | cons b rest ih =>
    simp only [update_loop]
    by_cases h1 : pyStrip b = []
    · rw [if_pos h1]; exact ih cache h
    · rw [if_neg h1]
      by_cases h2 : pyStrip b ∉ force ∧
          skipEntry env.now (cacheLookup cache (pyStrip b)) = true
      · rw [if_pos h2]; exact ih cache h
      · rw [if_neg h2]
        cases env.fetch (pyStrip b) with
        | some e => exact ih _ (dictInsert_keys_nodup h)
        | none => exact ih cache h

theorem entryKeyLe_total (x y : Str × CacheEntry) :
    entryKeyLe x y = true ∨ entryKeyLe y x = true := lexLe_total x.1 y.1

theorem entryKeyLe_trans (x y z : Str × CacheEntry) (h1 : entryKeyLe x y = true)
    (h2 : entryKeyLe y z = true) : entryKeyLe x z = true :=
  lexLe_trans x.1 y.1 z.1 h1 h2

theorem upc_fetched (env : FetchEnv) (cache₀ : Cache) (asins : List Str)
    (force_refresh : Option (List Str)) :
    (update_product_cache env cache₀ asins force_refresh).fetched =
      (update_loop env (force_set force_refresh) asins cache₀).2.1 := by
  unfold update_product_cache
  by_cases h : (update_loop env (force_set force_refresh) asins cache₀).2.2 = true
  · simp [h]
  · simp [h]

/-- Modelled from the spec's staleness wording in claim C1: "wall-clock time
since fetch exceeds 72 hours" — a strict comparison, unlike the code's `>=`. -/
def spec_is_entry_stale (now : Int) (e : CacheEntry) : Bool :=
  match e.fetched_at with
  | none => true
  | some none => true
  | some (some t) => decide (now - t > CACHE_MAX_AGE_HOURS * 3600)

def c1xEntry : CacheEntry :=
  { url := some ("https://www.amazon.co.jp/dp/B000000001".toList)
    title := none
    price := some ("¥1,980".toList)
    image := some ("https://img/AB".toList)
    fetched_at := some (some 0)
    status_code := some 200 }

def c1xEnv : FetchEnv := { now := 259200, fetch := fun _ => none }

/-- C1 counterexample: an entry fetched exactly 72 hours ago, with price and
image, not force-refreshed.  Per the claim's staleness ("time since fetch
exceeds 72 hours") the entry is fresh, so the identifier should be skipped
with no network fetch; the code (`>= timedelta(hours=72)`) treats it as
stale and fetches it once. -/
theorem c1_counterexample :
    spec_is_entry_stale c1xEnv.now c1xEntry = false ∧
    optTruthy c1xEntry.price = true ∧ optTruthy c1xEntry.image = true ∧
    ("B000000001".toList ∉ force_set none) ∧
    (update_product_cache c1xEnv [("B000000001".toList, c1xEntry)]
        ["B000000001".toList] none).fetched.count ("B000000001".toList) = 1 := by
  decide

/-- C1 (amended): with staleness as the code defines it (an entry is stale
when it lacks a parsable fetch timestamp or its age is at least 72 hours,
`>=` rather than strictly "exceeds"), an identifier of the requested set
triggers no network fetch iff it is not in the forced-refresh set and its
cache entry exists with truthy price and image and is not stale; every
identifier not meeting that skip condition is fetched exactly once. -/
theorem c1_cache_skip_iff (env : FetchEnv) (cache₀ : Cache) (asins : List Str)
    (force_refresh : Option (List Str)) (a : Str)
    (htrim : ∀ x ∈ asins, pyStrip x = x ∧ x ≠ [])
    (hnd : asins.Nodup) (ha : a ∈ asins) :
    (update_product_cache env cache₀ asins force_refresh).fetched.count a =
      if a ∉ force_set force_refresh ∧
          skipEntry env.now (cacheLookup cache₀ a) = true then 0 else 1 := by
  rw [upc_fetched]
  exact update_loop_count env _ asins cache₀ a htrim hnd ha

def c1wEntry : CacheEntry :=
  { url := none, title := none
    price := some ("¥500".toList)
    image := some ("https://img/W".toList)
    fetched_at := some (some 0)
    status_code := some 200 }

theorem c1_witness :
    (update_product_cache { now := 3600, fetch := fun _ => none }
        [("A0".toList, c1wEntry)] ["A0".toList] none).fetched.count ("A0".toList) =
      if ("A0".toList ∉ force_set none ∧
          skipEntry 3600 (cacheLookup [("A0".toList, c1wEntry)] ("A0".toList)) = true)
        then 0 else 1 :=
  c1_cache_skip_iff _ _ _ _ _ (by decide) (by decide) (by decide)

/-- C6 (amended): the cache file is rewritten exactly when at least one
fetch succeeded during the call — even when the re-fetched entry is
identical to the cached one, in which case the file is rewritten although
no entry changed.  When every requested identifier has a complete fresh
entry and no forced-refresh set is given, zero network calls happen and
the file is untouched; any write is the whole mapping sorted ascending by
identifier. -/
theorem upc_wrote (env : FetchEnv) (cache₀ : Cache) (asins : List Str)
    (force_refresh : Option (List Str)) :
    (update_product_cache env cache₀ asins force_refresh).wrote =
      (if (update_loop env (force_set force_refresh) asins cache₀).2.2 = true
        then some (isort entryKeyLe
          (update_loop env (force_set force_refresh) asins cache₀).1)
        else none) := by
  unfold update_product_cache
  by_cases h : (update_loop env (force_set force_refresh) asins cache₀).2.2 = true
  · rw [if_pos h, if_pos h]
  · rw [if_neg h, if_neg h]

theorem upc_cache (env : FetchEnv) (cache₀ : Cache) (asins : List Str)
    (force_refresh : Option (List Str)) :
    (update_product_cache env cache₀ asins force_refresh).cache =
      (if (update_loop env (force_set force_refresh) asins cache₀).2.2 = true
        then isort entryKeyLe
          (update_loop env (force_set force_refresh) asins cache₀).1
        else (update_loop env (force_set force_refresh) asins cache₀).1) := by
  unfold update_product_cache
  by_cases h : (update_loop env (force_set force_refresh) asins cache₀).2.2 = true
  · rw [if_pos h, if_pos h]
  · rw [if_neg h, if_neg h]

theorem upc_wrote_isSome (env : FetchEnv) (cache₀ : Cache) (asins : List Str)
    (force_refresh : Option (List Str)) :
    (update_product_cache env cache₀ asins force_refresh).wrote.isSome =
      (update_loop env (force_set force_refresh) asins cache₀).2.2 := by
  rw [upc_wrote]
  by_cases h : (update_loop env (force_set force_refresh) asins cache₀).2.2 = true
  · rw [if_pos h, h]
    rfl
  · rw [if_neg h]
    cases hb : (update_loop env (force_set force_refresh) asins cache₀).2.2 with
    | true => exact absurd hb h
    | false => rfl

/-- C6 (amended): the cache file is rewritten exactly when at least one
fetch succeeded during the call — even when the re-fetched entry is
identical to the cached one, in which case the file is rewritten although
no entry changed.  When every requested identifier has a complete fresh
entry and no forced-refresh set is given, zero network calls happen and
the file is untouched; any write is the whole mapping sorted ascending by
identifier. -/
theorem c6_cache_write_policy (env : FetchEnv) (cache₀ : Cache)
    (asins : List Str) (force_refresh : Option (List Str))
    (htrim : ∀ x ∈ asins, pyStrip x = x ∧ x ≠ []) :
    ((force_refresh = none ∧
        ∀ b ∈ asins, skipEntry env.now (cacheLookup cache₀ b) = true) →
      (update_product_cache env cache₀ asins force_refresh).fetched = [] ∧
      (update_product_cache env cache₀ asins force_refresh).wrote = none ∧
      (update_product_cache env cache₀ asins force_refresh).cache = cache₀) ∧
    ((update_product_cache env cache₀ asins force_refresh).wrote.isSome = true ↔
      ∃ b ∈ asins, ¬(b ∉ force_set force_refresh ∧
          skipEntry env.now (cacheLookup cache₀ b) = true) ∧
        (env.fetch b).isSome = true) ∧
    ((update_product_cache env cache₀ asins force_refresh).wrote = none →
      (update_product_cache env cache₀ asins force_refresh).cache = cache₀) ∧
    (∀ l, (update_product_cache env cache₀ asins force_refresh).wrote = some l →
      l = (update_product_cache env cache₀ asins force_refresh).cache ∧
      List.Perm l (update_loop env (force_set force_refresh) asins cache₀).1 ∧
      (l.map Prod.fst).Pairwise (fun x y => lexLe x y = true)) := by
  refine ⟨?_, ?_, ?_, ?_⟩
  · rintro ⟨hforce, hskip⟩
    subst hforce
    have hloop : update_loop env (force_set none) asins cache₀ = (cache₀, [], false) := by
      apply update_loop_all_skip
      intro b hb hbne
      obtain ⟨hbt, _⟩ := htrim b hb
      rw [hbt]
      refine ⟨by simp [force_set], hskip b hb⟩
    refine ⟨?_, ?_, ?_⟩
    · rw [upc_fetched, hloop]
    · rw [upc_wrote, hloop]
      simp
    · rw [upc_cache, hloop]
      simp
  · rw [upc_wrote_isSome]
    exact update_loop_upd_iff env _ asins cache₀ htrim
  · intro hw
    rw [upc_wrote] at hw
    by_cases h : (update_loop env (force_set force_refresh) asins cache₀).2.2 = true
    · rw [if_pos h] at hw
      exact absurd hw (by simp)
    · rw [upc_cache, if_neg h]
      apply update_loop_not_upd_cache
      cases hb : (update_loop env (force_set force_refresh) asins cache₀).2.2 with
      | true => exact absurd hb h
      | false => rfl
  · intro l hl
    rw [upc_wrote] at hl
    by_cases h : (update_loop env (force_set force_refresh) asins cache₀).2.2 = true
    · rw [if_pos h] at hl
      have hl' : l = isort entryKeyLe
          (update_loop env (force_set force_refresh) asins cache₀).1 :=
        (Option.some.inj hl).symm
      subst hl'
      refine ⟨?_, isort_perm entryKeyLe _, ?_⟩
      · rw [upc_cache, if_pos h]
      · have hpw := isort_pairwise entryKeyLe entryKeyLe_total entryKeyLe_trans
          (update_loop env (force_set force_refresh) asins cache₀).1
        rw [List.pairwise_map]
        exact hpw
    · rw [if_neg h] at hl
      exact absurd hl (by simp)

def c6xEntry : CacheEntry :=
  { url := none, title := none, price := none
    image := some ("https://img/X".toList)
    fetched_at := some (some 0), status_code := some 200 }

def c6xEnv : FetchEnv := { now := 0, fetch := fun _ => some c6xEntry }

/-- C6 counterexample: the entry lacks a price, so it is re-fetched; the
fetch returns an entry identical to the cached one.  The cache file is
rewritten (`wrote ≠ none`) although no entry changed (`cache` is exactly
the loaded mapping) — refuting "written back only when at least one entry
changed during the call". -/
theorem c6_counterexample :
    (update_product_cache c6xEnv [("A0".toList, c6xEntry)] ["A0".toList]
        none).wrote ≠ none ∧
    (update_product_cache c6xEnv [("A0".toList, c6xEntry)] ["A0".toList]
        none).cache = [("A0".toList, c6xEntry)] := by
  decide

def c6wEntry : CacheEntry :=
  { url := none, title := none
    price := some ("¥500".toList)
    image := some ("https://img/W".toList)
    fetched_at := some (some 0), status_code := some 200 }

theorem c6_witness :
    (update_product_cache { now := 3600, fetch := fun _ => none }
        [("A0".toList, c6wEntry)] ["A0".toList] none).fetched = [] ∧
    (update_product_cache { now := 3600, fetch := fun _ => none }
        [("A0".toList, c6wEntry)] ["A0".toList] none).wrote = none ∧
    (update_product_cache { now := 3600, fetch := fun _ => none }
        [("A0".toList, c6wEntry)] ["A0".toList] none).cache =
      [("A0".toList, c6wEntry)] :=
  (c6_cache_write_policy _ _ _ _ (by decide)).1 ⟨rfl, by decide⟩

/-- C7: a failed fetch (transport error, non-200 status, or no resolvable
image — even when a price was found) yields no update for that identifier:
its cache entry is left exactly as loaded, nothing is raised (all functions
are total), and every other identifier is still processed as usual. -/
theorem c7_fetch_failure_no_update :
    (∀ (env : FetchEnv) (cache₀ : Cache) (asins : List Str)
        (force_refresh : Option (List Str)) (a : Str),
        (cache₀.map Prod.fst).Nodup →
        env.fetch a = none →
        cacheLookup (update_product_cache env cache₀ asins force_refresh).cache a =
          cacheLookup cache₀ a) ∧
    (∀ (now : Int) (asin : Str), fetch_amazon_product now asin none = none) ∧
    (∀ (now : Int) (asin : Str) (page : AmazonPage), page.status_code ≠ 200 →
        fetch_amazon_product now asin (some page) = none) ∧
    (∀ (now : Int) (asin : Str) (page : AmazonPage),
        (firstOffscreenPrice page.offscreen_texts).isSome = true →
        resolveImage page = none →
        fetch_amazon_product now asin (some page) = none) ∧
    (∀ (env : FetchEnv) (cache₀ : Cache) (asins : List Str)
        (force_refresh : Option (List Str)) (b : Str),
        (∀ x ∈ asins, pyStrip x = x ∧ x ≠ []) → asins.Nodup → b ∈ asins →
        ¬(b ∉ force_set force_refresh ∧
            skipEntry env.now (cacheLookup cache₀ b) = true) →
        (update_product_cache env cache₀ asins force_refresh).fetched.count b = 1) := by
  refine ⟨?_, ?_, ?_, ?_, ?_⟩
  · intro env cache₀ asins force_refresh a hnd hfail
    rw [upc_cache]
    by_cases h : (update_loop env (force_set force_refresh) asins cache₀).2.2 = true
    · rw [if_pos h]
      have hnd1 := update_loop_keys_nodup env (force_set force_refresh) asins cache₀ hnd
      have hlook := cacheLookup_perm
        (isort_perm entryKeyLe (update_loop env (force_set force_refresh) asins cache₀).1).symm
        hnd1 a
      rw [← hlook]
      exact update_loop_lookup_fail env _ asins cache₀ a hfail
    · rw [if_neg h]
      exact update_loop_lookup_fail env _ asins cache₀ a hfail
  · intro now asin
    rfl
  · intro now asin page hs
    simp [fetch_amazon_product, hs]
  · intro now asin page hprice himg
    by_cases hs : page.status_code ≠ 200
    · simp [fetch_amazon_product, hs]
    · simp [fetch_amazon_product, hs, himg]
  · intro env cache₀ asins force_refresh b htrim hnd hb hcond
    rw [upc_fetched, update_loop_count env _ asins cache₀ b htrim hnd hb,
      if_neg hcond]

def c7wEntry : CacheEntry :=
  { url := none, title := none, price := none
    image := some ("https://img/Z".toList)
    fetched_at := none, status_code := none }

theorem c7_witness :
    cacheLookup (update_product_cache { now := 0, fetch := fun _ => none }
        [("A0".toList, c7wEntry)] ["A0".toList] none).cache ("A0".toList) =
      cacheLookup [("A0".toList, c7wEntry)] ("A0".toList) ∧
    fetch_amazon_product 0 ("A0".toList)
        (some { status_code := 200
                offscreen_texts := ["¥1,980".toList]
                landing := some (none, some [])
                og_content := some (some [])
                title := none }) = none :=
  ⟨c7_fetch_failure_no_update.1 _ _ _ _ _ (by decide) rfl,
    c7_fetch_failure_no_update.2.2.2.1 0 ("A0".toList) _ (by decide) (by decide)⟩

/-- A resolved product record (the `Product` dataclass). -/
structure Product where
  asin : Str
  name : Str
  price : Str
  price_value : Int
  image : Str
  url : Str
deriving DecidableEq

/-- `Product.image_key`: the image locator truncated at its first `._`
variant marker (`image.split("._")[0]`). -/
def image_key (p : Product) : Str :=
  match sfind p.image ("._".toList) 0 with
  | some j => p.image.take j
  | none => p.image

/-- Python truthiness of an optional number (`None`, `0` and `0.0` falsy). -/
def intTruthy : Option Int → Bool
  | none => false
  | some n => decide (n ≠ 0)

/-- Python `f"{n:,}"` for a (possibly negative) integer. -/
def formatCommaInt (n : Int) : Str :=
  if n < 0 then '-' :: formatComma n.natAbs else formatComma n.natAbs

/-- `build_product_with_fallbacks` (update_catalog.py:255).  `fallback_price`
models the spreadsheet price through `int(fallback_price)` (spreadsheet
prices are integral). -/
def build_product_with_fallbacks (asin : Str) (name : Option Str) (cache : Cache)
    (fallback_price : Option Int) (fallback_image : Option Str) : Option Product :=
  let entry := (cacheLookup cache asin).getD {}
  let price₀ := sanitize_price entry.price
  let price₁ :=
    if price₀ = none ∧ intTruthy fallback_price = true then
      fallback_price.map (fun n => '¥' :: formatCommaInt n)
    else price₀
  match price₁ with
  | none => none
  | some price =>
    if price.isEmpty then none
    else
      match (if optTruthy entry.image then entry.image else fallback_image) with
      | none => none
      | some img =>
        if img.isEmpty then none
        else
          some { asin := asin
                 name := if optTruthy name then name.getD []
                   else if optTruthy entry.title then entry.title.getD [] else asin
                 price := price
                 price_value := price_to_int price
                 image := img
                 url := entry.url.getD ("https://www.amazon.co.jp/dp/".toList ++ asin) }

/-- `build_product` (update_catalog.py:245). -/
def build_product (asin : Str) (name : Option Str) (cache : Cache)
    (fallback_price : Option Int) : Option Product :=
  build_product_with_fallbacks asin name cache fallback_price none

/-- Modelled from the spec claim C5's resolution order: price resolves from
the sanitised cache price, else from the formatted fallback price whenever a
fallback price is given, else fails. -/
def spec_resolve_price (entryPrice : Option Str) (fallback_price : Option Int) :
    Option Str :=
  match sanitize_price entryPrice with
  | some p => some p
  | none => fallback_price.map (fun n => '¥' :: formatCommaInt n)

/-- C5 counterexample: with no cache price, a present fallback price of `0`,
and a resolvable image, the claim's resolution order yields the price `¥0`
and hence a Product, but the builder returns nothing (Python `if not price
and fallback_price:` treats the falsy `0` as absent). -/
theorem c5_counterexample :
    spec_resolve_price none (some 0) = some ("¥0".toList) ∧
    build_product_with_fallbacks ("B000X1".toList) none [] (some 0)
        (some ("https://img/AB._SX300.jpg".toList)) = none := by
  decide

theorem sanitize_price_isEmpty {x : Option Str} {p : Str}
    (h : sanitize_price x = some p) : p.isEmpty = false := by
  unfold sanitize_price at h
  cases x with
  | none => simp at h
  | some s =>
    dsimp only at h
    by_cases hs : s.isEmpty = true
    · rw [if_pos hs] at h
      simp at h
    · rw [if_neg hs] at h
      cases hd : (s.map (fun c => if c = '￥' then '¥' else c)).dropWhile
          (fun c => !c.isDigit) with
      | nil => rw [hd] at h; simp at h
      | cons c rest =>
        rw [hd] at h
        simp at h
        rw [← h]
        rfl

/-- Price resolution in the spec's order, with a falsy (zero) fallback price
counting as unavailable: sanitised cache price first, else formatted
fallback, else failure. -/
def resolvePrice (entry : CacheEntry) (fallback_price : Option Int) : Option Str :=
  match sanitize_price entry.price with
  | some p => some p
  | none =>
    if intTruthy fallback_price = true then
      fallback_price.map (fun n => '¥' :: formatCommaInt n)
    else none

/-- Image resolution in the spec's order: truthy cache image first, else the
fallback image, else failure. -/
def resolveProductImage (entry : CacheEntry) (fallback_image : Option Str) :
    Option Str :=
  match (if optTruthy entry.image then entry.image else fallback_image) with
  | none => none
  | some img => if img.isEmpty then none else some img

/-- Name resolution: explicit name, else cache title, else the identifier. -/
def resolveName (entry : CacheEntry) (name : Option Str) (asin : Str) : Str :=
  if optTruthy name then name.getD []
  else if optTruthy entry.title then entry.title.getD [] else asin

/-- URL resolution: cache URL, else the canonical URL from the identifier. -/
def resolveUrl (entry : CacheEntry) (asin : Str) : Str :=
  entry.url.getD ("https://www.amazon.co.jp/dp/".toList ++ asin)

/-- C5 (amended: a fallback price of `0` is falsy in Python and counts as
unavailable): the builder returns a Product exactly when the price and the
image both resolve, the cache price winning over the fallback; name and URL
resolve by their chains and never fail when the product is built.  The
claim's scenario: for `B000X1` with cached price `¥1,980`, cached image
`https://img/AB._SX300.jpg` and fallback price 2500, the resolved price is
`¥1,980` and the image key is `https://img/AB`. -/
theorem c5_builder_resolution :
    (∀ (asin : Str) (name : Option Str) (cache : Cache)
        (fallback_price : Option Int) (fallback_image : Option Str),
      build_product_with_fallbacks asin name cache fallback_price fallback_image =
        (match resolvePrice ((cacheLookup cache asin).getD {}) fallback_price,
               resolveProductImage ((cacheLookup cache asin).getD {}) fallback_image with
         | some price, some img =>
           some { asin := asin
                  name := resolveName ((cacheLookup cache asin).getD {}) name asin
                  price := price
                  price_value := price_to_int price
                  image := img
                  url := resolveUrl ((cacheLookup cache asin).getD {}) asin }
         | _, _ => none)) ∧
    ((build_product_with_fallbacks ("B000X1".toList) none
        [("B000X1".toList,
          { url := none, title := none
            price := some ("¥1,980".toList)
            image := some ("https://img/AB._SX300.jpg".toList)
            fetched_at := none, status_code := none })]
        (some 2500) none).map Product.price = some ("¥1,980".toList) ∧
     (build_product_with_fallbacks ("B000X1".toList) none
        [("B000X1".toList,
          { url := none, title := none
            price := some ("¥1,980".toList)
            image := some ("https://img/AB._SX300.jpg".toList)
            fetched_at := none, status_code := none })]
        (some 2500) none).map image_key = some ("https://img/AB".toList)) := by
  constructor
  · intro asin name cache fallback_price fallback_image
    unfold build_product_with_fallbacks resolvePrice resolveProductImage
      resolveName resolveUrl
    cases hs : sanitize_price ((cacheLookup cache asin).getD {}).price with
    | some p0 =>
      have hpe := sanitize_price_isEmpty hs
      simp only [hs]
      have hcond : ¬(some p0 = none ∧ intTruthy fallback_price = true) := by
        rintro ⟨h1, _⟩
        exact Option.noConfusion h1
      rw [if_neg hcond]
      cases hi : (if optTruthy ((cacheLookup cache asin).getD {}).image
          then ((cacheLookup cache asin).getD {}).image else fallback_image) with
      | none => simp [hpe]
      | some img =>
        by_cases hie : img.isEmpty = true
        · simp [hpe, hie]
        · simp [hpe, hie]
    | none =>
      simp only [hs]
      cases hft : intTruthy fallback_price with
      | false => simp
      | true =>
        cases fallback_price with
        | none => exact absurd hft (by simp [intTruthy])
        | some n =>
          have hne : ('¥' :: formatCommaInt n).isEmpty = false := rfl
          cases hi : (if optTruthy ((cacheLookup cache asin).getD {}).image
              then ((cacheLookup cache asin).getD {}).image else fallback_image) with
          | none => simp [hne, hi]
          | some img =>
            by_cases hie : img.isEmpty = true
            · simp [hne, hi, hie]
            · simp [hne, hi, hie]
  · constructor
    · decide
    · decide

/-- Sort key of the within-group sort: Python tuple `(-p.price_value,
p.asin)` compared lexicographically, i.e. price descending then identifier
ascending. -/
def prodLe (p q : Product) : Bool :=
  if p.price_value = q.price_value then lexLe p.asin q.asin
  else decide (q.price_value < p.price_value)

def headAsin : List Product → Str
  | [] => []
  | p :: _ => p.asin

/-- Sort key of the group sort: `(-max_price, first_member.asin)`. -/
def groupLe (x y : Int × List Product) : Bool :=
  if x.1 = y.1 then lexLe (headAsin x.2) (headAsin y.2)
  else decide (y.1 < x.1)

theorem descLe_total {α : Type _} (key : α → Int) (tie : α → α → Bool)
    (htot : ∀ x y, tie x y = true ∨ tie y x = true) (x y : α) :
    (if key x = key y then tie x y else decide (key y < key x)) = true ∨
    (if key y = key x then tie y x else decide (key x < key y)) = true := by
  by_cases h : key x = key y
  · rw [if_pos h, if_pos h.symm]
    exact htot x y
  · have h' : key y ≠ key x := fun hh => h hh.symm
    rw [if_neg h, if_neg h']
    rcases lt_or_gt_of_ne h with hlt | hlt
    · right; simpa using hlt
    · left; simpa using hlt

theorem descLe_trans {α : Type _} (key : α → Int) (tie : α → α → Bool)
    (htrans : ∀ x y z, tie x y = true → tie y z = true → tie x z = true)
    (x y z : α)
    (h1 : (if key x = key y then tie x y else decide (key y < key x)) = true)
    (h2 : (if key y = key z then tie y z else decide (key z < key y)) = true) :
    (if key x = key z then tie x z else decide (key z < key x)) = true := by
  by_cases hxy : key x = key y
  · rw [if_pos hxy] at h1
    by_cases hyz : key y = key z
    · rw [if_pos hyz] at h2
      rw [if_pos (hxy.trans hyz)]
      exact htrans x y z h1 h2
    · rw [if_neg hyz] at h2
      have hlt : key z < key y := by simpa using h2
      have hlt' : key z < key x := by rw [hxy]; exact hlt
      have hne : key x ≠ key z := by
        intro hh
        rw [hh] at hlt'
        exact lt_irrefl _ hlt'
      rw [if_neg hne]
      simpa using hlt'
  · rw [if_neg hxy] at h1
    have hlt1 : key y < key x := by simpa using h1
    have hlt' : key z < key x := by
      by_cases hyz : key y = key z
      · rw [← hyz]; exact hlt1
      · rw [if_neg hyz] at h2
        have hlt2 : key z < key y := by simpa using h2
        exact lt_trans hlt2 hlt1
    have hne : key x ≠ key z := by
      intro hh
      rw [hh] at hlt'
      exact lt_irrefl _ hlt'
    rw [if_neg hne]
    simpa using hlt'

theorem prodLe_total (p q : Product) : prodLe p q = true ∨ prodLe q p = true := by
  unfold prodLe
  exact descLe_total (fun r : Product => r.price_value)
    (fun r s => lexLe r.asin s.asin) (fun r s => lexLe_total r.asin s.asin) p q

theorem prodLe_trans (p q r : Product) (h1 : prodLe p q = true)
    (h2 : prodLe q r = true) : prodLe p r = true := by
  unfold prodLe at h1 h2 ⊢
  exact descLe_trans (fun x : Product => x.price_value)
    (fun x y => lexLe x.asin y.asin)
    (fun x y z => lexLe_trans x.asin y.asin z.asin) p q r h1 h2

theorem groupLe_total (x y : Int × List Product) :
    groupLe x y = true ∨ groupLe y x = true := by
  unfold groupLe
  exact descLe_total (fun r : Int × List Product => r.1)
    (fun r s => lexLe (headAsin r.2) (headAsin s.2))
    (fun r s => lexLe_total (headAsin r.2) (headAsin s.2)) x y

theorem groupLe_trans (x y z : Int × List Product) (h1 : groupLe x y = true)
    (h2 : groupLe y z = true) : groupLe x z = true := by
  unfold groupLe at h1 h2 ⊢
  exact descLe_trans (fun r : Int × List Product => r.1)
    (fun r s => lexLe (headAsin r.2) (headAsin s.2))
    (fun r s t => lexLe_trans (headAsin r.2) (headAsin s.2) (headAsin t.2))
    x y z h1 h2

/-- One step of the grouping pass `groups[product.image_key].append(product)`
over an insertion-ordered mapping (`defaultdict`). -/
def addToGroups (gs : List (Str × List Product)) (p : Product) :
    List (Str × List Product) :=
  if gs.any (fun kl => decide (kl.1 = image_key p)) then
    gs.map (fun kl => if kl.1 = image_key p then (kl.1, kl.2 ++ [p]) else kl)
  else gs ++ [(image_key p, [p])]

/-- `max(p.price_value for p in items)` (assumes non-empty, 0 otherwise). -/
def listMaxPv : List Product → Int
  | [] => 0
  | p :: rest => rest.foldl (fun acc q => max acc q.price_value) p.price_value

/-- `group_and_sort` (update_catalog.py:430): cluster by image key in first
occurrence order, sort members by price descending / asin ascending, order
the groups by max price descending / first asin ascending, return the flat
concatenation and the groups. -/
def group_and_sort (products : List Product) :
    List Product × List (List Product) :=
  let gs := products.foldl addToGroups []
  let ordered := gs.map (fun kl =>
    (listMaxPv (isort prodLe kl.2), isort prodLe kl.2))
  let ordered₂ := isort groupLe ordered
  ((ordered₂.map Prod.snd).flatten, ordered₂.map Prod.snd)

/-- Grouping-pass invariant: groups are non-empty, members carry the group's
key, and keys are distinct. -/
def GInv (gs : List (Str × List Product)) : Prop :=
  (∀ kl ∈ gs, kl.2 ≠ [] ∧ ∀ p ∈ kl.2, image_key p = kl.1) ∧
    (gs.map Prod.fst).Nodup

theorem addToGroups_inv {gs : List (Str × List Product)} {p : Product}
    (h : GInv gs) : GInv (addToGroups gs p) := by
  obtain ⟨hmem, hnd⟩ := h
  unfold addToGroups
  by_cases hany : gs.any (fun kl => decide (kl.1 = image_key p)) = true
  · rw [if_pos hany]
    constructor
    · intro kl hkl
      rcases List.mem_map.1 hkl with ⟨km, hkm, hfm⟩
      by_cases hk : km.1 = image_key p
      · rw [if_pos hk] at hfm
        subst hfm
        refine ⟨by simp, ?_⟩
        intro q hq
        rcases List.mem_append.1 hq with hq | hq
        · exact (hmem km hkm).2 q hq
        · simp at hq
          subst hq
          exact hk.symm
      · rw [if_neg hk] at hfm
        subst hfm
        exact hmem km hkm
    · have hmap : (gs.map (fun kl =>
          if kl.1 = image_key p then (kl.1, kl.2 ++ [p]) else kl)).map Prod.fst =
          gs.map Prod.fst := by
        rw [List.map_map]
        apply List.map_congr_left
        intro kl _
        by_cases hk : kl.1 = image_key p
        · simp [hk]
        · simp [hk]
      rw [hmap]
      exact hnd
  · rw [if_neg hany]
    have hnotin : image_key p ∉ gs.map Prod.fst := by
      intro hx
      rcases List.mem_map.1 hx with ⟨kl, hkl, hfst⟩
      apply hany
      rw [List.any_eq_true]
      exact ⟨kl, hkl, by rw [hfst]; simp⟩
    constructor
    · intro kl hkl
      rcases List.mem_append.1 hkl with hkl | hkl
      · exact hmem kl hkl
      · simp at hkl
        subst hkl
        refine ⟨by simp, ?_⟩
        intro q hq
        simp at hq
        subst hq
        rfl
    · simp only [List.map_append, List.map_cons, List.map_nil]
      rw [List.nodup_append]
      refine ⟨hnd, List.nodup_singleton _, ?_⟩
      intro x hx hy
      simp at hy
      subst hy
      exact hnotin hx

theorem flatten_update_perm {gs : List (Str × List Product)} {key : Str}
    {p : Product} (hnd : (gs.map Prod.fst).Nodup)
    (hany : gs.any (fun kl => decide (kl.1 = key)) = true) :
    List.Perm
      ((gs.map (fun kl => if kl.1 = key then (kl.1, kl.2 ++ [p]) else kl)).map
        Prod.snd).flatten
      ((gs.map Prod.snd).flatten ++ [p]) := by
  induction gs with
  | nil => simp at hany
  | cons kl rest ih =>
    simp only [List.map_cons, List.nodup_cons] at hnd
    obtain ⟨hk, hndr⟩ := hnd
    by_cases hkl : kl.1 = key
    · have hrest_id : rest.map (fun km =>
          if km.1 = key then (km.1, km.2 ++ [p]) else km) = rest := by
        conv_rhs => rw [← List.map_id rest]
        apply List.map_congr_left
        intro km hkm
        have hne : km.1 ≠ key := by
          intro hh
          apply hk
          rw [hkl, ← hh]
          exact List.mem_map.2 ⟨km, hkm, rfl⟩
        simp [hne]
      simp only [List.map_cons, if_pos hkl, hrest_id, List.flatten_cons]
      rw [List.append_assoc, List.append_assoc]
      exact (List.perm_append_comm).append_left kl.2
    · have hany' : rest.any (fun km => decide (km.1 = key)) = true := by
        simp only [List.any_cons] at hany
        rcases Bool.or_eq_true_iff.1 hany with h1 | h1
        · exact absurd (of_decide_eq_true h1) hkl
        · exact h1
      simp only [List.map_cons, if_neg hkl, List.flatten_cons]
      rw [List.append_assoc]
      exact (ih hndr hany').append_left kl.2

theorem addToGroups_flatten {gs : List (Str × List Product)} {p : Product}
    (h : GInv gs) :
    List.Perm (((addToGroups gs p).map Prod.snd).flatten)
      ((gs.map Prod.snd).flatten ++ [p]) := by
  obtain ⟨_, hnd⟩ := h
  unfold addToGroups
  by_cases hany : gs.any (fun kl => decide (kl.1 = image_key p)) = true
  · rw [if_pos hany]
    exact flatten_update_perm hnd hany
  · rw [if_neg hany]
    simp

theorem fold_groups_spec (products : List Product) :
    ∀ gs, GInv gs →
      GInv (products.foldl addToGroups gs) ∧
      List.Perm (((products.foldl addToGroups gs).map Prod.snd).flatten)
        ((gs.map Prod.snd).flatten ++ products) := by
  induction products with
  | nil =>
    intro gs h
    exact ⟨h, by simp⟩
  | cons p rest ih =>
    intro gs h
    have h1 := addToGroups_inv (p := p) h
    obtain ⟨hinv, hperm⟩ := ih (addToGroups gs p) h1
    refine ⟨hinv, ?_⟩
    have hstep : List.Perm ((((addToGroups gs p).map Prod.snd).flatten) ++ rest)
        (((gs.map Prod.snd).flatten ++ [p]) ++ rest) :=
      (addToGroups_flatten (p := p) h).append_right rest
    have heq : ((gs.map Prod.snd).flatten ++ [p]) ++ rest =
        (gs.map Prod.snd).flatten ++ (p :: rest) := by
      rw [List.append_assoc]
      rfl
    rw [heq] at hstep
    exact (hperm.trans hstep)

theorem flatten_map_isort (gs : List (Str × List Product)) :
    List.Perm
      (((gs.map (fun kl =>
        (listMaxPv (isort prodLe kl.2), isort prodLe kl.2))).map Prod.snd).flatten)
      ((gs.map Prod.snd).flatten) := by
  induction gs with
  | nil => simp
  | cons kl rest ih =>
    simp only [List.map_cons, List.flatten_cons]
    exact (isort_perm prodLe kl.2).append ih

/-- C3: `group_and_sort` partitions its input by image-identity key, sorts
each group by price descending with identifier ascending as tie-break,
orders groups by maximum member price descending with the first member's
identifier ascending as tie-break, and returns the flat concatenation of
the ordered groups — the same multiset as the input (nothing dropped or
duplicated).  Being a pure function of the input list, the result is
deterministic. -/
theorem c3_group_and_sort (products : List Product) :
    (group_and_sort products).1 = (group_and_sort products).2.flatten ∧
    List.Perm (group_and_sort products).1 products ∧
    (∀ g ∈ (group_and_sort products).2, g ≠ [] ∧
      g.Pairwise (fun p q => prodLe p q = true) ∧
      ∀ p ∈ g, ∀ q ∈ g, image_key p = image_key q) ∧
    (group_and_sort products).2.Pairwise
      (fun g h => groupLe (listMaxPv g, g) (listMaxPv h, h) = true) ∧
    (group_and_sort products).2.Pairwise
      (fun g h => ∀ p ∈ g, ∀ q ∈ h, image_key p ≠ image_key q) := by
  obtain ⟨⟨hmem, hnd⟩, hperm⟩ := fold_groups_spec products []
    ⟨by intro kl hkl; simp at hkl, by simp⟩
  simp only [group_and_sort]
  refine ⟨trivial, ?_, ?_, ?_, ?_⟩
  · -- the flat list is a permutation of the input
    have h1 : List.Perm
        ((isort groupLe ((products.foldl addToGroups []).map (fun kl =>
          (listMaxPv (isort prodLe kl.2), isort prodLe kl.2)))).map Prod.snd)
        (((products.foldl addToGroups []).map (fun kl =>
          (listMaxPv (isort prodLe kl.2), isort prodLe kl.2))).map Prod.snd) :=
      (isort_perm groupLe _).map Prod.snd
    refine (h1.flatten).trans ?_
    refine (flatten_map_isort _).trans ?_
    simpa using hperm
  · -- each group: non-empty, sorted, single image key
    intro g hg
    rcases List.mem_map.1 hg with ⟨x, hx, hxg⟩
    have hx' : x ∈ (products.foldl addToGroups []).map (fun kl =>
        (listMaxPv (isort prodLe kl.2), isort prodLe kl.2)) :=
      (isort_perm groupLe _).mem_iff.1 hx
    rcases List.mem_map.1 hx' with ⟨kl, hkl, hklx⟩
    have hg2 : g = isort prodLe kl.2 := by rw [← hxg, ← hklx]
    obtain ⟨hklne, hklkey⟩ := hmem kl hkl
    refine ⟨?_, ?_, ?_⟩
    · rw [hg2]
      intro hnil
      apply hklne
      have := (isort_perm prodLe kl.2).length_eq
      rw [hnil] at this
      simp at this
      exact List.eq_nil_of_length_eq_zero this.symm
    · rw [hg2]
      exact isort_pairwise prodLe prodLe_total prodLe_trans kl.2
    · intro p hp q hq
      rw [hg2] at hp hq
      have hp' := (isort_perm prodLe kl.2).mem_iff.1 hp
      have hq' := (isort_perm prodLe kl.2).mem_iff.1 hq
      rw [hklkey p hp', hklkey q hq']
  · -- groups ordered by (max price desc, first asin asc)
    have hpw := isort_pairwise groupLe groupLe_total groupLe_trans
      ((products.foldl addToGroups []).map (fun kl =>
        (listMaxPv (isort prodLe kl.2), isort prodLe kl.2)))
    rw [List.pairwise_map]
    refine hpw.imp_of_mem ?_
    intro x y hxm hym hxy
    have hel : ∀ z ∈ isort groupLe ((products.foldl addToGroups []).map (fun kl =>
        (listMaxPv (isort prodLe kl.2), isort prodLe kl.2))),
        z = (listMaxPv z.2, z.2) := by
      intro z hz
      have hz' := (isort_perm groupLe _).mem_iff.1 hz
      rcases List.mem_map.1 hz' with ⟨kl, _, hklz⟩
      rw [← hklz]
    rw [← hel x hxm, ← hel y hym]
    exact hxy
  · -- distinct image keys across groups
    have h1 : (products.foldl addToGroups []).Pairwise
        (fun kl km => kl.1 ≠ km.1) := (List.pairwise_map).1 hnd
    have h2 : ((products.foldl addToGroups []).map (fun kl =>
        (listMaxPv (isort prodLe kl.2), isort prodLe kl.2))).Pairwise
        (fun x y => ∀ p ∈ x.2, ∀ q ∈ y.2, image_key p ≠ image_key q) := by
      rw [List.pairwise_map]
      refine h1.imp_of_mem ?_
      intro kl km hklm hkmm hne p hp q hq
      have hp' := (isort_perm prodLe kl.2).mem_iff.1 hp
      have hq' := (isort_perm prodLe km.2).mem_iff.1 hq
      rw [(hmem kl hklm).2 p hp', (hmem km hkmm).2 q hq']
      exact hne
    have hsym : Symmetric (fun x y : Int × List Product =>
        ∀ p ∈ x.2, ∀ q ∈ y.2, image_key p ≠ image_key q) := by
      intro x y hxy p hp q hq
      exact (hxy q hq p hp).symm
    have h3 := (((isort_perm groupLe _).symm).pairwise_iff
      (fun hab => hsym hab)).1 h2
    rw [List.pairwise_map]
    exact h3

/-- One entry of the manually curated `specified_products.json` input.
`order` is `none` when the key is missing (a non-integer order value is not
modelled: mixed with integer orders it would make Python's `sorted` raise). -/
structure SEntry where
  asin : Option Str := none
  name : Option Str := none
  order : Option Int := none
  image_fallback : Option Str := none
deriving DecidableEq

structure PreparedItem where
  order : Int
  display_name : Str
  product : Product
deriving DecidableEq

/-- The sort key of `prepare_specified_products`:
`item.get("order", 0)` ascending. -/
def specOrderLe (e f : SEntry) : Bool :=
  decide (e.order.getD 0 ≤ f.order.getD 0)

theorem specOrderLe_total (e f : SEntry) :
    specOrderLe e f = true ∨ specOrderLe f e = true := by
  unfold specOrderLe
  rcases Int.le_total (e.order.getD 0) (f.order.getD 0) with h | h
  · left; simpa using h
  · right; simpa using h

theorem specOrderLe_trans (e f g : SEntry) (h1 : specOrderLe e f = true)
    (h2 : specOrderLe f g = true) : specOrderLe e g = true := by
  unfold specOrderLe at h1 h2 ⊢
  have h1' := of_decide_eq_true h1
  have h2' := of_decide_eq_true h2
  exact decide_eq_true (le_trans h1' h2')

/-- Loop body of `prepare_specified_products` (update_catalog.py:300). -/
def specStep (cache : Cache) (acc : List PreparedItem) (e : SEntry) :
    List PreparedItem :=
  match e.asin with
  | none => acc
  | some a =>
    let a' := pyStrip a
    if a' = [] then acc
    else
      match build_product_with_fallbacks a' e.name cache none e.image_fallback with
      | none => acc
      | some prod =>
        acc ++ [{ order := e.order.getD ((acc.length : Int) + 1)
                  display_name := if optTruthy e.name then e.name.getD []
                    else prod.name
                  product := prod }]

/-- One section of `prepare_specified_products`: iterate the entries sorted
by `item.get("order", 0)`, dropping blank identifiers and unbuildable
products. -/
def buildSection (cache : Cache) (entries : List SEntry) : List PreparedItem :=
  (isort specOrderLe entries).foldl (specStep cache) []

/-- `prepare_specified_products` (update_catalog.py:293): keep only
non-empty sections, in input order. -/
def prepare_specified_products (specified : List (Str × List SEntry))
    (cache : Cache) : List (Str × List PreparedItem) :=
  (specified.map (fun ks => (ks.1, buildSection cache ks.2))).filter
    (fun ks => decide (ks.2 ≠ []))

def c9cache : Cache :=
  [("A1".toList,
    { url := none, title := none, price := some ("¥100".toList)
      image := some ("https://img/A".toList)
      fetched_at := none, status_code := none }),
   ("B1".toList,
    { url := none, title := none, price := some ("¥300".toList)
      image := some ("https://img/B".toList)
      fetched_at := none, status_code := none })]

/-- C9 counterexample: in a section holding an entry with explicit order 2
and an entry with no order value, the missing-order entry is rendered FIRST
(its sort key defaults to 0, before 2), not "at the end of the section,
after all entries with explicit orders" as the claim states. -/
theorem c9_counterexample :
    (prepare_specified_products
      [("sec".toList,
        [{ asin := some ("A1".toList), name := none, order := some 2,
           image_fallback := none },
         { asin := some ("B1".toList), name := none, order := none,
           image_fallback := none }])] c9cache).map
      (fun ks => ks.2.map (fun it => it.product.asin)) =
      [[("B1".toList), ("A1".toList)]] := by
  decide

theorem buildSection_fold_pairwise (cache : Cache) :
    ∀ (l : List SEntry) (acc : List PreparedItem),
      (∀ e ∈ l, e.order ≠ none) →
      l.Pairwise (fun e f => specOrderLe e f = true) →
      acc.Pairwise (fun a b => a.order ≤ b.order) →
      (∀ a ∈ acc, ∀ e ∈ l, a.order ≤ e.order.getD 0) →
      (l.foldl (specStep cache) acc).Pairwise (fun a b => a.order ≤ b.order) := by
  intro l
  induction l with
  | nil =>
    intro acc _ _ hacc _
    exact hacc
  | cons e rest ih =>
    intro acc hall hpw hacc hord
    rcases List.pairwise_cons.1 hpw with ⟨hef, hpwr⟩
    have hallr : ∀ f ∈ rest, f.order ≠ none :=
      fun f hf => hall f (List.mem_cons.2 (Or.inr hf))
    have hstep : ∀ acc', acc' = specStep cache acc e →
        (acc'.Pairwise (fun a b => a.order ≤ b.order) ∧
          ∀ a ∈ acc', ∀ f ∈ rest, a.order ≤ f.order.getD 0) := by
      intro acc' hacc'
      have hordr : ∀ a ∈ acc, ∀ f ∈ rest, a.order ≤ f.order.getD 0 :=
        fun a ha f hf => hord a ha f (List.mem_cons.2 (Or.inr hf))
      unfold specStep at hacc'
      cases ha : e.asin with
      | none =>
        rw [ha] at hacc'
        subst hacc'
        exact ⟨hacc, hordr⟩
      | some a =>
        rw [ha] at hacc'
        dsimp only at hacc'
        by_cases hblank : pyStrip a = []
        · rw [if_pos hblank] at hacc'
          subst hacc'
          exact ⟨hacc, hordr⟩
        · rw [if_neg hblank] at hacc'
          cases hb : build_product_with_fallbacks (pyStrip a) e.name cache none
              e.image_fallback with
          | none =>
            rw [hb] at hacc'
            subst hacc'
            exact ⟨hacc, hordr⟩
          | some prod =>
            rw [hb] at hacc'
            subst hacc'
            obtain ⟨n, hn⟩ : ∃ n, e.order = some n := by
              cases ho : e.order with
              | none => exact absurd ho (hall e (List.mem_cons.2 (Or.inl rfl)))
              | some n => exact ⟨n, rfl⟩
            constructor
            · rw [List.pairwise_append]
              refine ⟨hacc, List.pairwise_singleton _ _, ?_⟩
              intro a ha' b hb'
              simp at hb'
              subst hb'
              simp only [hn, Option.getD_some]
              have := hord a ha' e (List.mem_cons.2 (Or.inl rfl))
              simpa [hn] using this
            · intro x hx f hf
              rcases List.mem_append.1 hx with hx | hx
              · exact hordr x hx f hf
              · simp at hx
                subst hx
                simp only [hn, Option.getD_some]
                have := hef f hf
                unfold specOrderLe at this
                have h' := of_decide_eq_true this
                simpa [hn] using h'
    have hnext := hstep (specStep cache acc e) rfl
    simp only [List.foldl_cons]
    exact ih (specStep cache acc e) hallr hpwr hnext.1 hnext.2

/-- C9 (amended): entries are sorted ascending by their order value, a
MISSING order being treated as 0 — so such an entry is placed before all
positive explicit orders, not appended at the end.  In particular when
every entry of every section carries an explicit order value, each
prepared section is ordered ascending by order. -/
theorem c9_prepare_order (specified : List (Str × List SEntry)) (cache : Cache)
    (hall : ∀ ks ∈ specified, ∀ e ∈ ks.2, e.order ≠ none) :
    ∀ ks ∈ prepare_specified_products specified cache,
      ks.2.Pairwise (fun a b => a.order ≤ b.order) := by
  intro ks hks
  unfold prepare_specified_products at hks
  have hks' := List.mem_of_mem_filter hks
  rcases List.mem_map.1 hks' with ⟨km, hkm, hmap⟩
  subst hmap
  unfold buildSection
  apply buildSection_fold_pairwise cache _ []
  · intro e he
    exact hall km hkm e ((isort_perm specOrderLe km.2).mem_iff.1 he)
  · exact isort_pairwise specOrderLe specOrderLe_total specOrderLe_trans km.2
  · exact List.Pairwise.nil
  · intro a ha
    simp at ha

theorem c9_witness :
    (("sec".toList, buildSection c9cache
      [{ asin := some ("A1".toList), name := none, order := some 2,
         image_fallback := none },
       { asin := some ("B1".toList), name := none, order := some 1,
         image_fallback := none }]) : Str × List PreparedItem).2.Pairwise
      (fun a b => a.order ≤ b.order) :=
  c9_prepare_order
    [("sec".toList,
      [{ asin := some ("A1".toList), name := none, order := some 2,
         image_fallback := none },
       { asin := some ("B1".toList), name := none, order := some 1,
         image_fallback := none }])] c9cache (by decide)
    ("sec".toList, buildSection c9cache
      [{ asin := some ("A1".toList), name := none, order := some 2,
         image_fallback := none },
       { asin := some ("B1".toList), name := none, order := some 1,
         image_fallback := none }]) (by decide)

def c3wP1 : Product :=
  { asin := "A1".toList, name := "n1".toList, price := "¥200".toList
    price_value := 200, image := "https://i/AB._S.jpg".toList, url := "u".toList }

def c3wP2 : Product :=
  { asin := "A2".toList, name := "n2".toList, price := "¥100".toList
    price_value := 100, image := "https://i/AB._T.jpg".toList, url := "u".toList }

theorem c3_witness :
    [c3wP1, c3wP2] ∈ (group_and_sort [c3wP1, c3wP2]).2 ∧
    ([c3wP1, c3wP2] ≠ [] ∧
      List.Pairwise (fun p q => prodLe p q = true) [c3wP1, c3wP2] ∧
      ∀ p ∈ [c3wP1, c3wP2], ∀ q ∈ [c3wP1, c3wP2], image_key p = image_key q) :=
  ⟨by decide, (c3_group_and_sort [c3wP1, c3wP2]).2.2.1 [c3wP1, c3wP2] (by decide)⟩

/-- `html.escape(s, quote=True)`: the five sequential replacements are
equivalent to this character-wise map, since no replacement output contains
a character escaped by a later replacement (each later replace acts only on
characters already present). -/
def escChar (c : Char) : Str :=
  if c = '&' then "&amp;".toList
  else if c = '<' then "&lt;".toList
  else if c = '>' then "&gt;".toList
  else if c = '"' then "&quot;".toList
  else if c = Char.ofNat 39 then "&#x27;".toList
  else [c]

def html_escape (s : Str) : Str := (s.map escChar).flatten

/-- Python `str(n)` for an `int`. -/
def intToStr (n : Int) : Str :=
  if n < 0 then '-' :: Nat.toDigits 10 n.natAbs else Nat.toDigits 10 n.natAbs

def joinNL : List Str → Str
  | [] => []
  | [l] => l
  | l :: rest => l ++ '\n' :: joinNL rest

/-- `render_ranking_items` (update_catalog.py:386). -/
def render_ranking_items (items : List PreparedItem) : List Str :=
  items.map (fun item =>
    joinNL [
      "<div class=\"ranking-item\">".toList,
      "  <div class=\"ranking-number\">".toList ++ html_escape (intToStr item.order)
        ++ "</div>".toList,
      "  <a class=\"ranking-link\" href=\"".toList ++ html_escape item.product.url
        ++ "\" rel=\"noopener noreferrer\" target=\"_blank\">".toList,
      "    <div class=\"ranking-image\">".toList,
      "    <img alt=\"".toList ++ html_escape item.display_name
        ++ "\" src=\"".toList ++ html_escape item.product.image ++ "\"/>".toList,
      "    </div>".toList,
      "    <div class=\"ranking-info\">".toList,
      "    <div class=\"ranking-name\">".toList ++ html_escape item.display_name
        ++ "</div>".toList,
      "    <div class=\"ranking-price\">".toList ++ item.product.price
        ++ "</div>".toList,
      "    </div>".toList,
      "  </a>".toList,
      "</div>".toList])

/-- `render_all_items` (update_catalog.py:410). -/
def render_all_items (items : List PreparedItem) : List Str :=
  items.map (fun item =>
    joinNL [
      "<a class=\"item-card\" href=\"".toList ++ html_escape item.product.url
        ++ "\" rel=\"noopener noreferrer\" target=\"_blank\">".toList,
      "  <div class=\"item-image\">".toList,
      "  <img alt=\"".toList ++ html_escape item.display_name
        ++ "\" src=\"".toList ++ html_escape item.product.image ++ "\"/>".toList,
      "  </div>".toList,
      "  <div class=\"item-info\">".toList,
      "  <div class=\"item-name\">".toList ++ html_escape item.display_name
        ++ "</div>".toList,
      "  <div class=\"item-price\">".toList ++ item.product.price
        ++ "</div>".toList,
      "  </div>".toList,
      "</a>".toList])

/-- `render_item_cards` (update_catalog.py:450). -/
def render_item_cards (products : List Product) (class_name : Str) : List Str :=
  products.map (fun product =>
    joinNL [
      "<a class=\"".toList ++ class_name ++ "\" href=\"".toList
        ++ html_escape product.url
        ++ "\" rel=\"noopener noreferrer\" target=\"_blank\">".toList,
      "  <div class=\"item-image\">".toList,
      "  <img alt=\"".toList ++ html_escape product.name
        ++ "\" src=\"".toList ++ html_escape product.image ++ "\"/>".toList,
      "  </div>".toList,
      "  <div class=\"item-info\">".toList,
      "  <div class=\"item-price\">".toList ++ product.price ++ "</div>".toList,
      "  </div>".toList,
      "</a>".toList])

/-- `render_product_cards` (update_catalog.py:470). -/
def render_product_cards (products : List Product) : List Str :=
  products.map (fun product =>
    joinNL [
      "<a class=\"product-card\" href=\"".toList ++ html_escape product.url
        ++ "\" target=\"_blank\">".toList,
      "  <div class=\"product-image\">".toList,
      "  <img alt=\"".toList ++ html_escape product.name
        ++ "\" src=\"".toList ++ html_escape product.image ++ "\"/>".toList,
      "  </div>".toList,
      "  <div class=\"product-info\">".toList,
      "  <div class=\"product-price\">".toList ++ product.price
        ++ "</div>".toList,
      "  </div>".toList,
      "</a>".toList])

/-- Modelled from the spec claim C10: the ranking renderer with EVERY piece
of user-controlled text — the price string included — HTML-escaped. -/
def spec_render_ranking_items (items : List PreparedItem) : List Str :=
  items.map (fun item =>
    joinNL [
      "<div class=\"ranking-item\">".toList,
      "  <div class=\"ranking-number\">".toList ++ html_escape (intToStr item.order)
        ++ "</div>".toList,
      "  <a class=\"ranking-link\" href=\"".toList ++ html_escape item.product.url
        ++ "\" rel=\"noopener noreferrer\" target=\"_blank\">".toList,
      "    <div class=\"ranking-image\">".toList,
      "    <img alt=\"".toList ++ html_escape item.display_name
        ++ "\" src=\"".toList ++ html_escape item.product.image ++ "\"/>".toList,
      "    </div>".toList,
      "    <div class=\"ranking-info\">".toList,
      "    <div class=\"ranking-name\">".toList ++ html_escape item.display_name
        ++ "</div>".toList,
      "    <div class=\"ranking-price\">".toList ++ html_escape item.product.price
        ++ "</div>".toList,
      "    </div>".toList,
      "  </a>".toList,
      "</div>".toList])

/-- Modelled from the spec claim C10: the all-items renderer with the price
escaped as well. -/
def spec_render_all_items (items : List PreparedItem) : List Str :=
  items.map (fun item =>
    joinNL [
      "<a class=\"item-card\" href=\"".toList ++ html_escape item.product.url
        ++ "\" rel=\"noopener noreferrer\" target=\"_blank\">".toList,
      "  <div class=\"item-image\">".toList,
      "  <img alt=\"".toList ++ html_escape item.display_name
        ++ "\" src=\"".toList ++ html_escape item.product.image ++ "\"/>".toList,
      "  </div>".toList,
      "  <div class=\"item-info\">".toList,
      "  <div class=\"item-name\">".toList ++ html_escape item.display_name
        ++ "</div>".toList,
      "  <div class=\"item-price\">".toList ++ html_escape item.product.price
        ++ "</div>".toList,
      "  </div>".toList,
      "</a>".toList])

/-- Modelled from the spec claim C10: the item-card renderer with the price
escaped as well. -/
def spec_render_item_cards (products : List Product) (class_name : Str) :
    List Str :=
  products.map (fun product =>
    joinNL [
      "<a class=\"".toList ++ class_name ++ "\" href=\"".toList
        ++ html_escape product.url
        ++ "\" rel=\"noopener noreferrer\" target=\"_blank\">".toList,
      "  <div class=\"item-image\">".toList,
      "  <img alt=\"".toList ++ html_escape product.name
        ++ "\" src=\"".toList ++ html_escape product.image ++ "\"/>".toList,
      "  </div>".toList,
      "  <div class=\"item-info\">".toList,
      "  <div class=\"item-price\">".toList ++ html_escape product.price
        ++ "</div>".toList,
      "  </div>".toList,
      "</a>".toList])

/-- Modelled from the spec claim C10: the product-card renderer with the
price escaped as well. -/
def spec_render_product_cards (products : List Product) : List Str :=
  products.map (fun product =>
    joinNL [
      "<a class=\"product-card\" href=\"".toList ++ html_escape product.url
        ++ "\" target=\"_blank\">".toList,
      "  <div class=\"product-image\">".toList,
      "  <img alt=\"".toList ++ html_escape product.name
        ++ "\" src=\"".toList ++ html_escape product.image ++ "\"/>".toList,
      "  </div>".toList,
      "  <div class=\"product-info\">".toList,
      "  <div class=\"product-price\">".toList ++ html_escape product.price
        ++ "</div>".toList,
      "  </div>".toList,
      "</a>".toList])

def occursIn (s pat : Str) : Bool := (sfind s pat 0).isSome

def c10prod : Product :=
  { asin := "A1".toList, name := "n".toList, price := "<script>".toList
    price_value := 0, image := "https://i".toList, url := "u".toList }

def c10item : PreparedItem :=
  { order := 1, display_name := "n".toList, product := c10prod }

/-- C10 counterexample: every renderer interpolates `product.price` without
`html.escape`.  With a price containing markup, each rendered card differs
from its fully-escaped counterpart and contains the raw unescaped text. -/
theorem c10_counterexample :
    render_item_cards [c10prod] ("item-card".toList) ≠
      spec_render_item_cards [c10prod] ("item-card".toList) ∧
    render_product_cards [c10prod] ≠ spec_render_product_cards [c10prod] ∧
    render_ranking_items [c10item] ≠ spec_render_ranking_items [c10item] ∧
    render_all_items [c10item] ≠ spec_render_all_items [c10item] ∧
    occursIn ((render_item_cards [c10prod] ("item-card".toList)).headD [])
      ("<script>".toList) = true ∧
    html_escape ("<script>".toList) ≠ "<script>".toList := by
  decide

theorem natDigitsAux_digits :
    ∀ (fuel n : Nat) (c : Char), c ∈ natDigitsAux fuel n → c.isDigit = true := by
  intro fuel
  induction fuel with
  | zero => intro n c hc; simp [natDigitsAux] at hc
  | succ f ih =>
    intro n c hc
    unfold natDigitsAux at hc
    by_cases hn : n = 0
    · rw [if_pos hn] at hc; simp at hc
    · rw [if_neg hn] at hc
      rcases List.mem_append.1 hc with hc | hc
      · exact ih (n / 10) c hc
      · simp at hc
        subst hc
        have hlt : n % 10 < 10 := Nat.mod_lt n (by omega)
        have hdec : ∀ d, d < 10 → (Char.ofNat (48 + d)).isDigit = true := by decide
        exact hdec (n % 10) hlt

theorem natDigits_digits {n : Nat} {c : Char} (hc : c ∈ natDigits n) :
    c.isDigit = true := by
  unfold natDigits at hc
  by_cases hn : n = 0
  · rw [if_pos hn] at hc
    simp at hc
    subst hc
    decide
  · rw [if_neg hn] at hc
    exact natDigitsAux_digits (n + 1) n c hc

theorem commaRev_chars :
    ∀ (ds : Str) (i : Nat) (c : Char), c ∈ commaRev i ds → c ∈ ds ∨ c = ',' := by
  intro ds
  induction ds with
  | nil => intro i c hc; simp [commaRev] at hc
  | cons d rest ih =>
    intro i c hc
    unfold commaRev at hc
    by_cases hi : i ≠ 0 ∧ i % 3 = 0
    · rw [if_pos hi] at hc
      rcases List.mem_cons.1 hc with hc | hc
      · right; exact hc
      · rcases List.mem_cons.1 hc with hc | hc
        · left; exact List.mem_cons.2 (Or.inl hc)
        · rcases ih (i + 1) c hc with h | h
          · left; exact List.mem_cons.2 (Or.inr h)
          · right; exact h
    · rw [if_neg hi] at hc
      rcases List.mem_cons.1 hc with hc | hc
      · left; exact List.mem_cons.2 (Or.inl hc)
      · rcases ih (i + 1) c hc with h | h
        · left; exact List.mem_cons.2 (Or.inr h)
        · right; exact h

theorem formatComma_chars {n : Nat} {c : Char} (hc : c ∈ formatComma n) :
    c.isDigit = true ∨ c = ',' := by
  unfold formatComma at hc
  rw [List.mem_reverse] at hc
  rcases commaRev_chars _ _ _ hc with h | h
  · rw [List.mem_reverse] at h
    exact Or.inl (natDigits_digits h)
  · exact Or.inr h

theorem formatCommaInt_chars {n : Int} {c : Char} (hc : c ∈ formatCommaInt n) :
    c.isDigit = true ∨ c = ',' ∨ c = '-' := by
  unfold formatCommaInt at hc
  by_cases hn : n < 0
  · rw [if_pos hn] at hc
    rcases List.mem_cons.1 hc with hc | hc
    · exact Or.inr (Or.inr hc)
    · rcases formatComma_chars hc with h | h
      · exact Or.inl h
      · exact Or.inr (Or.inl h)
  · rw [if_neg hn] at hc
    rcases formatComma_chars hc with h | h
    · exact Or.inl h
    · exact Or.inr (Or.inl h)

theorem escChar_eq_self {c : Char} (h1 : c ≠ '&') (h2 : c ≠ '<') (h3 : c ≠ '>')
    (h4 : c ≠ '"') (h5 : c ≠ Char.ofNat 39) : escChar c = [c] := by
  unfold escChar
  rw [if_neg h1, if_neg h2, if_neg h3, if_neg h4, if_neg h5]

theorem escChar_of_isDigit {c : Char} (h : c.isDigit = true) : escChar c = [c] := by
  apply escChar_eq_self
  · intro hc; subst hc; exact absurd h (by decide)
  · intro hc; subst hc; exact absurd h (by decide)
  · intro hc; subst hc; exact absurd h (by decide)
  · intro hc; subst hc; exact absurd h (by decide)
  · intro hc; subst hc; exact absurd h (by decide)

theorem html_escape_eq_self {s : Str} (h : ∀ c ∈ s, escChar c = [c]) :
    html_escape s = s := by
  induction s with
  | nil => rfl
  | cons c rest ih =>
    unfold html_escape
    simp only [List.map_cons, List.flatten_cons]
    rw [h c (List.mem_cons.2 (Or.inl rfl))]
    have := ih (fun d hd => h d (List.mem_cons.2 (Or.inr hd)))
    unfold html_escape at this
    rw [this]
    rfl

theorem sanitize_price_shape {x : Option Str} {p : Str}
    (h : sanitize_price x = some p) : ∃ n, p = '¥' :: formatComma n := by
  unfold sanitize_price at h
  cases x with
  | none => simp at h
  | some s =>
    dsimp only at h
    by_cases hs : s.isEmpty = true
    · rw [if_pos hs] at h
      simp at h
    · rw [if_neg hs] at h
      cases hd : (s.map (fun c => if c = '￥' then '¥' else c)).dropWhile
          (fun c => !c.isDigit) with
      | nil => rw [hd] at h; simp at h
      | cons c rest =>
        rw [hd] at h
        simp at h
        exact ⟨_, h.symm⟩

theorem resolvePrice_escape_invariant {entry : CacheEntry} {fp : Option Int}
    {p : Str} (h : resolvePrice entry fp = some p) : html_escape p = p := by
  have hshape : (∃ n, p = '¥' :: formatComma n) ∨ (∃ n, p = '¥' :: formatCommaInt n) := by
    unfold resolvePrice at h
    cases hs : sanitize_price entry.price with
    | some q =>
      rw [hs] at h
      simp at h
      subst h
      exact Or.inl (sanitize_price_shape hs)
    | none =>
      rw [hs] at h
      by_cases hft : intTruthy fp = true
      · rw [if_pos hft] at h
        cases fp with
        | none => simp at h
        | some n =>
          simp at h
          exact Or.inr ⟨n, h.symm⟩
      · rw [if_neg hft] at h
        simp at h
  apply html_escape_eq_self
  intro c hc
  rcases hshape with ⟨n, hp⟩ | ⟨n, hp⟩
  · subst hp
    rcases List.mem_cons.1 hc with hc | hc
    · subst hc; decide
    · rcases formatComma_chars hc with h | h
      · exact escChar_of_isDigit h
      · subst h; decide
  · subst hp
    rcases List.mem_cons.1 hc with hc | hc
    · subst hc; decide
    · rcases formatCommaInt_chars hc with h | h | h
      · exact escChar_of_isDigit h
      · subst h; decide
      · subst h; decide

/-- C10 (amended): every card renderer HTML-escapes the display name, the
title/name, the product URL and the image locator, but inserts the PRICE
string verbatim, without escaping.  Whenever the price is escape-invariant
the rendered cards coincide with the fully-escaped rendering; every price
the pipeline itself produces (`resolvePrice`: sanitised cache price or
formatted fallback, `¥` + digits and commas) is escape-invariant. -/
theorem c10_renderers_escape :
    (∀ (products : List Product) (class_name : Str),
      (∀ p ∈ products, html_escape p.price = p.price) →
      render_item_cards products class_name =
        spec_render_item_cards products class_name) ∧
    (∀ products : List Product,
      (∀ p ∈ products, html_escape p.price = p.price) →
      render_product_cards products = spec_render_product_cards products) ∧
    (∀ items : List PreparedItem,
      (∀ it ∈ items, html_escape it.product.price = it.product.price) →
      render_ranking_items items = spec_render_ranking_items items) ∧
    (∀ items : List PreparedItem,
      (∀ it ∈ items, html_escape it.product.price = it.product.price) →
      render_all_items items = spec_render_all_items items) ∧
    (∀ (entry : CacheEntry) (fp : Option Int) (p : Str),
      resolvePrice entry fp = some p → html_escape p = p) := by
  refine ⟨?_, ?_, ?_, ?_, fun entry fp p h => resolvePrice_escape_invariant h⟩
  · intro products class_name h
    unfold render_item_cards spec_render_item_cards
    apply List.map_congr_left
    intro p hp
    rw [h p hp]
  · intro products h
    unfold render_product_cards spec_render_product_cards
    apply List.map_congr_left
    intro p hp
    rw [h p hp]
  · intro items h
    unfold render_ranking_items spec_render_ranking_items
    apply List.map_congr_left
    intro it hit
    rw [h it hit]
  · intro items h
    unfold render_all_items spec_render_all_items
    apply List.map_congr_left
    intro it hit
    rw [h it hit]

def c10wProd : Product :=
  { asin := "A1".toList, name := "n".toList, price := "¥1,980".toList
    price_value := 1980, image := "https://i".toList, url := "u".toList }

theorem c10_witness :
    render_item_cards [c10wProd] ("item-card".toList) =
      spec_render_item_cards [c10wProd] ("item-card".toList) ∧
    html_escape ("¥1,980".toList) = "¥1,980".toList :=
  ⟨c10_renderers_escape.1 [c10wProd] ("item-card".toList) (by decide),
    c10_renderers_escape.2.2.2.2
      { url := none, title := none, price := some ("¥1,980".toList)
        image := none, fetched_at := none, status_code := none } none
      ("¥1,980".toList) (by decide)⟩

def openTok : Str := "<div".toList

def closeTok : Str := "</div>".toList

/-- The successive `(position, is-opening)` div-tag events the depth loop of
`find_div_bounds`/`find_grid_bounds` (update_catalog.py:339/521) visits from
`idx`: at each step the earlier of the next `<div` and the next `</div>`.
Fuel-based; `s.length + 1` fuel always suffices since the index strictly
increases and stays within the string. -/
def divTokensF (s : Str) : Nat → Nat → List (Nat × Bool)
  | 0, _ => []
  | fuel + 1, idx =>
    match sfind s closeTok idx, sfind s openTok idx with
    | none, none => []
    | none, some o => (o, true) :: divTokensF s fuel (o + 4)
    | some c, none => (c, false) :: divTokensF s fuel (c + 6)
    | some c, some o =>
      if o < c then (o, true) :: divTokensF s fuel (o + 4)
      else (c, false) :: divTokensF s fuel (c + 6)

def divTokens (s : Str) (idx : Nat) : List (Nat × Bool) :=
  divTokensF s (s.length + 1) idx

/-- The depth bookkeeping of the loop: `<div` increments, `</div>`
decrements, and when the depth reaches 0 the loop returns the index just
past that closing tag. -/
def tokenWalk : List (Nat × Bool) → Nat → Option Nat
  | [], _ => none
  | (_, true) :: rest, d => tokenWalk rest (d + 1)
  | (c, false) :: rest, d => if d ≤ 1 then some (c + 6) else tokenWalk rest (d - 1)

/-- The balanced-depth loop of `find_div_bounds` (update_catalog.py:339),
started at depth 1: walk the div-tag events; `none` models the
`ValueError("Unbalanced div structure")` raised when no closing tag is
found (when `next_close == -1` the loop raises whether or not further
opening tags remain — and the walk, seeing only opening events from then
on, likewise returns `none`). -/
def scanDiv (s : Str) (idx : Nat) : Option Nat :=
  tokenWalk (divTokens s idx) 1

/-- The occurrence-counting loop of `find_div_bounds` (update_catalog.py:333):
the Nth occurrence of `pat` at or after `start`.  `occurrence = 0` (never
used by the script) is treated as not-found. -/
def findNth (s pat : Str) : Nat → Nat → Option Nat
  | 0, _ => none
  | 1, start => sfind s pat start
  | n + 2, start =>
    match sfind s pat start with
    | none => none
    | some p => findNth s pat (n + 1) (p + pat.length)

/-- `find_div_bounds` (update_catalog.py:330). -/
def find_div_bounds (html_text marker : Str) (occurrence : Nat) :
    Option (Nat × Nat × Nat) :=
  match findNth html_text marker occurrence 0 with
  | none => none
  | some position =>
    match scanDiv html_text (position + marker.length) with
    | none => none
    | some idx => some (position, position + marker.length, idx)

/-- Python `s.rfind(ch, 0, stop)` for a single character. -/
def rfindChar (s : Str) (ch : Char) (stop : Nat) : Option Nat :=
  let t := s.take stop
  match List.findIdx? (fun c => decide (c = ch)) t.reverse with
  | none => none
  | some k => some (t.length - 1 - k)

/-- `detect_indent` (update_catalog.py:355): the run of spaces/tabs between
the last newline before `position` and `position`. -/
def detect_indent (s : Str) (position : Nat) : Str :=
  let t := s.take position
  match rfindChar s '\n' position with
  | none => []
  | some newline_index =>
    (t.drop (newline_index + 1)).takeWhile
      (fun c => decide (c = ' ') || decide (c = '\t'))

/-- Python `s.split("\n")`. -/
def splitNL : Str → List Str
  | [] => [[]]
  | c :: rest =>
    let r := splitNL rest
    if c = '\n' then [] :: r
    else
      match r with
      | [] => [[c]]
      | h :: t => (c :: h) :: t

/-- `replace_div_inner` (update_catalog.py:367). -/
def replace_div_inner (html_text class_name : Str) (blocks : List Str)
    (occurrence : Nat) : Option Str :=
  let marker := "<div class=\"".toList ++ class_name ++ "\">".toList
  match find_div_bounds html_text marker occurrence with
  | none => none
  | some (start, content_start, end_) =>
    let indent := detect_indent html_text start
    let inner_indent := indent ++ "  ".toList
    let closing_start := end_ - 6
    let new_inner :=
      if blocks = [] then '\n' :: indent
      else '\n' :: (joinNL (((blocks.map splitNL).flatten).map
        (fun line => inner_indent ++ line)) ++ '\n' :: indent)
    some (html_text.take content_start ++ new_inner ++ html_text.drop closing_start)

/-- Python `s.rfind(pat, 0, stop)`: the highest index at which `pat` occurs
entirely within `s[0:stop]`. -/
def rfindSub (s pat : Str) (stop : Nat) : Option Nat :=
  let t := s.take stop
  ((List.range (t.length + 1)).filter (fun j => matchAt t pat j)).getLast?

/-- `find_grid_bounds` (update_catalog.py:507). -/
def find_grid_bounds (html_text page_id : Str) : Option (Nat × Nat × Nat) :=
  let id_marker := "id=\"".toList ++ page_id ++ "\"".toList
  match sfind html_text id_marker 0 with
  | none => none
  | some id_pos =>
    match rfindSub html_text openTok id_pos with
    | none => none
    | some div_start =>
      let grid_marker := "<div class=\"products-grid\">".toList
      match sfind html_text grid_marker div_start with
      | none => none
      | some grid_start =>
        match scanDiv html_text (grid_start + grid_marker.length) with
        | none => none
        | some grid_end =>
          some (grid_start, grid_start + grid_marker.length, grid_end)

/-- `replace_products_grid` (update_catalog.py:538): note the fixed
two-space indent of the injected lines. -/
def replace_products_grid (html_text page_id : Str) (cards : List Str) :
    Option Str :=
  match find_grid_bounds html_text page_id with
  | none => none
  | some (grid_start, content_start, grid_end) =>
    let inner := '\n' :: (joinNL (((cards.map splitNL).flatten).map
      (fun line => "  ".toList ++ line)) ++ ['\n'])
    some (html_text.take content_start ++ inner ++ "</div>".toList ++
      html_text.drop grid_end)

/-- Python `s.replace(pat, rep)` — replaces EVERY occurrence.  Fuel-based;
`s.length + 1` fuel suffices for non-empty `pat`. -/
def replaceAllF (pat rep : Str) : Nat → Str → Str
  | 0, s => s
  | fuel + 1, s =>
    match sfind s pat 0 with
    | none => s
    | some j => s.take j ++ rep ++ replaceAllF pat rep fuel (s.drop (j + pat.length))

def replaceAll (s pat rep : Str) : Str := replaceAllF pat rep (s.length + 1) s

/-- The fixed style block of `ensure_css_snippet` (update_catalog.py:546). -/
def cssSnippet : Str :=
  ("        .coming-soon-card \x7b\n"
    ++ "            background: rgba(255, 255, 255, 0.08);\n"
    ++ "            border: 1px dashed rgba(255, 255, 255, 0.35);\n"
    ++ "            border-radius: 16px;\n"
    ++ "            padding: 40px 20px;\n"
    ++ "            display: flex;\n"
    ++ "            flex-direction: column;\n"
    ++ "            align-items: center;\n"
    ++ "            justify-content: center;\n"
    ++ "            gap: 16px;\n"
    ++ "            text-align: center;\n"
    ++ "        \x7d\n\n"
    ++ "        .coming-soon-card .coming-soon-label \x7b\n"
    ++ "            font-size: 18px;\n"
    ++ "            letter-spacing: 0.12em;\n"
    ++ "            text-transform: uppercase;\n"
    ++ "            color: var(--fg-primary);\n"
    ++ "        \x7d\n\n"
    ++ "        .coming-soon-card .product-price \x7b\n"
    ++ "            font-size: 16px;\n"
    ++ "            letter-spacing: 0.08em;\n"
    ++ "            color: var(--fg-secondary);\n"
    ++ "        \x7d\n\n"
    ++ "        .memorial-theme .coming-soon-card \x7b\n"
    ++ "            background: rgba(240, 244, 249, 0.35);\n"
    ++ "            border-color: rgba(184, 197, 214, 0.5);\n"
    ++ "        \x7d\n\n"
    ++ "        .memorial-theme .coming-soon-card .coming-soon-label \x7b\n"
    ++ "            color: #4B5563;\n"
    ++ "        \x7d\n\n"
    ++ "        .memorial-theme .coming-soon-card .product-price \x7b\n"
    ++ "            color: #6B7280;\n"
    ++ "        \x7d\n").toList

/-- The anchor comment of `ensure_css_snippet` (update_catalog.py:583). -/
def memorialMarker : Str :=
  "/* Memorial Theme - Elegant & Delicate Style (Light Silver) */".toList

/-- `ensure_css_snippet` (update_catalog.py:545). -/
def ensure_css_snippet (html_text : Str) : Str :=
  if occursIn html_text cssSnippet then html_text
  else if occursIn html_text memorialMarker then
    replaceAll html_text memorialMarker
      (cssSnippet ++ "\n        ".toList ++ memorialMarker)
  else html_text

/-- Depth bookkeeping over a div-tag event type list: opens increment,
closes require positive depth and decrement; `true` means the sequence is
balanced (never underflows, ends at depth 0) relative to start depth `d`. -/
def netOk : List Bool → Nat → Bool
  | [], d => d == 0
  | true :: rest, d => netOk rest (d + 1)
  | false :: rest, d => decide (0 < d) && netOk rest (d - 1)

/-- A fragment whose div-tag events are balanced. -/
def divBalanced (b : Str) : Bool :=
  netOk ((divTokens b 0).map Prod.snd) 0

theorem sfind_gt_len_none {s pat : Str} {idx : Nat} (hne : pat ≠ [])
    (h : s.length < idx) : sfind s pat idx = none := by
  cases hs : sfind s pat idx with
  | none => rfl
  | some j =>
    obtain ⟨hij, hm, _⟩ := sfind_some hs
    have := matchAt_length_le hne hm
    have : 1 ≤ pat.length := List.length_pos.2 hne
    omega

theorem divTokensF_fuel (s : Str) :
    ∀ f g idx, s.length + 1 - idx ≤ f → s.length + 1 - idx ≤ g →
      divTokensF s f idx = divTokensF s g idx := by
  intro f
  induction f with
  | zero =>
    intro g idx hf hg
    have hidx : s.length < idx := by omega
    have hc : sfind s closeTok idx = none := sfind_gt_len_none (by decide) hidx
    have ho : sfind s openTok idx = none := sfind_gt_len_none (by decide) hidx
    cases g with
    | zero => rfl
    | succ g' =>
      show divTokensF s 0 idx = divTokensF s (g' + 1) idx
      unfold divTokensF
      rw [hc, ho]
  | succ f' ih =>
    intro g idx hf hg
    cases g with
    | zero =>
      have hidx : s.length < idx := by omega
      have hc : sfind s closeTok idx = none := sfind_gt_len_none (by decide) hidx
      have ho : sfind s openTok idx = none := sfind_gt_len_none (by decide) hidx
      unfold divTokensF
      rw [hc, ho]
    | succ g' =>
      unfold divTokensF
      cases hc : sfind s closeTok idx with
      | none =>
        cases ho : sfind s openTok idx with
        | none => rfl
        | some o =>
          have hob := (sfind_some ho).1
          exact congrArg _ (ih g' (o + 4) (by omega) (by omega))
      | some c =>
        have hcb := (sfind_some hc).1
        cases ho : sfind s openTok idx with
        | none =>
          exact congrArg _ (ih g' (c + 6) (by omega) (by omega))
        | some o =>
          have hob := (sfind_some ho).1
          dsimp only
          by_cases hoc : o < c
          · rw [if_pos hoc, if_pos hoc]
            exact congrArg _ (ih g' (o + 4) (by omega) (by omega))
          · rw [if_neg hoc, if_neg hoc]
            exact congrArg _ (ih g' (c + 6) (by omega) (by omega))

theorem divTokens_step (s : Str) (idx : Nat) :
    divTokens s idx =
      match sfind s closeTok idx, sfind s openTok idx with
      | none, none => []
      | none, some o => (o, true) :: divTokens s (o + 4)
      | some c, none => (c, false) :: divTokens s (c + 6)
      | some c, some o =>
        if o < c then (o, true) :: divTokens s (o + 4)
        else (c, false) :: divTokens s (c + 6) := by
  unfold divTokens
  conv_lhs => rw [show s.length + 1 = s.length + 1 from rfl]
  unfold divTokensF
  cases hc : sfind s closeTok idx with
  | none =>
    cases ho : sfind s openTok idx with
    | none => rfl
    | some o =>
      have hob := (sfind_some ho).1
      exact congrArg _ (divTokensF_fuel s s.length (s.length + 1) (o + 4)
        (by omega) (by omega))
  | some c =>
    cases ho : sfind s openTok idx with
    | none =>
      exact congrArg _ (divTokensF_fuel s s.length (s.length + 1) (c + 6)
        (by omega) (by omega))
    | some o =>
      dsimp only
      by_cases hoc : o < c
      · rw [if_pos hoc, if_pos hoc]
        exact congrArg _ (divTokensF_fuel s s.length (s.length + 1) (o + 4)
          (by omega) (by omega))
      · rw [if_neg hoc, if_neg hoc]
        exact congrArg _ (divTokensF_fuel s s.length (s.length + 1) (c + 6)
          (by omega) (by omega))

theorem divTokensF_pos (s : Str) :
    ∀ fuel idx t, t ∈ divTokensF s fuel idx →
      idx ≤ t.1 ∧ (t.2 = true → matchAt s openTok t.1 = true) ∧
        (t.2 = false → matchAt s closeTok t.1 = true) := by
  intro fuel
  induction fuel with
  | zero => intro idx t ht; simp [divTokensF] at ht
  | succ f ih =>
    intro idx t ht
    unfold divTokensF at ht
    cases hc : sfind s closeTok idx with
    | none =>
      cases ho : sfind s openTok idx with
      | none => rw [hc, ho] at ht; simp at ht
      | some o =>
        rw [hc, ho] at ht
        obtain ⟨hob, hom, _⟩ := sfind_some ho
        rcases List.mem_cons.1 ht with rfl | ht
        · exact ⟨hob, fun _ => hom, fun hfalse => by simp at hfalse⟩
        · have := ih (o + 4) t ht
          exact ⟨by omega, this.2.1, this.2.2⟩
    | some c =>
      obtain ⟨hcb, hcm, _⟩ := sfind_some hc
      cases ho : sfind s openTok idx with
      | none =>
        rw [hc, ho] at ht
        rcases List.mem_cons.1 ht with rfl | ht
        · exact ⟨hcb, fun htrue => by simp at htrue, fun _ => hcm⟩
        · have := ih (c + 6) t ht
          exact ⟨by omega, this.2.1, this.2.2⟩
      | some o =>
        rw [hc, ho] at ht
        dsimp only at ht
        obtain ⟨hob, hom, _⟩ := sfind_some ho
        by_cases hoc : o < c
        · rw [if_pos hoc] at ht
          rcases List.mem_cons.1 ht with rfl | ht
          · exact ⟨hob, fun _ => hom, fun hfalse => by simp at hfalse⟩
          · have := ih (o + 4) t ht
            exact ⟨by omega, this.2.1, this.2.2⟩
        · rw [if_neg hoc] at ht
          rcases List.mem_cons.1 ht with rfl | ht
          · exact ⟨hcb, fun htrue => by simp at htrue, fun _ => hcm⟩
          · have := ih (c + 6) t ht
            exact ⟨by omega, this.2.1, this.2.2⟩

theorem divTokens_pos {s : Str} {idx : Nat} {t : Nat × Bool}
    (ht : t ∈ divTokens s idx) :
    idx ≤ t.1 ∧ (t.2 = true → matchAt s openTok t.1 = true) ∧
      (t.2 = false → matchAt s closeTok t.1 = true) :=
  divTokensF_pos s (s.length + 1) idx t ht

theorem matchAt_getElem {s pat : Str} {j k : Nat} (h : matchAt s pat j = true)
    (hk : k < pat.length) : s[j + k]? = pat[k]? := by
  unfold matchAt at h
  obtain ⟨rest, hrest⟩ := (List.isPrefixOf_iff_prefix).1 h
  have h1 : s[j + k]? = (s.drop j)[k]? := by
    rw [List.getElem?_drop]
  rw [h1, ← hrest, List.getElem?_append_left hk]

theorem open_close_no_overlap {s : Str} {o c : Nat}
    (ho : matchAt s openTok o = true) (hc : matchAt s closeTok c = true)
    (h : o < c) : o + 4 ≤ c := by
  by_contra hlt
  have hd : c - o = 1 ∨ c - o = 2 ∨ c - o = 3 := by omega
  have h1 : s[c]? = closeTok[0]? := by
    have := matchAt_getElem hc (k := 0) (by decide)
    simpa using this
  have h2 : s[o + (c - o)]? = openTok[c - o]? := by
    have holen : openTok.length = 4 := rfl
    exact matchAt_getElem ho (by rw [holen]; omega)
  rw [show o + (c - o) = c by omega] at h2
  rw [h1] at h2
  rcases hd with hd | hd | hd <;> rw [hd] at h2 <;> simp [closeTok, openTok] at h2

theorem divTokens_opens_until_close {s : Str} :
    ∀ (n idx c : Nat), s.length + 1 - idx ≤ n →
      sfind s closeTok idx = some c →
      ∃ E1, (∀ t ∈ E1, t.2 = true ∧ t.1 < c) ∧
        divTokens s idx = E1 ++ (c, false) :: divTokens s (c + 6) := by
  intro n
  induction n with
  | zero =>
    intro idx c hn hc
    obtain ⟨hcb, hcm, _⟩ := sfind_some hc
    have := matchAt_length_le (by decide : closeTok ≠ []) hcm
    simp [closeTok] at this
    omega
  | succ n' ih =>
    intro idx c hn hc
    obtain ⟨hcb, hcm, hcmin⟩ := sfind_some hc
    rw [divTokens_step, hc]
    cases ho : sfind s openTok idx with
    | none =>
      exact ⟨[], by simp, rfl⟩
    | some o =>
      obtain ⟨hob, hom, _⟩ := sfind_some ho
      dsimp only
      by_cases hoc : o < c
      · rw [if_pos hoc]
        have hsep : o + 4 ≤ c := open_close_no_overlap hom hcm hoc
        have hc' : sfind s closeTok (o + 4) = some c := by
          apply sfind_of_match (by decide) (by omega) hcm
          intro k hk1 hk2
          exact hcmin k (by omega) hk2
        obtain ⟨E1, hE1, heq⟩ := ih (o + 4) c (by omega) hc'
        refine ⟨(o, true) :: E1, ?_, ?_⟩
        · intro t ht
          rcases List.mem_cons.1 ht with rfl | ht
          · exact ⟨rfl, hoc⟩
          · exact hE1 t ht
        · rw [heq]
          rfl
      · rw [if_neg hoc]
        exact ⟨[], by simp, rfl⟩

theorem tokenWalk_opens (E1 E2 : List (Nat × Bool))
    (h : ∀ t ∈ E1, t.2 = true) (d : Nat) :
    tokenWalk (E1 ++ E2) d = tokenWalk E2 (d + E1.length) := by
  induction E1 generalizing d with
  | nil => simp
  | cons t rest ih =>
    obtain ⟨p, b⟩ := t
    have hb : b = true := h (p, b) (List.mem_cons.2 (Or.inl rfl))
    subst hb
    have hrec := ih (fun t ht => h t (List.mem_cons.2 (Or.inr ht))) (d + 1)
    calc tokenWalk (((p, true) :: rest) ++ E2) d
        = tokenWalk (rest ++ E2) (d + 1) := rfl
      _ = tokenWalk E2 (d + 1 + rest.length) := hrec
      _ = tokenWalk E2 (d + ((p, true) :: rest).length) := by
          congr 1
          simp [List.length_cons]
          omega

theorem tokenWalk_result :
    ∀ (E : List (Nat × Bool)) (d q : Nat), tokenWalk E d = some q →
      ∃ c, (c, false) ∈ E ∧ q = c + 6 := by
  intro E
  induction E with
  | nil => intro d q h; simp [tokenWalk] at h
  | cons t rest ih =>
    intro d q h
    obtain ⟨p, b⟩ := t
    cases b with
    | true =>
      simp only [tokenWalk] at h
      obtain ⟨c, hc, hq⟩ := ih (d + 1) q h
      exact ⟨c, List.mem_cons.2 (Or.inr hc), hq⟩
    | false =>
      simp only [tokenWalk] at h
      by_cases hd : d ≤ 1
      · rw [if_pos hd] at h
        exact ⟨p, List.mem_cons.2 (Or.inl rfl), (Option.some.inj h).symm⟩
      · rw [if_neg hd] at h
        obtain ⟨c, hc, hq⟩ := ih (d - 1) q h
        exact ⟨c, List.mem_cons.2 (Or.inr hc), hq⟩

/-- The core of claim C2: if a nested opening tag precedes the first closing
tag, the balanced-depth scan never ends at that first closing tag — it ends
strictly after it. -/
theorem scan_after_nested_open {s : Str} {idx o c e : Nat}
    (ho : sfind s openTok idx = some o) (hc : sfind s closeTok idx = some c)
    (holt : o < c) (he : scanDiv s idx = some e) : c + 6 < e := by
  unfold scanDiv at he
  rw [divTokens_step, hc, ho] at he
  dsimp only at he
  rw [if_pos holt] at he
  obtain ⟨hob, hom, _⟩ := sfind_some ho
  obtain ⟨hcb, hcm, hcmin⟩ := sfind_some hc
  have hsep : o + 4 ≤ c := open_close_no_overlap hom hcm holt
  have hc' : sfind s closeTok (o + 4) = some c := by
    apply sfind_of_match (by decide) (by omega) hcm
    intro k hk1 hk2
    exact hcmin k (by omega) hk2
  obtain ⟨E1, hE1, heq⟩ := divTokens_opens_until_close (s.length + 1) (o + 4) c
    (by omega) hc'
  simp only [tokenWalk] at he
  rw [heq] at he
  rw [tokenWalk_opens E1 _ (fun t ht => (hE1 t ht).1) 2] at he
  simp only [tokenWalk] at he
  rw [if_neg (by omega)] at he
  obtain ⟨q, hq, hqe⟩ := tokenWalk_result _ _ _ he
  have hqpos := (divTokens_pos hq).1
  omega

/-- The class marker of the C2 nesting scenario. -/
def c2marker : Str := "<div class=\"c\">".toList

/-- A document whose target container (first marker occurrence, content
starting at 15) holds three nested same-class divs: closes sit at
61, 67, 73 and 79, so the balanced scan must end at 85, not at 67. -/
def c2doc : Str :=
  c2marker ++ c2marker ++ c2marker ++ c2marker ++ ['x'] ++
    closeTok ++ closeTok ++ closeTok ++ closeTok

/-- A grid document: the products-grid container (content starting at 39)
holds one nested div, so the scan must end at 57, not at 51. -/
def c2gdoc : Str :=
  "<div id=\"g\">".toList ++ "<div class=\"products-grid\">".toList ++
    "<div>x</div>".toList ++ "</div>".toList ++ "</div>".toList

/-- **C2.** Both bound finders compute the region end by balanced depth
counting over the div tag family: whenever `find_div_bounds` (or
`find_grid_bounds`) returns bounds `(start, content_start, end)` and a
nested opening tag precedes the first closing tag after the content
start, the computed end lies strictly past that first closing tag — the
scan never stops at the first close.  Concretely, on a container holding
three nested same-class divs the bounds end after all the inner closes
(at 85, the very end of `c2doc`), while the first close ends at 67. -/
theorem c2_balanced_depth_bounds :
    (∀ (html marker : Str) (occ p cs e o c : Nat),
      find_div_bounds html marker occ = some (p, cs, e) →
      sfind html openTok cs = some o →
      sfind html closeTok cs = some c →
      o < c → c + 6 < e) ∧
    (∀ (html pid : Str) (gs cs e o c : Nat),
      find_grid_bounds html pid = some (gs, cs, e) →
      sfind html openTok cs = some o →
      sfind html closeTok cs = some c →
      o < c → c + 6 < e) ∧
    find_div_bounds c2doc c2marker 1 = some (0, 15, 85) ∧
    sfind c2doc closeTok 15 = some 61 ∧ c2doc.length = 85 := by
  refine ⟨?_, ?_, by decide, by decide, by decide⟩
  · intro html marker occ p cs e o c hb ho hc holt
    unfold find_div_bounds at hb
    cases hf : findNth html marker occ 0 with
    | none => rw [hf] at hb; exact absurd hb (by simp)
    | some position =>
      rw [hf] at hb
      dsimp only at hb
      cases hs : scanDiv html (position + marker.length) with
      | none => rw [hs] at hb; exact absurd hb (by simp)
      | some idx =>
        rw [hs] at hb
        simp only [Option.some.injEq, Prod.mk.injEq] at hb
        obtain ⟨hp, hcs, he⟩ := hb
        rw [hcs] at hs
        rw [he] at hs
        exact scan_after_nested_open ho hc holt hs
  · intro html pid gs cs e o c hb ho hc holt
    unfold find_grid_bounds at hb
    dsimp only at hb
    cases hid : sfind html ("id=\"".toList ++ pid ++ "\"".toList) 0 with
    | none => rw [hid] at hb; exact absurd hb (by simp)
    | some id_pos =>
      rw [hid] at hb
      dsimp only at hb
      cases hds : rfindSub html openTok id_pos with
      | none => rw [hds] at hb; exact absurd hb (by simp)
      | some div_start =>
        rw [hds] at hb
        dsimp only at hb
        cases hgm : sfind html ("<div class=\"products-grid\">".toList)
            div_start with
        | none => rw [hgm] at hb; exact absurd hb (by simp)
        | some grid_start =>
          rw [hgm] at hb
          dsimp only at hb
          cases hs : scanDiv html
              (grid_start + ("<div class=\"products-grid\">".toList).length) with
          | none => rw [hs] at hb; exact absurd hb (by simp)
          | some grid_end =>
            rw [hs] at hb
            simp only [Option.some.injEq, Prod.mk.injEq] at hb
            obtain ⟨hg, hcs, he⟩ := hb
            rw [hcs] at hs
            rw [he] at hs
            exact scan_after_nested_open ho hc holt hs

/-- Witness for C2 at the concrete documents: in `c2doc` the first close
ends at 67 and the bounds end at 85; in `c2gdoc` the first close ends at
51 and the grid bounds end at 57. -/
theorem c2_witness : 61 + 6 < 85 ∧ 45 + 6 < 57 :=
  ⟨c2_balanced_depth_bounds.1 c2doc c2marker 1 0 15 85 15 61
      (by decide) (by decide) (by decide) (by decide),
    c2_balanced_depth_bounds.2.1 c2gdoc ("g".toList) 12 39 57 39 45
      (by decide) (by decide) (by decide) (by decide)⟩

theorem findNth_match {s pat : Str} :
    ∀ (n start j : Nat), findNth s pat n start = some j →
      matchAt s pat j = true := by
  intro n
  induction n with
  | zero => intro start j h; simp [findNth] at h
  | succ m ih =>
    intro start j h
    cases m with
    | zero =>
      have h' : sfind s pat start = some j := h
      exact (sfind_some h').2.1
    | succ k =>
      unfold findNth at h
      cases hp : sfind s pat start with
      | none => rw [hp] at h; exact absurd h (by simp)
      | some p =>
        rw [hp] at h
        exact ih (p + pat.length) j h

/-- A successful balanced scan ends 6 characters past a genuine closing
tag of the document. -/
theorem scanDiv_result_close {s : Str} {idx e : Nat}
    (h : scanDiv s idx = some e) :
    idx + 6 ≤ e ∧ matchAt s closeTok (e - 6) = true := by
  obtain ⟨c, hc, he⟩ := tokenWalk_result _ _ _ h
  have hp := divTokens_pos hc
  constructor
  · have := hp.1
    omega
  · have hm := hp.2.2 rfl
    rw [he]
    simpa [Nat.add_sub_cancel] using hm

theorem find_div_bounds_close {html marker : Str} {occ p cs e : Nat}
    (hne : marker ≠ [])
    (hb : find_div_bounds html marker occ = some (p, cs, e)) :
    matchAt html marker p = true ∧ cs = p + marker.length ∧
      cs ≤ html.length ∧ cs + 6 ≤ e ∧ matchAt html closeTok (e - 6) = true := by
  unfold find_div_bounds at hb
  cases hf : findNth html marker occ 0 with
  | none => rw [hf] at hb; exact absurd hb (by simp)
  | some position =>
    rw [hf] at hb
    dsimp only at hb
    cases hs : scanDiv html (position + marker.length) with
    | none => rw [hs] at hb; exact absurd hb (by simp)
    | some idx =>
      rw [hs] at hb
      simp only [Option.some.injEq, Prod.mk.injEq] at hb
      obtain ⟨hp1, hcs, he⟩ := hb
      have hmk : matchAt html marker position = true := findNth_match occ 0 position hf
      have hbound := matchAt_length_le hne hmk
      have hcl := scanDiv_result_close hs
      rw [hp1] at hmk hbound hcl hcs
      rw [he] at hcl
      exact ⟨hmk, hcs.symm, by omega, by omega, hcl.2⟩

theorem find_grid_bounds_close {html pid : Str} {gs cs e : Nat}
    (hb : find_grid_bounds html pid = some (gs, cs, e)) :
    matchAt html ("<div class=\"products-grid\">".toList) gs = true ∧
      cs = gs + 27 ∧ cs ≤ html.length ∧ cs + 6 ≤ e ∧
      matchAt html closeTok (e - 6) = true := by
  unfold find_grid_bounds at hb
  dsimp only at hb
  cases hid : sfind html ("id=\"".toList ++ pid ++ "\"".toList) 0 with
  | none => rw [hid] at hb; exact absurd hb (by simp)
  | some id_pos =>
    rw [hid] at hb
    dsimp only at hb
    cases hds : rfindSub html openTok id_pos with
    | none => rw [hds] at hb; exact absurd hb (by simp)
    | some div_start =>
      rw [hds] at hb
      dsimp only at hb
      cases hgm : sfind html ("<div class=\"products-grid\">".toList)
          div_start with
      | none => rw [hgm] at hb; exact absurd hb (by simp)
      | some grid_start =>
        rw [hgm] at hb
        dsimp only at hb
        cases hs : scanDiv html
            (grid_start + ("<div class=\"products-grid\">".toList).length) with
        | none => rw [hs] at hb; exact absurd hb (by simp)
        | some grid_end =>
          rw [hs] at hb
          simp only [Option.some.injEq, Prod.mk.injEq] at hb
          obtain ⟨hg, hcs, he⟩ := hb
          have hmk := (sfind_some hgm).2.1
          have hbound := matchAt_length_le (by decide) hmk
          have hcl := scanDiv_result_close hs
          rw [hg] at hmk hbound hcl
          rw [he] at hcl
          rw [hg] at hcs
          have h27 : ("<div class=\"products-grid\">".toList).length = 27 := rfl
          refine ⟨hmk, ?_, by omega, by omega, hcl.2⟩
          rw [← hcs, h27]

/-- The interior string built by `replace_div_inner` (update_catalog.py:372):
the original indentation of the opening line plus a two-space increment on
every injected line; an empty block list leaves newline + indentation. -/
def divInner (indent : Str) (blocks : List Str) : Str :=
  if blocks = [] then '\n' :: indent
  else '\n' :: (joinNL (((blocks.map splitNL).flatten).map
    (fun line => (indent ++ "  ".toList) ++ line)) ++ '\n' :: indent)

/-- The interior string built by `replace_products_grid` (update_catalog.py:540):
a FIXED two-space indent on every injected line, independent of the original
indentation; an empty card list leaves a bare double newline. -/
def gridInner (cards : List Str) : Str :=
  '\n' :: (joinNL (((cards.map splitNL).flatten).map
    (fun line => "  ".toList ++ line)) ++ ['\n'])

/-- A page whose products-grid opening line is indented by four spaces. -/
def c8doc : Str :=
  ("<html>\n    <div id=\"pg\">\n    <div class=\"products-grid\">\n"
    ++ "    x\n    </div>\n    </div>\n</html>").toList

theorem c8doc_check :
    find_grid_bounds c8doc ("pg".toList) = some (29, 56, 73) ∧
    detect_indent c8doc 29 = "    ".toList := by
  constructor <;> decide

/-- Counterexample to C8 as stated: the grid opening line of `c8doc` is
indented by four spaces, yet `replace_products_grid` prefixes the injected
line with exactly two spaces (not the original indentation plus an
increment — the original indentation does not even prefix the line), and
with an empty card list the interior becomes a bare double newline rather
than whitespace matching the original indentation. -/
theorem c8_counterexample :
    detect_indent c8doc 29 = "    ".toList ∧
    find_grid_bounds c8doc ("pg".toList) = some (29, 56, 73) ∧
    (replace_products_grid c8doc ("pg".toList) [("<p>hi</p>".toList)]).map
      (fun t => occursIn t ("\n  <p>hi</p>".toList) &&
        !occursIn t ("\n    <p>hi</p>".toList)) = some true ∧
    (replace_products_grid c8doc ("pg".toList) []).map
      (fun t => occursIn t ("products-grid\">\n\n</div>".toList) &&
        !occursIn t ("products-grid\">\n    ".toList)) = some true := by
  refine ⟨by decide, by decide, by decide, by decide⟩

/-- **C8 (amended).** Shape of both region replacements.  `replace_div_inner`
keeps the document prefix up to the content start (opening tag intact),
injects `divInner` — each fragment line prefixed by the opening line's
detected indentation plus a fixed two-space increment, or newline plus that
indentation alone when the fragment list is empty — and keeps the suffix
from the region's closing tag on, so the output still carries `</div>` right
after the interior.  `replace_products_grid` differs from the claim: it
keeps the prefix and re-emits a literal `</div>`, but prefixes every
injected line with a FIXED two-space indent (`gridInner`), ignoring the
original indentation, and an empty card list yields a bare `"\n\n"`
interior, not whitespace matching the original indentation. -/
theorem c8_replacement_shape :
    (∀ (html cname : Str) (blocks : List Str) (occ : Nat) (t : Str),
      replace_div_inner html cname blocks occ = some t →
      ∃ p cs e,
        find_div_bounds html
          ("<div class=\"".toList ++ cname ++ "\">".toList) occ
          = some (p, cs, e) ∧
        t = html.take cs ++ divInner (detect_indent html p) blocks ++
          html.drop (e - 6) ∧
        t.take cs = html.take cs ∧
        matchAt t closeTok
          (cs + (divInner (detect_indent html p) blocks).length) = true ∧
        (blocks = [] →
          divInner (detect_indent html p) blocks
            = '\n' :: detect_indent html p)) ∧
    (∀ (html pid : Str) (cards : List Str) (t : Str),
      replace_products_grid html pid cards = some t →
      ∃ gs cs e,
        find_grid_bounds html pid = some (gs, cs, e) ∧
        t = html.take cs ++ gridInner cards ++ closeTok ++ html.drop e ∧
        t.take cs = html.take cs ∧
        matchAt t closeTok (cs + (gridInner cards).length) = true ∧
        (cards = [] → gridInner cards = ['\n', '\n'])) := by
  constructor
  · intro html cname blocks occ t h
    unfold replace_div_inner at h
    dsimp only at h
    cases hb : find_div_bounds html
        ("<div class=\"".toList ++ cname ++ "\">".toList) occ with
    | none => rw [hb] at h; exact absurd h (by simp)
    | some triple =>
      obtain ⟨p, cs, e⟩ := triple
      rw [hb] at h
      dsimp only at h
      have hne : ("<div class=\"".toList ++ cname ++ "\">".toList) ≠ [] := by
        intro hcontra
        rw [List.append_eq_nil, List.append_eq_nil] at hcontra
        exact absurd hcontra.1.1 (by decide)
      obtain ⟨hmk, hcs, hcsle, hce, hclose⟩ := find_div_bounds_close hne hb
      refine ⟨p, cs, e, rfl, ?_⟩
      have ht : t = html.take cs ++ divInner (detect_indent html p) blocks ++
          html.drop (e - 6) := by
        have h' := Option.some.inj h
        rw [← h']
        rfl
      have hlen : (html.take cs).length = cs := by
        rw [List.length_take]
        omega
      refine ⟨ht, ?_, ?_, ?_⟩
      · rw [ht, List.append_assoc]
        exact List.take_left' hlen
      · have hA : (html.take cs ++ divInner (detect_indent html p) blocks).length
            = cs + (divInner (detect_indent html p) blocks).length := by
          rw [List.length_append, hlen]
        rw [ht, matchAt_append_right_ge (le_of_eq hA)]
        have hz : cs + (divInner (detect_indent html p) blocks).length -
            (html.take cs ++ divInner (detect_indent html p) blocks).length
            = 0 := by omega
        rw [hz]
        exact hclose
      · intro hbl
        rw [hbl]
        simp [divInner]
  · intro html pid cards t h
    unfold replace_products_grid at h
    cases hb : find_grid_bounds html pid with
    | none => rw [hb] at h; exact absurd h (by simp)
    | some triple =>
      obtain ⟨gs, cs, e⟩ := triple
      rw [hb] at h
      dsimp only at h
      obtain ⟨hmk, hcs, hcsle, hce, hclose⟩ := find_grid_bounds_close hb
      refine ⟨gs, cs, e, rfl, ?_⟩
      have ht : t = html.take cs ++ gridInner cards ++ closeTok ++
          html.drop e := by
        have h' := Option.some.inj h
        rw [← h']
        rfl
      have hlen : (html.take cs).length = cs := by
        rw [List.length_take]
        omega
      refine ⟨ht, ?_, ?_, ?_⟩
      · rw [ht, List.append_assoc, List.append_assoc]
        exact List.take_left' hlen
      · have hA : (html.take cs ++ gridInner cards).length
            = cs + (gridInner cards).length := by
          rw [List.length_append, hlen]
        rw [ht, List.append_assoc, matchAt_append_right_ge (le_of_eq hA)]
        have hz : cs + (gridInner cards).length -
            (html.take cs ++ gridInner cards).length = 0 := by omega
        rw [hz]
        unfold matchAt
        rw [List.drop_zero]
        exact List.isPrefixOf_iff_prefix.2 (List.prefix_append _ _)
      · intro hcl
        rw [hcl]
        rfl

/-- A minimal un-indented page with one target container. -/
def c8ddoc : Str := "<div class=\"c\">x</div>".toList

/-- The output of replacing the `c8ddoc` container interior with `y`. -/
def c8dres : Str := "<div class=\"c\">\n  y\n</div>".toList

/-- The output of replacing the `c8doc` grid with an empty card list. -/
def c8gres : Str :=
  ("<html>\n    <div id=\"pg\">\n    <div class=\"products-grid\">"
    ++ "\n\n</div>\n    </div>\n</html>").toList

/-- Witness for C8 (amended) at concrete inputs: a one-block replacement
inside `c8ddoc` and an empty-card grid replacement inside `c8doc`. -/
theorem c8_witness :
    (∃ p cs e,
      find_div_bounds c8ddoc
        ("<div class=\"".toList ++ "c".toList ++ "\">".toList) 1
        = some (p, cs, e) ∧
      c8dres = c8ddoc.take cs ++ divInner (detect_indent c8ddoc p)
        [("y".toList)] ++ c8ddoc.drop (e - 6) ∧
      c8dres.take cs = c8ddoc.take cs ∧
      matchAt c8dres closeTok
        (cs + (divInner (detect_indent c8ddoc p) [("y".toList)]).length)
        = true ∧
      ([("y".toList)] = ([] : List Str) →
        divInner (detect_indent c8ddoc p) [("y".toList)]
          = '\n' :: detect_indent c8ddoc p)) ∧
    (∃ gs cs e,
      find_grid_bounds c8doc ("pg".toList) = some (gs, cs, e) ∧
      c8gres = c8doc.take cs ++ gridInner [] ++ closeTok ++ c8doc.drop e ∧
      c8gres.take cs = c8doc.take cs ∧
      matchAt c8gres closeTok (cs + (gridInner []).length) = true ∧
      (([] : List Str) = [] → gridInner [] = ['\n', '\n'])) :=
  ⟨c8_replacement_shape.1 c8ddoc ("c".toList) [("y".toList)] 1 c8dres
      (by decide),
    c8_replacement_shape.2 c8doc ("pg".toList) [] c8gres (by decide)⟩

/-- A stylesheet carrying the anchor comment twice. -/
def c4anchor2 : Str :=
  "<style>\n".toList ++ memorialMarker ++ "\n".toList ++ memorialMarker

theorem c4_div_not_idempotent :
    (replace_div_inner ("<div class=\"c\">x</div>".toList) ("c".toList)
        [("</div>".toList)] 1).bind (fun t1 =>
      (replace_div_inner t1 ("c".toList) [("</div>".toList)] 1).map
        (fun t2 => decide (t2 = t1))) = some false := by
  decide

/-- Shift every event position by `k`. -/
def shiftE (k : Nat) (E : List (Nat × Bool)) : List (Nat × Bool) :=
  E.map (fun u => (u.1 + k, u.2))

theorem shiftE_append (k : Nat) (A B : List (Nat × Bool)) :
    shiftE k (A ++ B) = shiftE k A ++ shiftE k B := by
  simp [shiftE]

theorem shiftE_snd (k : Nat) (E : List (Nat × Bool)) :
    (shiftE k E).map Prod.snd = E.map Prod.snd := by
  simp [shiftE]

theorem shiftE_shiftE (k j : Nat) (E : List (Nat × Bool)) :
    shiftE k (shiftE j E) = shiftE (j + k) E := by
  simp only [shiftE, List.map_map]
  apply List.map_congr_left
  intro u _
  simp
  omega

theorem sfind_drop {s pat : Str} (k idx : Nat) (h : k ≤ idx) :
    sfind s pat idx = (sfind (s.drop k) pat (idx - k)).map (· + k) := by
  unfold sfind
  have hd : (s.drop k).drop (idx - k) = s.drop idx := by
    rw [List.drop_drop, Nat.add_sub_cancel' h]
  rw [hd]
  cases sfindFrom pat (s.drop idx) with
  | none => rfl
  | some m =>
    simp only [Option.map_some']
    congr 1
    omega

theorem divTokensF_drop (s : Str) (k : Nat) :
    ∀ fuel idx, k ≤ idx →
      divTokensF s fuel idx
        = shiftE k (divTokensF (s.drop k) fuel (idx - k)) := by
  intro fuel
  induction fuel with
  | zero => intro idx h; rfl
  | succ f ih =>
    intro idx h
    unfold divTokensF
    rw [@sfind_drop s closeTok k idx h, @sfind_drop s openTok k idx h]
    cases hc : sfind (s.drop k) closeTok (idx - k) with
    | none =>
      cases ho : sfind (s.drop k) openTok (idx - k) with
      | none => rfl
      | some o =>
        simp only [Option.map_none', Option.map_some']
        have hrec := ih (o + k + 4) (by omega)
        have harg : o + k + 4 - k = o + 4 := by omega
        rw [hrec, harg]
        rfl
    | some c =>
      cases ho : sfind (s.drop k) openTok (idx - k) with
      | none =>
        simp only [Option.map_none', Option.map_some']
        have hrec := ih (c + k + 6) (by omega)
        have harg : c + k + 6 - k = c + 6 := by omega
        rw [hrec, harg]
        rfl
      | some o =>
        simp only [Option.map_some']
        by_cases hoc : o < c
        · rw [if_pos (by omega : o + k < c + k), if_pos hoc]
          have hrec := ih (o + k + 4) (by omega)
          have harg : o + k + 4 - k = o + 4 := by omega
          rw [hrec, harg]
          rfl
        · rw [if_neg (by omega : ¬ (o + k < c + k)), if_neg hoc]
          have hrec := ih (c + k + 6) (by omega)
          have harg : c + k + 6 - k = c + 6 := by omega
          rw [hrec, harg]
          rfl

theorem divTokens_drop {s : Str} {k idx : Nat} (h : k ≤ idx) :
    divTokens s idx = shiftE k (divTokens (s.drop k) (idx - k)) := by
  unfold divTokens
  rw [divTokensF_drop s k (s.length + 1) idx h]
  congr 1
  apply divTokensF_fuel
  · rw [List.length_drop]; omega
  · rw [List.length_drop]; omega

theorem tokenWalk_shiftE (k : Nat) :
    ∀ E d, tokenWalk (shiftE k E) d = (tokenWalk E d).map (· + k) := by
  intro E
  induction E with
  | nil => intro d; rfl
  | cons t rest ih =>
    intro d
    obtain ⟨p, b⟩ := t
    cases b with
    | true =>
      dsimp only [shiftE, List.map_cons, tokenWalk]
      exact ih (d + 1)
    | false =>
      dsimp only [shiftE, List.map_cons, tokenWalk]
      by_cases hd : d ≤ 1
      · rw [if_pos hd, if_pos hd]
        simp only [Option.map_some']
        congr 1
        omega
      · rw [if_neg hd, if_neg hd]
        exact ih (d - 1)

theorem scanDiv_drop (s : Str) (idx : Nat) :
    scanDiv s idx = (scanDiv (s.drop idx) 0).map (· + idx) := by
  unfold scanDiv
  rw [divTokens_drop (le_refl idx)]
  rw [Nat.sub_self]
  exact tokenWalk_shiftE idx _ 1

theorem sfind_eq_of_gap {s pat : Str} (hne : pat ≠ []) {i m : Nat} (him : i ≤ m)
    (hgap : ∀ k, i ≤ k → k < m → matchAt s pat k = false) :
    sfind s pat i = sfind s pat m := by
  cases hm : sfind s pat m with
  | some j =>
    obtain ⟨hmj, hmatch, hmin⟩ := sfind_some hm
    exact sfind_of_match hne (by omega) hmatch (fun k hk1 hk2 => by
      by_cases hkm : k < m
      · exact hgap k hk1 hkm
      · exact hmin k (by omega) hk2)
  | none =>
    cases hi : sfind s pat i with
    | none => rfl
    | some j =>
      obtain ⟨hij, hmatch, _⟩ := sfind_some hi
      by_cases hjm : j < m
      · rw [hgap j hij hjm] at hmatch
        exact absurd hmatch (by simp)
      · rw [sfind_none hne hm j (by omega)] at hmatch
        exact absurd hmatch (by simp)

theorem divTokens_eq_of_gap {s : Str} {i m : Nat} (him : i ≤ m)
    (hgap : ∀ k, i ≤ k → k < m →
      matchAt s openTok k = false ∧ matchAt s closeTok k = false) :
    divTokens s i = divTokens s m := by
  rw [divTokens_step, divTokens_step]
  rw [@sfind_eq_of_gap s closeTok (by decide) i m him
    (fun k h1 h2 => (hgap k h1 h2).2)]
  rw [@sfind_eq_of_gap s openTok (by decide) i m him
    (fun k h1 h2 => (hgap k h1 h2).1)]

theorem matchAt_cover_false {s pat : Str} {m j : Nat} {ch : Char}
    (hch : s[m]? = some ch) (hnotin : ch ∉ pat)
    (h1 : j ≤ m) (h2 : m < j + pat.length) : matchAt s pat j = false := by
  cases hmatch : matchAt s pat j with
  | false => rfl
  | true =>
    exfalso
    have hidx := matchAt_getElem hmatch (k := m - j) (by omega)
    rw [show j + (m - j) = m from by omega, hch] at hidx
    exact hnotin (List.getElem?_mem hidx.symm)

/-- Whitespace characters, which never occur inside a div tag token. -/
def wsChar (c : Char) : Bool :=
  decide (c = ' ') || decide (c = '\t') || decide (c = '\n')

def wsOnly (s : Str) : Bool := s.all wsChar

theorem no_ws_in_toks : (openTok.all (fun c => ! wsChar c)) = true ∧
    (closeTok.all (fun c => ! wsChar c)) = true := by decide

theorem matchAt_ws_cover {s : Str} {m j : Nat} {pat : Str}
    (hpat : pat = openTok ∨ pat = closeTok)
    {ch : Char} (hch : s[m]? = some ch) (hws : wsChar ch = true)
    (h1 : j ≤ m) (h2 : m < j + pat.length) : matchAt s pat j = false := by
  apply matchAt_cover_false hch ?_ h1 h2
  intro hmem
  rcases hpat with rfl | rfl
  · have := List.all_eq_true.1 no_ws_in_toks.1 ch hmem
    rw [hws] at this
    exact absurd this (by decide)
  · have := List.all_eq_true.1 no_ws_in_toks.2 ch hmem
    rw [hws] at this
    exact absurd this (by decide)

theorem divTokens_ws_lead {W X : Str} (hws : wsOnly W = true) :
    divTokens (W ++ X) 0 = shiftE W.length (divTokens X 0) := by
  have hgap : ∀ k, 0 ≤ k → k < W.length →
      matchAt (W ++ X) openTok k = false ∧
      matchAt (W ++ X) closeTok k = false := by
    intro k _ hk
    have hch : (W ++ X)[k]? = some (W[k]) := by
      rw [List.getElem?_append_left hk]
      exact List.getElem?_eq_getElem hk
    have hxws : wsChar (W[k]) = true :=
      List.all_eq_true.1 hws (W[k]) (List.getElem_mem hk)
    constructor
    · exact matchAt_ws_cover (Or.inl rfl) hch hxws (le_refl k)
        (by have : openTok.length = 4 := rfl; omega)
    · exact matchAt_ws_cover (Or.inr rfl) hch hxws (le_refl k)
        (by have : closeTok.length = 6 := rfl; omega)
  rw [divTokens_eq_of_gap (Nat.zero_le W.length) hgap]
  rw [divTokens_drop (le_refl W.length), Nat.sub_self, List.drop_left]

theorem divTokens_close_head (R : Str) :
    divTokens (closeTok ++ R) 0 = (0, false) :: divTokens (closeTok ++ R) 6 := by
  have hm : matchAt (closeTok ++ R) closeTok 0 = true := by
    unfold matchAt
    exact List.isPrefixOf_iff_prefix.2 (List.prefix_append _ _)
  have hc : sfind (closeTok ++ R) closeTok 0 = some 0 :=
    sfind_of_match (by decide) (le_refl 0) hm (fun k hk1 hk2 => by omega)
  rw [divTokens_step, hc]
  cases ho : sfind (closeTok ++ R) openTok 0 with
  | none => rfl
  | some o =>
    dsimp only
    rw [if_neg (by omega : ¬ (o < 0))]

/-- Tokens of `L ++ "\n" ++ X` decompose into `L`'s tokens followed by
`X`'s tokens shifted past the separator: a div tag contains no newline, so
no token crosses the boundary. -/
theorem divTokens_line_split (L X : Str) :
    ∀ n idx, idx ≤ L.length → L.length + 1 - idx ≤ n →
      divTokens (L ++ '\n' :: X) idx
        = divTokens L idx ++ shiftE (L.length + 1) (divTokens X 0) := by
  have hsm : (L ++ '\n' :: X)[L.length]? = some '\n' := by
    rw [List.getElem?_append_right (le_refl L.length), Nat.sub_self]
    simp
  have hcover : ∀ (pat : Str), pat = openTok ∨ pat = closeTok →
      ∀ j, j ≤ L.length → L.length < j + pat.length →
      matchAt (L ++ '\n' :: X) pat j = false := by
    intro pat hp j h1 h2
    exact matchAt_ws_cover hp hsm (by decide) h1 h2
  have hgapf : ∀ (pat : Str), pat = openTok ∨ pat = closeTok →
      ∀ idx, sfind L pat idx = none →
      ∀ k, idx ≤ k → k < L.length + 1 →
      matchAt (L ++ '\n' :: X) pat k = false := by
    intro pat hp idx hnone k hk1 hk2
    by_cases hfit : k + pat.length ≤ L.length
    · rw [matchAt_append_left hfit]
      exact sfind_none (by rcases hp with rfl | rfl <;> decide) hnone k hk1
    · exact hcover pat hp k (by omega) (by omega)
  have htrans : ∀ (pat : Str), pat = openTok ∨ pat = closeTok →
      ∀ idx, idx ≤ L.length → sfind L pat idx = none →
      sfind (L ++ '\n' :: X) pat idx = sfind (L ++ '\n' :: X) pat (L.length + 1) := by
    intro pat hp idx hidx hnone
    exact sfind_eq_of_gap (by rcases hp with rfl | rfl <;> decide)
      (by omega) (hgapf pat hp idx hnone)
  have hdropX : (L ++ '\n' :: X).drop (L.length + 1) = X := by
    rw [List.drop_append_eq_append_drop]
    simp
  have htail : ∀ idx, idx ≤ L.length →
      sfind L closeTok idx = none → sfind L openTok idx = none →
      divTokens (L ++ '\n' :: X) idx
        = divTokens L idx ++ shiftE (L.length + 1) (divTokens X 0) := by
    intro idx hidx hcL hoL
    have hLnil : divTokens L idx = [] := by
      rw [divTokens_step, hcL, hoL]
    rw [hLnil, List.nil_append]
    have hgap2 : ∀ k, idx ≤ k → k < L.length + 1 →
        matchAt (L ++ '\n' :: X) openTok k = false ∧
        matchAt (L ++ '\n' :: X) closeTok k = false := by
      intro k hk1 hk2
      exact ⟨hgapf openTok (Or.inl rfl) idx hoL k hk1 hk2,
        hgapf closeTok (Or.inr rfl) idx hcL k hk1 hk2⟩
    rw [divTokens_eq_of_gap (by omega) hgap2]
    rw [divTokens_drop (le_refl (L.length + 1)), Nat.sub_self, hdropX]
  intro n
  induction n with
  | zero =>
    intro idx hidx hn
    omega
  | succ n' ih =>
    intro idx hidx hn
    cases hcL : sfind L closeTok idx with
    | none =>
      cases hoL : sfind L openTok idx with
      | none => exact htail idx hidx hcL hoL
      | some o =>
        obtain ⟨hio, hom, homin⟩ := sfind_some hoL
        have homL : matchAt (L ++ '\n' :: X) openTok o = true := by
          rw [matchAt_append_left (matchAt_length_le (by decide) hom)]
          exact hom
        have hofit : o + 4 ≤ L.length := by
          have := matchAt_length_le (by decide : openTok ≠ []) hom
          have h4 : openTok.length = 4 := rfl
          omega
        have hoS : sfind (L ++ '\n' :: X) openTok idx = some o :=
          sfind_append_eq_left (by decide) hoL
        rw [divTokens_step (L ++ '\n' :: X), divTokens_step L, hcL, hoL, hoS]
        rw [htrans closeTok (Or.inr rfl) idx hidx hcL]
        cases hcS : sfind (L ++ '\n' :: X) closeTok (L.length + 1) with
        | none =>
          dsimp only
          rw [ih (o + 4) (by omega) (by omega)]
          rfl
        | some c =>
          have hc1 := (sfind_some hcS).1
          dsimp only
          rw [if_pos (by omega : o < c)]
          rw [ih (o + 4) (by omega) (by omega)]
          rfl
    | some c =>
      obtain ⟨hic, hcm, hcmin⟩ := sfind_some hcL
      have hcfit : c + 6 ≤ L.length := by
        have := matchAt_length_le (by decide : closeTok ≠ []) hcm
        have h6 : closeTok.length = 6 := rfl
        omega
      have hcS : sfind (L ++ '\n' :: X) closeTok idx = some c :=
        sfind_append_eq_left (by decide) hcL
      cases hoL : sfind L openTok idx with
      | none =>
        rw [divTokens_step (L ++ '\n' :: X), divTokens_step L, hcL, hoL, hcS]
        rw [htrans openTok (Or.inl rfl) idx hidx hoL]
        cases hoS : sfind (L ++ '\n' :: X) openTok (L.length + 1) with
        | none =>
          dsimp only
          rw [ih (c + 6) (by omega) (by omega)]
          rfl
        | some o =>
          have ho1 := (sfind_some hoS).1
          dsimp only
          rw [if_neg (by omega : ¬ (o < c))]
          rw [ih (c + 6) (by omega) (by omega)]
          rfl
      | some o =>
        obtain ⟨hio, hom, homin⟩ := sfind_some hoL
        have hofit : o + 4 ≤ L.length := by
          have := matchAt_length_le (by decide : openTok ≠ []) hom
          have h4 : openTok.length = 4 := rfl
          omega
        have hoS : sfind (L ++ '\n' :: X) openTok idx = some o :=
          sfind_append_eq_left (by decide) hoL
        rw [divTokens_step (L ++ '\n' :: X), divTokens_step L, hcL, hoL, hcS, hoS]
        dsimp only
        by_cases hoc : o < c
        · rw [if_pos hoc, if_pos hoc]
          rw [ih (o + 4) (by omega) (by omega)]
          rfl
        · rw [if_neg hoc, if_neg hoc]
          rw [ih (c + 6) (by omega) (by omega)]
          rfl

/-- The sequence of open/close event types of a fragment. -/
def divEvents (s : Str) : List Bool := (divTokens s 0).map Prod.snd

theorem divBalanced_eq (b : Str) : divBalanced b = netOk (divEvents b) 0 := rfl

theorem netOk_append {xs : List Bool} :
    ∀ d, netOk xs d = true → ∀ ys, netOk (xs ++ ys) d = netOk ys 0 := by
  induction xs with
  | nil =>
    intro d h ys
    have hd : d = 0 := by
      have : (d == 0) = true := h
      simpa using this
    subst hd
    rfl
  | cons b rest ih =>
    intro d h ys
    cases b with
    | true =>
      exact ih (d + 1) h ys
    | false =>
      have hand : (decide (0 < d) && netOk rest (d - 1)) = true := h
      rw [Bool.and_eq_true] at hand
      obtain ⟨h0, h1⟩ := hand
      have h0' : 0 < d := of_decide_eq_true h0
      show (decide (0 < d) && netOk (rest ++ ys) (d - 1)) = netOk ys 0
      rw [h0, Bool.true_and]
      exact ih (d - 1) h1 ys

theorem netOk_flatten :
    ∀ (Ls : List (List Bool)), (∀ bs ∈ Ls, netOk bs 0 = true) →
      netOk Ls.flatten 0 = true := by
  intro Ls
  induction Ls with
  | nil => intro _; rfl
  | cons bs rest ih =>
    intro h
    rw [List.flatten_cons]
    rw [netOk_append 0 (h bs (List.mem_cons.2 (Or.inl rfl))) _]
    exact ih (fun x hx => h x (List.mem_cons.2 (Or.inr hx)))

/-- Walking an event block whose relative balance is `r` from absolute
depth `a ≥ r + 1` never returns inside the block and exits at depth
`a - r`. -/
theorem tokenWalk_balanced (F : List (Nat × Bool)) :
    ∀ (E : List (Nat × Bool)) (r a : Nat),
      netOk (E.map Prod.snd) r = true → r + 1 ≤ a →
      tokenWalk (E ++ F) a = tokenWalk F (a - r) := by
  intro E
  induction E with
  | nil =>
    intro r a h ha
    have hr : r = 0 := by
      have : (r == 0) = true := h
      simpa using this
    subst hr
    simp
  | cons t rest ih =>
    intro r a h ha
    obtain ⟨p, b⟩ := t
    cases b with
    | true =>
      have h' : netOk (rest.map Prod.snd) (r + 1) = true := h
      have hrec := ih (r + 1) (a + 1) h' (by omega)
      have harith : a + 1 - (r + 1) = a - r := by omega
      rw [harith] at hrec
      exact hrec
    | false =>
      have hand : (decide (0 < r) && netOk (rest.map Prod.snd) (r - 1)) = true := h
      rw [Bool.and_eq_true] at hand
      obtain ⟨h0, h1⟩ := hand
      have h0' : 0 < r := of_decide_eq_true h0
      show (if a ≤ 1 then some (p + 6) else tokenWalk (rest ++ F) (a - 1))
        = tokenWalk F (a - r)
      rw [if_neg (by omega : ¬ a ≤ 1)]
      have hrec := ih (r - 1) (a - 1) h1 (by omega)
      have harith : a - 1 - (r - 1) = a - r := by omega
      rw [harith] at hrec
      exact hrec

theorem joinNL_cons_ne (a : Str) (r : List Str) (h : r ≠ []) :
    joinNL (a :: r) = a ++ '\n' :: joinNL r := by
  cases r with
  | nil => exact absurd rfl h
  | cons b t => rfl

theorem splitNL_ne_nil (s : Str) : splitNL s ≠ [] := by
  cases s with
  | nil => simp [splitNL]
  | cons c rest =>
    unfold splitNL
    by_cases h : c = '\n'
    · rw [if_pos h]
      simp
    · rw [if_neg h]
      cases splitNL rest with
      | nil => simp
      | cons hd tl => simp

theorem joinNL_splitNL (s : Str) : joinNL (splitNL s) = s := by
  induction s with
  | nil => rfl
  | cons c rest ih =>
    unfold splitNL
    by_cases h : c = '\n'
    · rw [if_pos h]
      rw [joinNL_cons_ne [] _ (splitNL_ne_nil rest), ih, h]
      rfl
    · rw [if_neg h]
      cases hr : splitNL rest with
      | nil => exact absurd hr (splitNL_ne_nil rest)
      | cons hd tl =>
        cases tl with
        | nil =>
          rw [← ih, hr]
          rfl
        | cons t2 ts =>
          rw [← ih, hr]
          rfl

theorem divEvents_nil : divEvents [] = [] := rfl

theorem divEvents_ws_lead {W l : Str} (hws : wsOnly W = true) :
    divEvents (W ++ l) = divEvents l := by
  unfold divEvents
  rw [divTokens_ws_lead hws, shiftE_snd]

theorem divEvents_joinNL :
    ∀ (ls : List Str), divEvents (joinNL ls) = (ls.map divEvents).flatten := by
  intro ls
  induction ls with
  | nil => rfl
  | cons l rest ih =>
    cases rest with
    | nil => simp [joinNL]
    | cons r2 rs =>
      rw [joinNL_cons_ne l _ (by simp)]
      unfold divEvents
      rw [divTokens_line_split l (joinNL (r2 :: rs)) (l.length + 1) 0
        (Nat.zero_le _) (by omega)]
      rw [List.map_append, shiftE_snd]
      rw [List.map_cons, List.flatten_cons]
      congr 1

theorem divEvents_block (b : Str) :
    divEvents b = ((splitNL b).map divEvents).flatten := by
  conv_lhs => rw [← joinNL_splitNL b]
  exact divEvents_joinNL (splitNL b)

/-- Scanning a whitespace-only interior: the walk returns just past the
closing tag that follows the whitespace. -/
theorem scanDiv_ws_close {W R : Str} (hws : wsOnly W = true) :
    scanDiv (W ++ (closeTok ++ R)) 0 = some (W.length + 6) := by
  unfold scanDiv
  rw [divTokens_ws_lead hws, divTokens_close_head]
  dsimp only [shiftE, List.map_cons]
  simp [tokenWalk]

/-- Scanning an interior of newline-separated lines with balanced div
events, followed by whitespace and a closing tag: the walk passes through
every line and returns just past that closing tag. -/
theorem scanDiv_lines {R ind : Str} {ls : List Str}
    (hws : wsOnly ind = true)
    (hbal : netOk ((ls.map divEvents).flatten) 0 = true) :
    scanDiv ('\n' :: (joinNL ls ++ '\n' :: (ind ++ (closeTok ++ R)))) 0
      = some ((joinNL ls).length + ind.length + 8) := by
  unfold scanDiv
  have h1 : divTokens ('\n' :: (joinNL ls ++ '\n' :: (ind ++ (closeTok ++ R)))) 0
      = shiftE 1 (divTokens (joinNL ls ++ '\n' :: (ind ++ (closeTok ++ R))) 0) :=
    divTokens_ws_lead (W := ['\n']) (by decide)
  rw [h1]
  rw [divTokens_line_split (joinNL ls) (ind ++ (closeTok ++ R))
    ((joinNL ls).length + 1) 0 (Nat.zero_le _) (by omega)]
  rw [divTokens_ws_lead hws, divTokens_close_head]
  rw [shiftE_append, shiftE_shiftE, shiftE_shiftE]
  have hsnd : netOk ((shiftE 1 (divTokens (joinNL ls) 0)).map Prod.snd) 0 = true := by
    rw [shiftE_snd]
    have : (divTokens (joinNL ls) 0).map Prod.snd = divEvents (joinNL ls) := rfl
    rw [this, divEvents_joinNL]
    exact hbal
  rw [tokenWalk_balanced _ _ 0 1 hsnd (le_refl 1)]
  dsimp only [shiftE, List.map_cons]
  simp [tokenWalk]
  omega

theorem findNth_ge {s pat : Str} :
    ∀ (n start j : Nat), findNth s pat n start = some j → start ≤ j := by
  intro n
  induction n with
  | zero => intro start j h; simp [findNth] at h
  | succ m ih =>
    intro start j h
    cases m with
    | zero =>
      have h' : sfind s pat start = some j := h
      exact (sfind_some h').1
    | succ k =>
      unfold findNth at h
      cases hp : sfind s pat start with
      | none => rw [hp] at h; exact absurd h (by simp)
      | some p =>
        rw [hp] at h
        have h1 := (sfind_some hp).1
        have h2 := ih (p + pat.length) j h
        omega

theorem sfind_congr_take {s t pat : Str} {m i j : Nat} (hne : pat ≠ [])
    (hst : s.take m = t.take m) (hj : j + pat.length ≤ m)
    (h : sfind s pat i = some j) : sfind t pat i = some j := by
  obtain ⟨hij, hmatch, hmin⟩ := sfind_some h
  apply sfind_of_match hne hij
  · rw [← matchAt_congr_take hst hj]
    exact hmatch
  · intro k hk1 hk2
    rw [← matchAt_congr_take hst (by omega)]
    exact hmin k hk1 hk2

theorem findNth_congr_take {s t pat : Str} {m : Nat} (hne : pat ≠ [])
    (hst : s.take m = t.take m) :
    ∀ (n start j : Nat), findNth s pat n start = some j →
      j + pat.length ≤ m → findNth t pat n start = some j := by
  intro n
  induction n with
  | zero => intro start j h _; simp [findNth] at h
  | succ q ih =>
    intro start j h hj
    cases q with
    | zero =>
      have h' : sfind s pat start = some j := h
      exact sfind_congr_take hne hst hj h'
    | succ k =>
      unfold findNth at h ⊢
      cases hp : sfind s pat start with
      | none => rw [hp] at h; exact absurd h (by simp)
      | some p =>
        rw [hp] at h
        dsimp only at h
        have hpj := findNth_ge (k + 1) (p + pat.length) j h
        have hpm : p + pat.length ≤ m := by
          have h1 : 1 ≤ pat.length := List.length_pos.2 hne
          omega
        rw [sfind_congr_take hne hst hpm hp]
        exact ih (p + pat.length) j h hj

theorem take_congr_of_take {s t : Str} {m stop : Nat} (hstop : stop ≤ m)
    (hst : s.take m = t.take m) : s.take stop = t.take stop := by
  have h1 : (s.take m).take stop = s.take stop := by
    rw [List.take_take, Nat.min_eq_left hstop]
  have h2 : (t.take m).take stop = t.take stop := by
    rw [List.take_take, Nat.min_eq_left hstop]
  rw [← h1, ← h2, hst]

theorem rfindChar_congr_take {s t : Str} {m stop : Nat} (hstop : stop ≤ m)
    (hst : s.take m = t.take m) (ch : Char) :
    rfindChar s ch stop = rfindChar t ch stop := by
  unfold rfindChar
  rw [take_congr_of_take hstop hst]

theorem detect_indent_congr_take {s t : Str} {m p : Nat} (hp : p ≤ m)
    (hst : s.take m = t.take m) : detect_indent s p = detect_indent t p := by
  unfold detect_indent
  rw [take_congr_of_take hp hst, rfindChar_congr_take hp hst]

theorem rfindSub_congr_take {s t pat : Str} {m stop : Nat} (hstop : stop ≤ m)
    (hst : s.take m = t.take m) : rfindSub s pat stop = rfindSub t pat stop := by
  unfold rfindSub
  rw [take_congr_of_take hstop hst]

theorem detect_indent_ws (s : Str) (p : Nat) :
    wsOnly (detect_indent s p) = true := by
  unfold detect_indent
  cases hrf : rfindChar s '\n' p with
  | none => rfl
  | some k =>
    dsimp only
    apply List.all_eq_true.2
    intro c hc
    have hp := List.mem_takeWhile_imp hc
    rw [Bool.or_eq_true] at hp
    unfold wsChar
    rcases hp with h | h <;> simp [h]

theorem sfind_none_mono {s pat : Str} {i i' : Nat} (hne : pat ≠ [])
    (h : sfind s pat i = none) (hii : i ≤ i') : sfind s pat i' = none := by
  cases hs : sfind s pat i' with
  | none => rfl
  | some j =>
    obtain ⟨hij, hm, _⟩ := sfind_some hs
    rw [sfind_none hne h j (by omega)] at hm
    exact absurd hm (by simp)

theorem occursIn_of_match {s pat : Str} {j : Nat} (hne : pat ≠ [])
    (h : matchAt s pat j = true) : occursIn s pat = true := by
  unfold occursIn
  cases hs : sfind s pat 0 with
  | some k => rfl
  | none =>
    rw [sfind_none hne hs j (Nat.zero_le j)] at h
    exact absurd h (by simp)

theorem replaceAllF_fuel {pat rep : Str} (hne : pat ≠ []) :
    ∀ f g s, s.length + 1 ≤ f → s.length + 1 ≤ g →
      replaceAllF pat rep f s = replaceAllF pat rep g s := by
  intro f
  induction f with
  | zero => intro g s hf hg; omega
  | succ f' ih =>
    intro g s hf hg
    cases g with
    | zero => omega
    | succ g' =>
      unfold replaceAllF
      cases hs : sfind s pat 0 with
      | none => rfl
      | some j =>
        obtain ⟨_, hm, _⟩ := sfind_some hs
        have hlen := matchAt_length_le hne hm
        have hp1 : 1 ≤ pat.length := List.length_pos.2 hne
        dsimp only
        have hrec := ih g' (s.drop (j + pat.length))
          (by rw [List.length_drop]; omega) (by rw [List.length_drop]; omega)
        rw [hrec]

theorem replaceAll_step {pat rep s : Str} (hne : pat ≠ []) :
    replaceAll s pat rep
      = match sfind s pat 0 with
        | none => s
        | some j =>
          s.take j ++ rep ++ replaceAll (s.drop (j + pat.length)) pat rep := by
  cases hf : sfind s pat 0 with
  | none =>
    conv_lhs => unfold replaceAll replaceAllF
    rw [hf]
  | some j =>
    obtain ⟨_, hm, _⟩ := sfind_some hf
    have hlen := matchAt_length_le hne hm
    have hp1 : 1 ≤ pat.length := List.length_pos.2 hne
    conv_lhs => unfold replaceAll replaceAllF
    rw [hf]
    dsimp only
    have hrec : replaceAllF pat rep s.length (s.drop (j + pat.length))
        = replaceAll (s.drop (j + pat.length)) pat rep := by
      unfold replaceAll
      apply replaceAllF_fuel hne <;> (rw [List.length_drop]; (try omega))
    rw [hrec]

theorem matchAt_drop_decomp {s pat : Str} {m : Nat} (h : matchAt s pat m = true) :
    s.drop m = pat ++ s.drop (m + pat.length) := by
  unfold matchAt at h
  obtain ⟨r, hr⟩ := List.isPrefixOf_iff_prefix.1 h
  have hrd : r = s.drop (m + pat.length) := by
    have h1 : (s.drop m).drop pat.length = r := by
      rw [← hr, List.drop_left]
    rw [← h1, List.drop_drop]
  rw [← hr, hrd]

theorem ensure_css_skip {s : Str} (h : occursIn s cssSnippet = true) :
    ensure_css_snippet s = s := by
  unfold ensure_css_snippet
  rw [if_pos h]

theorem ensure_css_inserts {s : Str} (h1 : ¬ occursIn s cssSnippet = true)
    (h2 : occursIn s memorialMarker = true) :
    occursIn (ensure_css_snippet s) cssSnippet = true := by
  unfold ensure_css_snippet
  rw [if_neg h1, if_pos h2]
  unfold occursIn at h2
  cases hf : sfind s memorialMarker 0 with
  | none => rw [hf] at h2; exact absurd h2 (by simp)
  | some j =>
    obtain ⟨_, hm, _⟩ := sfind_some hf
    have hj : j + memorialMarker.length ≤ s.length :=
      matchAt_length_le (by decide) hm
    rw [replaceAll_step (by decide), hf]
    dsimp only
    have hlen : (s.take j).length = j := by
      rw [List.length_take]
      omega
    apply occursIn_of_match (j := j) (by decide)
    rw [List.append_assoc]
    rw [matchAt_append_right_ge (le_of_eq hlen)]
    rw [hlen, Nat.sub_self]
    unfold matchAt
    rw [List.drop_zero]
    apply List.isPrefixOf_iff_prefix.2
    rw [List.append_assoc, List.append_assoc]
    exact List.prefix_append _ _

theorem ensure_css_idempotent (s : Str) :
    ensure_css_snippet (ensure_css_snippet s) = ensure_css_snippet s := by
  by_cases h1 : occursIn s cssSnippet = true
  · rw [ensure_css_skip h1, ensure_css_skip h1]
  · by_cases h2 : occursIn s memorialMarker = true
    · exact ensure_css_skip (ensure_css_inserts h1 h2)
    · have hs : ensure_css_snippet s = s := by
        unfold ensure_css_snippet
        rw [if_neg h1, if_neg h2]
      rw [hs, hs]

theorem ensure_css_single_insert {s : Str} {j : Nat}
    (hcss : ¬ occursIn s cssSnippet = true)
    (hfind : sfind s memorialMarker 0 = some j)
    (huniq : sfind s memorialMarker (j + 1) = none) :
    ensure_css_snippet s
      = s.take j ++ cssSnippet ++ "\n        ".toList ++ memorialMarker
        ++ s.drop (j + memorialMarker.length) := by
  have hocc : occursIn s memorialMarker = true := by
    unfold occursIn
    rw [hfind]
    rfl
  unfold ensure_css_snippet
  rw [if_neg hcss, if_pos hocc]
  rw [replaceAll_step (by decide), hfind]
  dsimp only
  have hnone : sfind (s.drop (j + memorialMarker.length)) memorialMarker 0
      = none := by
    have h62 : (1 : Nat) ≤ memorialMarker.length := by decide
    have hmono := sfind_none_mono (by decide) huniq
      (by omega : j + 1 ≤ j + memorialMarker.length)
    rw [sfind_drop (j + memorialMarker.length) (j + memorialMarker.length)
      (le_refl _), Nat.sub_self] at hmono
    cases hx : sfind (s.drop (j + memorialMarker.length)) memorialMarker 0 with
    | none => rfl
    | some q => rw [hx] at hmono; simp at hmono
  rw [replaceAll_step (by decide), hnone]
  simp [List.append_assoc]

theorem divEvents_lines_flatten (blocks : List Str) :
    ((((blocks.map splitNL).flatten).map divEvents).flatten)
      = ((blocks.map divEvents).flatten) := by
  induction blocks with
  | nil => rfl
  | cons b rest ih =>
    simp only [List.map_cons, List.flatten_cons, List.map_append,
      List.flatten_append]
    rw [ih]
    congr 1
    exact (divEvents_block b).symm

theorem divEvents_map_ws {ind2 : Str} (hws : wsOnly ind2 = true)
    (lines : List Str) :
    (lines.map (fun l => ind2 ++ l)).map divEvents = lines.map divEvents := by
  rw [List.map_map]
  apply List.map_congr_left
  intro l _
  exact divEvents_ws_lead hws

theorem netOk_blocks {blocks : List Str}
    (hbal : ∀ b ∈ blocks, divBalanced b = true) :
    netOk ((blocks.map divEvents).flatten) 0 = true := by
  apply netOk_flatten
  intro bs hbs
  obtain ⟨b, hb, rfl⟩ := List.mem_map.1 hbs
  rw [← divBalanced_eq]
  exact hbal b hb

theorem scanDiv_divInner {ind R : Str} {blocks : List Str}
    (hws : wsOnly ind = true) (hbal : ∀ b ∈ blocks, divBalanced b = true) :
    scanDiv (divInner ind blocks ++ (closeTok ++ R)) 0
      = some ((divInner ind blocks).length + 6) := by
  have hind2 : wsOnly (ind ++ "  ".toList) = true := by
    unfold wsOnly
    rw [List.all_append]
    have h1 : (ind.all wsChar) = true := hws
    rw [h1]
    rfl
  by_cases hb : blocks = []
  · subst hb
    have hdi : divInner ind [] = '\n' :: ind := by simp [divInner]
    rw [hdi]
    have hW : wsOnly ('\n' :: ind) = true := by
      unfold wsOnly
      rw [List.all_cons, show wsChar '\n' = true from rfl, Bool.true_and]
      exact hws
    exact scanDiv_ws_close hW
  · have hdi : divInner ind blocks
        = '\n' :: (joinNL ((((blocks.map splitNL).flatten)).map
            (fun line => (ind ++ "  ".toList) ++ line)) ++ '\n' :: ind) := by
      simp [divInner, hb]
    rw [hdi]
    have hassoc : ('\n' :: (joinNL ((((blocks.map splitNL).flatten)).map
          (fun line => (ind ++ "  ".toList) ++ line)) ++ '\n' :: ind))
          ++ (closeTok ++ R)
        = '\n' :: (joinNL ((((blocks.map splitNL).flatten)).map
            (fun line => (ind ++ "  ".toList) ++ line))
            ++ '\n' :: (ind ++ (closeTok ++ R))) := by
      simp [List.append_assoc]
    rw [hassoc]
    have hbal' : netOk ((((((blocks.map splitNL).flatten)).map
        (fun line => (ind ++ "  ".toList) ++ line)).map divEvents).flatten)
        0 = true := by
      rw [divEvents_map_ws hind2, divEvents_lines_flatten]
      exact netOk_blocks hbal
    rw [scanDiv_lines hws hbal']
    congr 1
    simp
    omega

theorem scanDiv_gridInner {R : Str} {cards : List Str}
    (hbal : ∀ b ∈ cards, divBalanced b = true) :
    scanDiv (gridInner cards ++ (closeTok ++ R)) 0
      = some ((gridInner cards).length + 6) := by
  have hassoc : gridInner cards ++ (closeTok ++ R)
      = '\n' :: (joinNL ((((cards.map splitNL).flatten)).map
          (fun line => "  ".toList ++ line))
          ++ '\n' :: (([] : Str) ++ (closeTok ++ R))) := by
    unfold gridInner
    simp [List.append_assoc]
  rw [hassoc]
  have hbal' : netOk ((((((cards.map splitNL).flatten)).map
      (fun line => "  ".toList ++ line)).map divEvents).flatten) 0 = true := by
    rw [divEvents_map_ws (by rfl), divEvents_lines_flatten]
    exact netOk_blocks hbal
  rw [scanDiv_lines (by rfl) hbal']
  congr 1
  unfold gridInner
  simp

theorem replace_div_inner_idem {html cname : Str} {blocks : List Str}
    {occ : Nat} {t : Str}
    (hbal : ∀ b ∈ blocks, divBalanced b = true)
    (h : replace_div_inner html cname blocks occ = some t) :
    replace_div_inner t cname blocks occ = some t := by
  unfold replace_div_inner at h
  dsimp only at h
  cases hb : find_div_bounds html
      ("<div class=\"".toList ++ cname ++ "\">".toList) occ with
  | none => rw [hb] at h; exact absurd h (by simp)
  | some triple =>
    obtain ⟨p, cs, e⟩ := triple
    rw [hb] at h
    dsimp only at h
    have hne : ("<div class=\"".toList ++ cname ++ "\">".toList) ≠ [] := by
      intro hcontra
      rw [List.append_eq_nil, List.append_eq_nil] at hcontra
      exact absurd hcontra.1.1 (by decide)
    obtain ⟨hmk, hcs, hcsle, hce, hclose⟩ := find_div_bounds_close hne hb
    have ht : t = html.take cs ++ divInner (detect_indent html p) blocks ++
        html.drop (e - 6) := by
      have h' := Option.some.inj h
      rw [← h']
      rfl
    have hd0 := matchAt_drop_decomp hclose
    have h6 : (e - 6) + closeTok.length = e := by
      have hc6 : closeTok.length = 6 := rfl
      omega
    rw [h6] at hd0
    have ht2 := ht
    rw [hd0] at ht2
    have hlen : (html.take cs).length = cs := by
      rw [List.length_take]
      omega
    have hAi : (html.take cs ++ divInner (detect_indent html p) blocks).length
        = cs + (divInner (detect_indent html p) blocks).length := by
      rw [List.length_append, hlen]
    have htake : t.take cs = html.take cs := by
      rw [ht, List.append_assoc]
      exact List.take_left' hlen
    have hdrop : t.drop (cs + (divInner (detect_indent html p) blocks).length)
        = closeTok ++ html.drop e := by
      rw [ht2]
      exact List.drop_left' hAi
    have htdrop_cs : t.drop cs
        = divInner (detect_indent html p) blocks ++ (closeTok ++ html.drop e) := by
      rw [ht2, List.append_assoc]
      exact List.drop_left' hlen
    have hfind1 : findNth html
        ("<div class=\"".toList ++ cname ++ "\">".toList) occ 0 = some p := by
      have hb2 := hb
      unfold find_div_bounds at hb2
      cases hf : findNth html
          ("<div class=\"".toList ++ cname ++ "\">".toList) occ 0 with
      | none => rw [hf] at hb2; exact absurd hb2 (by simp)
      | some position =>
        rw [hf] at hb2
        dsimp only at hb2
        cases hsc : scanDiv html
            (position + ("<div class=\"".toList ++ cname ++ "\">".toList).length) with
        | none => rw [hsc] at hb2; exact absurd hb2 (by simp)
        | some idx =>
          rw [hsc] at hb2
          simp only [Option.some.injEq, Prod.mk.injEq] at hb2
          rw [hb2.1]
    have hfind2 : findNth t
        ("<div class=\"".toList ++ cname ++ "\">".toList) occ 0 = some p :=
      findNth_congr_take hne htake.symm occ 0 p hfind1 (by omega)
    have hscan2 : scanDiv t cs
        = some (cs + (divInner (detect_indent html p) blocks).length + 6) := by
      rw [scanDiv_drop t cs, htdrop_cs,
        scanDiv_divInner (detect_indent_ws html p) hbal]
      simp only [Option.map_some']
      congr 1
      omega
    have hbounds2 : find_div_bounds t
        ("<div class=\"".toList ++ cname ++ "\">".toList) occ
        = some (p, cs, cs + (divInner (detect_indent html p) blocks).length + 6) := by
      unfold find_div_bounds
      rw [hfind2]
      dsimp only
      rw [show p + ("<div class=\"".toList ++ cname ++ "\">".toList).length = cs
        from hcs.symm]
      rw [hscan2]
    have hdi : detect_indent t p = detect_indent html p :=
      (detect_indent_congr_take (show p ≤ cs by omega) htake.symm).symm
    unfold replace_div_inner
    dsimp only
    rw [hbounds2]
    dsimp only
    rw [hdi]
    have hfold : (if blocks = [] then '\n' :: detect_indent html p
        else '\n' :: (joinNL (((blocks.map splitNL).flatten).map
          (fun line => detect_indent html p ++ "  ".toList ++ line))
          ++ '\n' :: detect_indent html p))
        = divInner (detect_indent html p) blocks := rfl
    rw [hfold]
    congr 1
    have harith : cs + (divInner (detect_indent html p) blocks).length + 6 - 6
        = cs + (divInner (detect_indent html p) blocks).length := by omega
    rw [harith]
    rw [htake, hdrop, ht2]

theorem replace_products_grid_idem {html pid : Str} {cards : List Str} {t : Str}
    {gs cs e idp : Nat}
    (hbal : ∀ b ∈ cards, divBalanced b = true)
    (hbounds : find_grid_bounds html pid = some (gs, cs, e))
    (hid : sfind html ("id=\"".toList ++ pid ++ "\"".toList) 0 = some idp)
    (hidcs : idp + ("id=\"".toList ++ pid ++ "\"".toList).length ≤ cs)
    (h : replace_products_grid html pid cards = some t) :
    replace_products_grid t pid cards = some t := by
  obtain ⟨hmk, hcs, hcsle, hce, hclose⟩ := find_grid_bounds_close hbounds
  have hne_idm : ("id=\"".toList ++ pid ++ "\"".toList) ≠ [] := by
    intro hcontra
    rw [List.append_eq_nil, List.append_eq_nil] at hcontra
    exact absurd hcontra.1.1 (by decide)
  unfold replace_products_grid at h
  rw [hbounds] at h
  dsimp only at h
  have ht : t = html.take cs ++ gridInner cards ++ closeTok ++ html.drop e := by
    have h' := Option.some.inj h
    rw [← h']
    rfl
  have hlen : (html.take cs).length = cs := by
    rw [List.length_take]
    omega
  have htake : t.take cs = html.take cs := by
    rw [ht, List.append_assoc, List.append_assoc]
    exact List.take_left' hlen
  have htdrop_cs : t.drop cs = gridInner cards ++ (closeTok ++ html.drop e) := by
    rw [ht, List.append_assoc, List.append_assoc]
    rw [← List.append_assoc (gridInner cards)]
    exact List.drop_left' hlen
  have hdropEnd : t.drop (cs + (gridInner cards).length + 6) = html.drop e := by
    rw [ht]
    apply List.drop_left'
    rw [List.length_append, List.length_append, hlen]
    have : closeTok.length = 6 := rfl
    omega
  have hb2 := hbounds
  unfold find_grid_bounds at hb2
  dsimp only at hb2
  rw [hid] at hb2
  dsimp only at hb2
  cases hds : rfindSub html openTok idp with
  | none => rw [hds] at hb2; exact absurd hb2 (by simp)
  | some div_start =>
    rw [hds] at hb2
    dsimp only at hb2
    cases hgm : sfind html ("<div class=\"products-grid\">".toList) div_start with
    | none => rw [hgm] at hb2; exact absurd hb2 (by simp)
    | some grid_start =>
      rw [hgm] at hb2
      dsimp only at hb2
      cases hsc : scanDiv html
          (grid_start + ("<div class=\"products-grid\">".toList).length) with
      | none => rw [hsc] at hb2; exact absurd hb2 (by simp)
      | some grid_end =>
        rw [hsc] at hb2
        simp only [Option.some.injEq, Prod.mk.injEq] at hb2
        obtain ⟨hg1, -, -⟩ := hb2
        rw [hg1] at hgm
        have hid2 : sfind t ("id=\"".toList ++ pid ++ "\"".toList) 0 = some idp :=
          sfind_congr_take hne_idm htake.symm hidcs hid
        have hds2 : rfindSub t openTok idp = some div_start := by
          rw [← rfindSub_congr_take (show idp ≤ cs by
            have : 1 ≤ ("id=\"".toList ++ pid ++ "\"".toList).length :=
              List.length_pos.2 hne_idm
            omega) htake.symm]
          exact hds
        have hgm2 : sfind t ("<div class=\"products-grid\">".toList) div_start
            = some gs :=
          sfind_congr_take (by decide) htake.symm
            (by rw [show ("<div class=\"products-grid\">".toList).length = 27
              from rfl]; omega) hgm
        have hscan2 : scanDiv t cs
            = some (cs + (gridInner cards).length + 6) := by
          rw [scanDiv_drop t cs, htdrop_cs, scanDiv_gridInner hbal]
          simp only [Option.map_some']
          congr 1
          omega
        have hbounds2 : find_grid_bounds t pid
            = some (gs, cs, cs + (gridInner cards).length + 6) := by
          unfold find_grid_bounds
          dsimp only
          rw [hid2]
          dsimp only
          rw [hds2]
          dsimp only
          rw [hgm2]
          dsimp only
          rw [show gs + ("<div class=\"products-grid\">".toList).length = cs by
            rw [show ("<div class=\"products-grid\">".toList).length = 27
              from rfl]; omega]
          rw [hscan2]
        unfold replace_products_grid
        rw [hbounds2]
        dsimp only
        have hfold : ('\n' :: (joinNL (((cards.map splitNL).flatten).map
            (fun line => "  ".toList ++ line)) ++ ['\n']))
            = gridInner cards := rfl
        rw [hfold]
        congr 1
        have harith : cs + (gridInner cards).length + 6 - 6
            = cs + (gridInner cards).length := by omega
        rw [htake]
        rw [show ("</div>".toList : Str) = closeTok from rfl]
        rw [hdropEnd, ht]

/-- Counterexample to C4 as stated: `replace_div_inner` applied twice with
the same (unbalanced) fragment list `["</div>"]` yields a different
document than a single application, and `ensure_css_snippet` on a document
carrying the anchor comment twice inserts the style block twice — Python
`str.replace` replaces every occurrence — so the block is not inserted at
most once. -/
theorem c4_counterexample :
    ((replace_div_inner ("<div class=\"c\">x</div>".toList) ("c".toList)
        [("</div>".toList)] 1).bind (fun t1 =>
      (replace_div_inner t1 ("c".toList) [("</div>".toList)] 1).map
        (fun t2 => decide (t2 = t1))) = some false) ∧
    ensure_css_snippet c4anchor2
      = "<style>\n".toList
        ++ (cssSnippet ++ "\n        ".toList ++ memorialMarker)
        ++ "\n".toList
        ++ (cssSnippet ++ "\n        ".toList ++ memorialMarker) := by
  constructor
  · exact c4_div_not_idempotent
  · have hcssf : occursIn c4anchor2 cssSnippet = false := by decide
    have hcss : ¬ occursIn c4anchor2 cssSnippet = true := by
      rw [hcssf]
      simp
    have hocc : occursIn c4anchor2 memorialMarker = true := by decide
    unfold ensure_css_snippet
    rw [if_neg hcss, if_pos hocc]
    rw [replaceAll_step (by decide)]
    rw [show sfind c4anchor2 memorialMarker 0 = some 8 from by decide]
    dsimp only
    rw [show c4anchor2.drop (8 + memorialMarker.length)
      = '\n' :: memorialMarker from by decide]
    rw [replaceAll_step (by decide)]
    rw [show sfind ('\n' :: memorialMarker) memorialMarker 0 = some 1
      from by decide]
    dsimp only
    rw [show ('\n' :: memorialMarker).drop (1 + memorialMarker.length)
      = ([] : Str) from by decide]
    rw [show replaceAll ([] : Str) memorialMarker
        (cssSnippet ++ "\n        ".toList ++ memorialMarker) = ([] : Str)
      from by rw [replaceAll_step (by decide)]; rfl]
    rw [show c4anchor2.take 8 = "<style>\n".toList from by decide]
    rw [show ('\n' :: memorialMarker).take 1 = "\n".toList from by decide]
    simp [List.append_assoc]

/-- **C4 (amended).** The patch operations are idempotent under the proviso
that every injected fragment has balanced div tags: `replace_div_inner`
applied twice with the same balanced fragments equals one application, and
so does `replace_products_grid` when additionally the page id marker sits
before the grid content.  `ensure_css_snippet` is skipped when the exact
snippet is present, is idempotent, and inserts the block exactly once when
the anchor comment occurs exactly once — but with several anchors it
inserts once per occurrence (see the counterexample), and with unbalanced
fragments the div replacements drift. -/
theorem c4_patch_idempotence :
    (∀ (html cname : Str) (blocks : List Str) (occ : Nat) (t : Str),
      (∀ b ∈ blocks, divBalanced b = true) →
      replace_div_inner html cname blocks occ = some t →
      replace_div_inner t cname blocks occ = some t) ∧
    (∀ (html pid : Str) (cards : List Str) (t : Str) (gs cs e idp : Nat),
      (∀ b ∈ cards, divBalanced b = true) →
      find_grid_bounds html pid = some (gs, cs, e) →
      sfind html ("id=\"".toList ++ pid ++ "\"".toList) 0 = some idp →
      idp + ("id=\"".toList ++ pid ++ "\"".toList).length ≤ cs →
      replace_products_grid html pid cards = some t →
      replace_products_grid t pid cards = some t) ∧
    (∀ s, occursIn s cssSnippet = true → ensure_css_snippet s = s) ∧
    (∀ s, ensure_css_snippet (ensure_css_snippet s) = ensure_css_snippet s) ∧
    (∀ (s : Str) (j : Nat), ¬ occursIn s cssSnippet = true →
      sfind s memorialMarker 0 = some j →
      sfind s memorialMarker (j + 1) = none →
      ensure_css_snippet s
        = s.take j ++ cssSnippet ++ "\n        ".toList ++ memorialMarker
          ++ s.drop (j + memorialMarker.length)) :=
  ⟨fun _ _ _ _ _ hbal h => replace_div_inner_idem hbal h,
   fun _ _ _ _ _ _ _ _ hbal hb hid hle h =>
     replace_products_grid_idem hbal hb hid hle h,
   fun _ h => ensure_css_skip h,
   ensure_css_idempotent,
   fun _ _ h1 h2 h3 => ensure_css_single_insert h1 h2 h3⟩

/-- The one-application outputs used to witness C4's amended theorem. -/
def c4dres : Str := "<div class=\"c\">\n  <div></div>\n</div>".toList

def c4gres : Str :=
  ("<html>\n    <div id=\"pg\">\n    <div class=\"products-grid\">"
    ++ "\n  <div>y</div>\n</div>\n    </div>\n</html>").toList

def c4mdoc : Str := "A".toList ++ memorialMarker ++ "B".toList

/-- Witness for C4 (amended) at concrete inputs: a balanced-fragment div
replacement, a balanced-card grid replacement, the skip case, the
idempotence case, and a unique-anchor insertion. -/
theorem c4_witness :
    replace_div_inner c4dres ("c".toList) [("<div></div>".toList)] 1
      = some c4dres ∧
    replace_products_grid c4gres ("pg".toList) [("<div>y</div>".toList)]
      = some c4gres ∧
    ensure_css_snippet cssSnippet = cssSnippet ∧
    ensure_css_snippet (ensure_css_snippet []) = ensure_css_snippet [] ∧
    ensure_css_snippet c4mdoc
      = c4mdoc.take 1 ++ cssSnippet ++ "\n        ".toList ++ memorialMarker
        ++ c4mdoc.drop (1 + memorialMarker.length) :=
  ⟨c4_patch_idempotence.1 ("<div class=\"c\">x</div>".toList) ("c".toList)
      [("<div></div>".toList)] 1 c4dres (by decide) (by decide),
   c4_patch_idempotence.2.1 c8doc ("pg".toList) [("<div>y</div>".toList)]
      c4gres 29 56 73 16 (by decide) (by decide) (by decide) (by decide)
      (by decide),
   c4_patch_idempotence.2.2.1 cssSnippet (by decide),
   c4_patch_idempotence.2.2.2.1 [],
   c4_patch_idempotence.2.2.2.2 c4mdoc 1 (by decide) (by decide) (by decide)⟩
